import Mathlib

/-!
# SPIE export service and upload manager

A shallow embedding of `src/js/export-service.js` (class `ExportService`) and
`src/js/upload-manager.js` (class `UploadManager`), with the properties of the
specification stated over it.

Conventions of the embedding.

* A JavaScript string is the list of its UTF-16 code units (`JSString`); the
  source only ever indexes, compares and concatenates code units.
* A JavaScript array is a `List`; array indices and sizes are natural numbers.
* An `async` method is a function that returns, next to its result, what it did
  to the world; a rejected promise is `Except.error` of the error message.
-/

namespace SPIE

/-! ## Strings -/

/-- A JavaScript string: the list of its UTF-16 code units. -/
abbrev JSString := List Nat

/-- The code units of a literal; exact for literals inside the Basic Multilingual Plane. -/
def lit (s : String) : JSString := s.toList.map Char.toNat

/-! ## Comments and flattening (`export-service.js`) -/

/-- A comment record: `fields` stands for every key the export code passes on untouched
(author, text, like count, ids, ...); `replies` is the optional reply list, `none` when
the key is missing or `null`. -/
inductive Comment (α : Type) where
  | mk (fields : α) (replies : Option (List (Comment α))) : Comment α

namespace Comment

/-- The `fields` part of a comment. -/
def fields {α : Type} : Comment α → α
  | mk f _ => f

/-- The value of `comment.replies`. -/
def replies {α : Type} : Comment α → Option (List (Comment α))
  | mk _ r => r

end Comment

/-- One iteration of the loop of `flattenComments`: push the comment, then, if
`comment.replies && comment.replies.length > 0`, push its replies. -/
def flattenStep {α : Type} (flattened : List (Comment α)) (comment : Comment α) :
    List (Comment α) :=
  let flattened := flattened ++ [comment]
  match comment.replies with
  | some replies => if replies.length > 0 then flattened ++ replies else flattened
  | none => flattened

/-- Source: `flattenComments(commentsWithReplies)`: the `for ... of` loop over the input,
starting from the empty array. -/
def flattenComments {α : Type} (commentsWithReplies : List (Comment α)) : List (Comment α) :=
  commentsWithReplies.foldl flattenStep []

/-- The direct replies of a comment, none when the reply list is missing. -/
def directReplies {α : Type} (c : Comment α) : List (Comment α) :=
  c.replies.getD []

/-! ## Batching (`generateFflateZIPs`, `chunkArray`) -/

/-- `Array.prototype.slice(start, end)` for natural-number arguments. -/
def slice {α : Type} (xs : List α) (start stop : Nat) : List α :=
  (xs.take stop).drop start

/-- `Math.ceil(length / batchSize)` for a positive integer `batchSize`
(for `batchSize = 0` JavaScript yields `Infinity` or `NaN`; every statement below
assumes `1 ≤ batchSize`). -/
def totalBatches (length batchSize : Nat) : Nat :=
  (length + batchSize - 1) / batchSize

/-- The `batchComments` of iteration `batchIndex` in `generateFflateZIPs`:
`comments.slice(startIndex, endIndex)` with `startIndex = batchIndex * batchSize` and
`endIndex = Math.min(startIndex + batchSize, comments.length)`. -/
def batchComments {α : Type} (comments : List α) (batchSize batchIndex : Nat) : List α :=
  let startIndex := batchIndex * batchSize
  let endIndex := min (startIndex + batchSize) comments.length
  slice comments startIndex endIndex

/-- All batches that the loop `for (batchIndex = 0; batchIndex < totalBatches; batchIndex++)`
of `generateFflateZIPs` forms, in order. -/
def batches {α : Type} (comments : List α) (batchSize : Nat) : List (List α) :=
  (List.range (totalBatches comments.length batchSize)).map (batchComments comments batchSize)

/-- The loop of `chunkArray`, `for (i = 0; i < array.length; i += chunkSize)`, entered with
`rest = array.slice(i)`; `fuel` bounds the number of iterations. -/
def chunkLoop {α : Type} (chunkSize : Nat) : Nat → List α → List (List α)
  | 0, _ => []
  | fuel + 1, rest =>
    if rest.length > 0 then rest.take chunkSize :: chunkLoop chunkSize fuel (rest.drop chunkSize)
    else []

/-- Source: `chunkArray(array, chunkSize)` for `chunkSize ≥ 1`: at most `array.length`
iterations are needed. -/
def chunkArray {α : Type} (array : List α) (chunkSize : Nat) : List (List α) :=
  chunkLoop chunkSize array.length array

/-! ## CSV parsing (`upload-manager.js`) -/

/-- The loop of `parseCSVLine` over the code units from index `i` on; `result`, `current`
and `inQuotes` are the loop variables, and the list is `line.slice(i)`, so that its second
element is `nextChar`. Code unit 34 is the double quote, 44 the comma. -/
def parseCSVLoop : List Nat → List JSString → JSString → Bool → List JSString
  | [], result, current, _ => result ++ [current]
  | char :: rest, result, current, inQuotes =>
    if char = 34 then
      match rest with
      | nextChar :: rest' =>
        if inQuotes && nextChar = 34 then parseCSVLoop rest' result (current ++ [34]) inQuotes
        else parseCSVLoop (nextChar :: rest') result current (!inQuotes)
      | [] => parseCSVLoop [] result current (!inQuotes)
    else if char = 44 && !inQuotes then parseCSVLoop rest (result ++ [current]) [] inQuotes
    else parseCSVLoop rest result (current ++ [char]) inQuotes

/-- Source: `parseCSVLine(line)`. -/
def parseCSVLine (line : JSString) : List JSString :=
  parseCSVLoop line [] [] false

/-- The white space and line terminators that `String.prototype.trim` strips. -/
def isWhitespace (c : Nat) : Bool :=
  c = 9 || c = 10 || c = 11 || c = 12 || c = 13 || c = 32 || c = 160 || c = 5760 ||
  (8192 ≤ c && c ≤ 8202) || c = 8232 || c = 8233 || c = 8239 || c = 8287 || c = 12288 ||
  c = 65279

/-- `String.prototype.trim`. -/
def trim (s : JSString) : JSString :=
  (s.dropWhile isWhitespace).rdropWhile isWhitespace

/-- `String.prototype.split(sep)` for a separator of one code unit. -/
def splitOn (sep : Nat) : JSString → List JSString
  | [] => [[]]
  | c :: rest =>
    if c = sep then [] :: splitOn sep rest
    else
      match splitOn sep rest with
      | seg :: segs => (c :: seg) :: segs
      | [] => [[c]]

/-- A plain JavaScript object with string values, as the list of its own properties. -/
abbrev JSObject := List (JSString × JSString)

/-- The property name `__proto__`. -/
def protoKey : JSString := [95, 95, 112, 114, 111, 116, 111, 95, 95]

namespace JSObject

/-- The own property `key` of an object, if there is one. -/
def get (o : JSObject) (key : JSString) : Option JSString :=
  match o with
  | [] => none
  | (k, v) :: rest => if k = key then some v else get rest key

/-- The names of the own properties. -/
def keys (o : JSObject) : List JSString := o.map Prod.fst

/-- The assignment `o[key] = value` of a string `value` on an object created by `{}`.
For `key = "__proto__"` the assignment reaches the inherited setter of `Object.prototype`,
which ignores a value that is neither an object nor `null`: no own property is created. -/
def set (o : JSObject) (key value : JSString) : JSObject :=
  if key = protoKey then o
  else if (o.get key).isSome then o.map (fun kv => if kv.1 = key then (kv.1, value) else kv)
  else o ++ [(key, value)]

end JSObject

/-- The expression `values[index] || ''`: the empty string stands in for a missing entry
(and for an empty one). -/
def orEmpty : Option JSString → JSString
  | some v => if v = [] then [] else v
  | none => []

/-- The callback loop `headers.forEach((header, index) => comment[header] = values[index] || '')`
from position `index` on. -/
def fillRow (values : List JSString) : List JSString → Nat → JSObject → JSObject
  | [], _, comment => comment
  | header :: headers, index, comment =>
    fillRow values headers (index + 1) (comment.set header (orEmpty values[index]?))

/-- One iteration of the `for` loop of `parseCSV` on the raw line `lines[i]`. -/
def parseCSVStep (headers : List JSString) (comments : List JSObject) (rawLine : JSString) :
    List JSObject :=
  let line := trim rawLine
  if line = [] then comments
  else
    let values := parseCSVLine line
    if values.length ≥ headers.length then comments ++ [fillRow values headers 0 []]
    else comments

/-- Source: `parseCSV(csvText)`. `lines[0]` always exists, since `split` returns at least
one piece. Code unit 10 is the newline. -/
def parseCSV (csvText : JSString) : List JSObject :=
  let lines := splitOn 10 csvText
  let headers := parseCSVLine (lines.headD [])
  (lines.drop 1).foldl (parseCSVStep headers) []

/-- The writer that the round-trip property speaks of: a field wrapped in double quotes,
every double quote inside it doubled. -/
def quoteField (field : JSString) : JSString :=
  34 :: (field.flatMap (fun c => if c = 34 then [34, 34] else [c]) ++ [34])

/-- The writer that the round-trip property speaks of: the quoted fields joined by commas. -/
def quoteLine : List JSString → JSString
  | [] => []
  | [field] => quoteField field
  | field :: fields => quoteField field ++ 44 :: quoteLine fields

/-- Lines joined by newlines, the inverse of `splitOn 10` on lines without a newline. -/
def joinLines : List JSString → JSString
  | [] => []
  | [line] => line
  | line :: lines => line ++ 10 :: joinLines lines

/-- What one raw data line contributes to the result of `parseCSV`: its row, or nothing
when the line is blank or has fewer fields than there are headers. -/
def rowOfLine (headers : List JSString) (rawLine : JSString) : Option JSObject :=
  if trim rawLine = [] then none
  else if (parseCSVLine (trim rawLine)).length ≥ headers.length then
    some (fillRow (parseCSVLine (trim rawLine)) headers 0 [])
  else none

/-! ## File validation (`upload-manager.js`) -/

/-- The part of a browser `File` that `validateFile` reads. -/
structure File where
  name : JSString
  type : JSString
  size : Nat
  deriving DecidableEq, Repr

/-- The upload categories, the values of the parameter `type` of `validateFile`. -/
inductive Category where
  | avatar
  | media
  | comments
  deriving DecidableEq, Repr

/-- One entry of the table `validations`. -/
structure Validation where
  types : List JSString
  maxSize : Nat
  errorMsg : String

/-- The table `validations` of `validateFile`. -/
def validations : Category → Validation
  | .avatar =>
    { types := [lit "image/png", lit "image/jpeg", lit "image/jpg"]
      maxSize := 10 * 1024 * 1024
      errorMsg := "Avatar must be PNG or JPG format, max 10MB" }
  | .media =>
    { types := [lit "video/mp4", lit "image/jpeg", lit "image/jpg"]
      maxSize := 100 * 1024 * 1024
      errorMsg := "Media must be MP4 or JPG format, max 100MB" }
  | .comments =>
    { types := [lit "text/csv", lit "application/vnd.ms-excel"]
      maxSize := 50 * 1024 * 1024
      errorMsg := "Comments must be CSV format, max 50MB" }

/-- The effect of `toLowerCase` on one code unit of the Latin letters `A`..`Z`. The other case
mappings of Unicode never yield one of the code units of `.csv`, so they do not matter to
`name.toLowerCase().endsWith('.csv')`. -/
def lowerLatin (c : Nat) : Nat :=
  if 65 ≤ c ∧ c ≤ 90 then c + 32 else c

/-- The test `file.name.toLowerCase().endsWith('.csv')`. -/
def hasCsvExtension (name : JSString) : Bool :=
  (lit ".csv").isSuffixOf (name.map lowerLatin)

/-- Source: `validateFile(file, type)`: the returned boolean, and the text of the `alert`
it raised, if any. -/
def validateFile (file : File) (type : Category) : Bool × Option String :=
  let validation := validations type
  if !validation.types.contains file.type && !hasCsvExtension file.name then
    (false, some validation.errorMsg)
  else if file.size > validation.maxSize then
    (false, some validation.errorMsg)
  else
    (true, none)

/-! ## Export session state (`export-service.js`) -/

/-- The texts written to `exportProgress.status`, one constructor for each literal or
template of the source. -/
inductive Status where
  /-- `'Ready'` -/
  | ready
  /-- `'Cancelled'` -/
  | cancelled
  /-- `'Export cancelled'` -/
  | exportCancelled
  /-- `'Starting export...'` -/
  | starting
  /-- `Batch ${batch}/${totalBatches}: Generating image ${image}/${batchLength}` -/
  | generatingImage (batch totalBatches image batchLength : Nat)
  /-- `Batch ${batch}/${totalBatches}: Creating ZIP with ${images} images...` -/
  | creatingZip (batch totalBatches images : Nat)
  /-- `✅ Completed batch ${batch}/${totalBatches}` -/
  | completedBatch (batch totalBatches : Nat)
  /-- `✅ Export complete! Downloaded ${zips} ZIP file(s)` -/
  | exportComplete (zips : Nat)
  /-- `Processing video ${video}/${totalVideos}: ${title}` -/
  | processingVideo (video totalVideos : Nat) (title : Option JSString)
  /-- `Video ${video}/${totalVideos}: ${status}` -/
  | inVideo (video totalVideos : Nat) (status : Status)
  /-- `✅ Export complete! Downloaded ${archives} video archive(s)` -/
  | allComplete (archives : Nat)
  deriving DecidableEq, Repr

/-- The object `exportProgress`; a key that the object does not carry is `none`. -/
structure ExportProgress where
  status : Status
  current : Option Nat := none
  total : Option Nat := none
  completed : Option Nat := none
  currentVideo : Option Nat := none
  totalVideos : Option Nat := none
  currentVideoComments : Option Nat := none
  totalVideoComments : Option Nat := none
  deriving DecidableEq, Repr

/-- The fields of an `ExportService` that the export methods read and write. -/
structure ExportService where
  isExporting : Bool
  isCancelled : Bool
  exportProgress : ExportProgress
  maxCommentsPerZip : Nat
  deriving DecidableEq, Repr

/-- Source: `constructor()`. -/
def ExportService.new : ExportService :=
  { isExporting := false
    isCancelled := false
    exportProgress := { current := some 0, total := some 0, status := .ready }
    maxCommentsPerZip := 500 }

/-- Source: the first `cancelExport()` of the class body (lines 378-387). The class body
defines `cancelExport` a second time further down, and the later definition replaces this
one on the prototype: this body is never run. -/
def cancelExportShadowed (s : ExportService) : ExportService :=
  { s with
    isCancelled := true
    isExporting := false
    exportProgress := { current := some 0, total := some 0, status := .cancelled } }

/-- Source: `cancelExport()`, the last definition of the class body (lines 1671-1678), which
is the method that a call reaches. -/
def cancelExport (s : ExportService) : ExportService :=
  { s with
    isExporting := false
    exportProgress := { current := some 0, total := some 0, status := .exportCancelled } }

/-- Source: `isExportInProgress()`. -/
def isExportInProgress (s : ExportService) : Bool := s.isExporting

/-- Source: `getProgress()`. -/
def getProgress (s : ExportService) : ExportProgress := s.exportProgress

/-- The entry of `exportVideoComments` and of `exportAllVideos`, up to the `try`: the
reentrancy check, then `isExporting = true` and `isCancelled = false`. -/
def beginExport (s : ExportService) : Except String ExportService :=
  if s.isExporting then .error "Export already in progress"
  else .ok { s with isExporting := true, isCancelled := false }

/-- The `finally` block of `exportVideoComments` and of `exportAllVideos`. -/
def endExport (s : ExportService) : ExportService :=
  { s with isExporting := false }

/-! ## File names (`export-service.js`) -/

/-- The character class `[<>:"/\\|?*]` of `sanitizeFilename`. -/
def isInvalidFilenameChar (c : Nat) : Bool :=
  c = 60 || c = 62 || c = 58 || c = 34 || c = 47 || c = 92 || c = 124 || c = 63 || c = 42

/-- The replacement `.replace(/\s+/g, '_')`: every maximal run of white space becomes one
underscore (code unit 95); `inRun` tells that the previous code unit was white space. -/
def collapseWhitespace : Bool → JSString → JSString
  | _, [] => []
  | inRun, c :: rest =>
    if isWhitespace c then
      if inRun then collapseWhitespace true rest else 95 :: collapseWhitespace true rest
    else c :: collapseWhitespace false rest

/-- Source: `sanitizeFilename(text, maxLength = 50)`; `none` is a `text` that is not a
string. -/
def sanitizeFilename (text : Option JSString) (maxLength : Nat := 50) : JSString :=
  match text with
  | none => lit "untitled"
  | some text =>
    if text = [] then lit "untitled"
    else
      (((collapseWhitespace false (text.filter (fun c => !isInvalidFilenameChar c))).take
        maxLength).rdropWhile (fun c => c = 95))

/-- The decimal digits of a natural number, as a template literal prints it. -/
def decimal (n : Nat) : JSString := (Nat.toDigits 10 n).map Char.toNat

/-- The `zipName` of iteration `batchIndex` in `generateFflateZIPs`. -/
def zipName (videoTitle : Option JSString) (totalBatches batchIndex : Nat) : JSString :=
  let zipSuffix := if totalBatches > 1 then lit "_part" ++ decimal (batchIndex + 1) else []
  sanitizeFilename videoTitle ++ zipSuffix ++ lit "_comments.zip"

/-! ## The export run (`export-service.js`) -/

/-- What the rendering of one comment gave: `threw` when the `try` block around it raised
(in the renderer, in the file name generation or in `arrayBuffer()`); otherwise the generated
`filename` and the PNG blob, `none` for a `null` blob. -/
inductive RenderOutcome where
  | threw
  | blob (filename : JSString) (png : Option (List Nat))
  deriving DecidableEq, Repr

/-- The object `imageFiles`: from file name to bytes. Every key ends in `.png`. -/
abbrev ImageFiles := List (JSString × List Nat)

/-- The assignment `imageFiles[name] = bytes`: a later equal name overwrites. -/
def ImageFiles.set (files : ImageFiles) (name : JSString) (bytes : List Nat) : ImageFiles :=
  if files.any (fun kv => kv.1 = name) then
    files.map (fun kv => if kv.1 = name then (kv.1, bytes) else kv)
  else files ++ [(name, bytes)]

/-- The world around one export run. The run polls the cancellation flag at numbered checks
(0, 1, 2, ... in the order in which it makes them); `cancelAt = some t` says that the flag,
reset when the run began, is set from outside between check `t - 1` and check `t` and stays
set. `render` and `zipOk` are the rasteriser and the archiver, asked at the number of checks
made so far. -/
structure World (α : Type) where
  cancelAt : Option Nat
  render : Nat → Comment α → RenderOutcome
  zipOk : Nat → Bool

/-- The value of `this.isCancelled` at check number `tick`. -/
def World.flagAt {α : Type} (w : World α) (tick : Nat) : Bool :=
  match w.cancelAt with
  | some t => decide (t ≤ tick)
  | none => false

/-- A request to the data manager. -/
inductive Query where
  /-- the look-up of the video in `videoMap` and `videos` -/
  | videoInfo (videoId : Nat)
  /-- `getAllComments(videoId, {})` -/
  | getAllComments (videoId : Nat)
  /-- `getVideos({}, { page: 1, limit: 10000 })` -/
  | getVideos
  deriving DecidableEq, Repr

/-- What a run has done so far. -/
structure Run where
  /-- the number of cancellation checks made -/
  checks : Nat
  /-- the object `this.exportProgress` -/
  progress : ExportProgress
  /-- the global indices of the comments whose rendering was started, latest last -/
  attempts : List Nat
  /-- the archives handed to `downloadBlob`, latest last -/
  downloads : List (JSString × ImageFiles)
  /-- the requests made to the data manager, latest last -/
  queries : List Query
  deriving DecidableEq, Repr

/-- The inner loop of `generateFflateZIPs`, `for (i = 0; i < batchComments.length; i++)`, over
the comments from position `i` on. The result is `none` when the cancellation check raised
`'Export cancelled by user'`, else the collected `imageFiles`. `onProgress` is the effect of
`progressCallback` on `this.exportProgress`. -/
def commentLoop {α : Type} (w : World α) (onProgress : ExportProgress → ExportProgress)
    (batchIndex totalBatches startIndex batchLength : Nat) :
    List (Comment α) → Nat → ImageFiles → Run → Option ImageFiles × Run
  | [], _, imageFiles, run => (some imageFiles, run)
  | comment :: rest, i, imageFiles, run =>
    if w.flagAt run.checks then (none, { run with checks := run.checks + 1 })
    else
      let globalIndex := startIndex + i
      let generating : ExportProgress :=
        { run.progress with
          completed := some globalIndex
          status := .generatingImage (batchIndex + 1) totalBatches (i + 1) batchLength }
      let run := { run with
        checks := run.checks + 1
        progress := onProgress generating
        attempts := run.attempts ++ [globalIndex] }
      let imageFiles :=
        match w.render run.checks comment with
        | .blob filename (some png) =>
          if png.length > 0 then imageFiles.set (filename ++ lit ".png") png else imageFiles
        | _ => imageFiles
      commentLoop w onProgress batchIndex totalBatches startIndex batchLength rest (i + 1)
        imageFiles run

/-- The outer loop of `generateFflateZIPs`, `for (batchIndex = 0; batchIndex < totalBatches;
batchIndex++)`, from `batchIndex` on with `remaining = totalBatches - batchIndex` iterations to
go. The cancellation check at the head of an iteration is outside the `try`, so it ends the
method with the error; what is raised inside the `try` (the check of the inner loop, a failed
archive) is caught and the loop goes on with the next batch. -/
def batchLoop {α : Type} (w : World α) (onProgress : ExportProgress → ExportProgress)
    (comments : List (Comment α)) (videoTitle : Option JSString) (batchSize totalBatches : Nat) :
    Nat → Nat → List JSString → Run → Except String (List JSString) × Run
  | 0, _, zipFiles, run => (.ok zipFiles, run)
  | remaining + 1, batchIndex, zipFiles, run =>
    if w.flagAt run.checks then
      (.error "Export cancelled by user", { run with checks := run.checks + 1 })
    else
      let run := { run with checks := run.checks + 1 }
      let startIndex := batchIndex * batchSize
      let batch := batchComments comments batchSize batchIndex
      let name := zipName videoTitle totalBatches batchIndex
      match commentLoop w onProgress batchIndex totalBatches startIndex batch.length batch 0 []
          run with
      | (none, run) =>
        batchLoop w onProgress comments videoTitle batchSize totalBatches remaining
          (batchIndex + 1) zipFiles run
      | (some imageFiles, run) =>
        if imageFiles.length > 0 then
          let creating : ExportProgress :=
            { run.progress with
              status := .creatingZip (batchIndex + 1) totalBatches imageFiles.length }
          let run := { run with progress := onProgress creating }
          if w.zipOk run.checks then
            let completed : ExportProgress :=
              { run.progress with status := .completedBatch (batchIndex + 1) totalBatches }
            let run := { run with
              downloads := run.downloads ++ [(name, imageFiles)]
              progress := onProgress completed }
            batchLoop w onProgress comments videoTitle batchSize totalBatches remaining
              (batchIndex + 1) (zipFiles ++ [name]) run
          else
            batchLoop w onProgress comments videoTitle batchSize totalBatches remaining
              (batchIndex + 1) zipFiles run
        else
          batchLoop w onProgress comments videoTitle batchSize totalBatches remaining
            (batchIndex + 1) zipFiles run

/-- Source: `generateFflateZIPs(comments, videoTitle, batchSize, progressCallback, format)`,
for `batchSize ≥ 1`. The `format` only selects the renderer, which is part of the world. -/
def generateFflateZIPs {α : Type} (w : World α) (onProgress : ExportProgress → ExportProgress)
    (comments : List (Comment α)) (videoTitle : Option JSString) (batchSize : Nat) (run : Run) :
    Except String (List JSString) × Run :=
  batchLoop w onProgress comments videoTitle batchSize
    (totalBatches comments.length batchSize) (totalBatches comments.length batchSize) 0 [] run

/-- The part of a video record that the export reads. -/
structure Video where
  video_id : Nat
  title : Option JSString
  deriving DecidableEq, Repr

/-- The data manager, an external collaborator: its two optional collections and its two
asynchronous requests, a rejected promise being `Except.error`. -/
structure DataManager (α : Type) where
  videoMap : Option (List (Nat × Video))
  videos : Option (List Video)
  getAllComments : Nat → Except String (List (Comment α))
  getVideos : Except String (List Video)

/-- The `video.title` that `exportVideoComments` works with: the entry of `videoMap` when the
map has the id, else the match in a non-empty `videos`, else the fallback
`{ title: 'Instagram Post', ... }`. -/
def videoTitleOf {α : Type} (dm : DataManager α) (videoId : Nat) : Option JSString :=
  let inVideos : Option Video :=
    match dm.videos with
    | some videos => if videos.length > 0 then videos.find? (fun v => v.video_id = videoId) else none
    | none => none
  let video : Option Video :=
    match dm.videoMap with
    | some map =>
      match map.lookup videoId with
      | some v => some v
      | none => inVideos
    | none => inVideos
  match video with
  | some v => v.title
  | none => some (lit "Instagram Post")

/-- What a call of an export method gave: the settled promise, the service afterwards, and
what the run did. -/
structure Outcome where
  result : Except String (List JSString)
  service : ExportService
  run : Run

/-- A run that has done nothing yet. -/
def Run.idle (progress : ExportProgress) : Run :=
  { checks := 0, progress := progress, attempts := [], downloads := [], queries := [] }

/-- The service when a run ends: the `finally` block has cleared `isExporting`, the progress
object is the one the run wrote last, and the cancellation flag is as the last check of the
run saw it. -/
def settle {α : Type} (w : World α) (s : ExportService) (run : Run) : ExportService :=
  endExport { s with
    exportProgress := run.progress
    isCancelled := decide (0 < run.checks) && w.flagAt (run.checks - 1) }

/-- Source: `exportVideoComments(videoId, dataManager, progressCallback, format)`, the last
definition of the class body (lines 393-453), which is the one in force. -/
def exportVideoComments {α : Type} (w : World α) (dm : DataManager α) (videoId : Nat)
    (s : ExportService) : Outcome :=
  match beginExport s with
  | .error e => { result := .error e, service := s, run := Run.idle s.exportProgress }
  | .ok s =>
    let videoTitle := videoTitleOf dm videoId
    let run := { Run.idle s.exportProgress with
      queries := [.videoInfo videoId, .getAllComments videoId] }
    match dm.getAllComments videoId with
    | .error e => { result := .error e, service := settle w s run, run := run }
    | .ok commentsData =>
      let comments := flattenComments commentsData
      if comments.length = 0 then
        { result := .error "No comments found for this video", service := settle w s run,
          run := run }
      else
        let run := { run with
          progress := { current := some 0, total := some comments.length, status := .starting } }
        let onProgress : ExportProgress → ExportProgress :=
          fun p => { p with current := some (p.completed.getD 0) }
        match generateFflateZIPs w onProgress comments videoTitle s.maxCommentsPerZip run with
        | (.error e, run) => { result := .error e, service := settle w s run, run := run }
        | (.ok zipFiles, run) =>
          let total := run.progress.total
          let complete : ExportProgress :=
            { run.progress with current := total, status := .exportComplete zipFiles.length }
          let run := { run with progress := complete }
          { result := .ok zipFiles, service := settle w s run, run := run }

/-- The loop `for (videoIndex = 0; videoIndex < videos.length; videoIndex++)` of
`exportAllVideos` over the videos from `videoIndex` on. The cancellation check at the head of
an iteration ends the method with the error; whatever is raised inside the `try` of an
iteration is caught, and the loop goes on with the next video. -/
def videoLoop {α : Type} (w : World α) (dm : DataManager α) (batchSize totalVideos : Nat) :
    List Video → Nat → List JSString → Run → Except String (List JSString) × Run
  | [], _, zipFiles, run => (.ok zipFiles, run)
  | video :: rest, videoIndex, zipFiles, run =>
    if w.flagAt run.checks then
      (.error "Export cancelled by user", { run with checks := run.checks + 1 })
    else
      let processing : ExportProgress :=
        { run.progress with
          currentVideo := some (videoIndex + 1)
          currentVideoComments := some 0
          status := .processingVideo (videoIndex + 1) totalVideos video.title }
      let run := { run with
        checks := run.checks + 1
        progress := processing
        queries := run.queries ++ [.getAllComments video.video_id] }
      match dm.getAllComments video.video_id with
      | .error _ => videoLoop w dm batchSize totalVideos rest (videoIndex + 1) zipFiles run
      | .ok commentsData =>
        let comments := flattenComments commentsData
        if comments.length = 0 then
          videoLoop w dm batchSize totalVideos rest (videoIndex + 1) zipFiles run
        else
          let counted : ExportProgress :=
            { run.progress with totalVideoComments := some comments.length }
          let run := { run with progress := counted }
          let onProgress : ExportProgress → ExportProgress :=
            fun p => { p with
              currentVideoComments := some (p.completed.getD 0)
              status := .inVideo (videoIndex + 1) totalVideos p.status }
          match generateFflateZIPs w onProgress comments video.title batchSize run with
          | (.error _, run) =>
            videoLoop w dm batchSize totalVideos rest (videoIndex + 1) zipFiles run
          | (.ok videoZipFiles, run) =>
            videoLoop w dm batchSize totalVideos rest (videoIndex + 1)
              (zipFiles ++ videoZipFiles) run

/-- Source: `exportAllVideos(dataManager, progressCallback, format)`. -/
def exportAllVideos {α : Type} (w : World α) (dm : DataManager α) (s : ExportService) :
    Outcome :=
  match beginExport s with
  | .error e => { result := .error e, service := s, run := Run.idle s.exportProgress }
  | .ok s =>
    let run := { Run.idle s.exportProgress with queries := [.getVideos] }
    match dm.getVideos with
    | .error e => { result := .error e, service := settle w s run, run := run }
    | .ok videos =>
      if videos.length = 0 then
        { result := .error "No videos found", service := settle w s run, run := run }
      else
        let run := { run with
          progress :=
            { currentVideo := some 0, totalVideos := some videos.length,
              currentVideoComments := some 0, totalVideoComments := some 0,
              status := .starting } }
        match videoLoop w dm s.maxCommentsPerZip videos.length videos 0 [] run with
        | (.error e, run) => { result := .error e, service := settle w s run, run := run }
        | (.ok zipFiles, run) =>
          let complete : ExportProgress :=
            { run.progress with status := .allComplete zipFiles.length }
          let run := { run with progress := complete }
          { result := .ok zipFiles, service := settle w s run, run := run }

/-! ## The session as a state machine -/

/-- What can happen to one `ExportService` between two turns of the event loop. -/
inductive SessionEvent where
  /-- a call of `exportVideoComments` or `exportAllVideos`, run up to its first `await` -/
  | start
  /-- a run that is in flight reaches its `finally` block -/
  | finish
  /-- a call of `cancelExport` -/
  | cancel
  deriving DecidableEq, Repr

/-- The service together with the number of export runs that were started and have not yet
reached their `finally` block. -/
structure Session where
  service : ExportService
  inFlight : Nat
  deriving DecidableEq, Repr

/-- A fresh service with no run in flight. -/
def Session.new : Session := { service := ExportService.new, inFlight := 0 }

/-- The effect of one event. A rejected `start` and a `finish` with nothing in flight leave
the session as it is. -/
def Session.step (σ : Session) : SessionEvent → Session
  | .start =>
    match beginExport σ.service with
    | .error _ => σ
    | .ok s => { service := s, inFlight := σ.inFlight + 1 }
  | .finish =>
    if σ.inFlight = 0 then σ
    else { service := endExport σ.service, inFlight := σ.inFlight - 1 }
  | .cancel => { σ with service := cancelExport σ.service }

/-- The session after a sequence of events. -/
def Session.run (σ : Session) (events : List SessionEvent) : Session :=
  events.foldl Session.step σ

/-! ## Sample inputs and derived notions -/

/-- A service on which an export has begun: the state after `beginExport` on a fresh one. -/
def ExportService.exporting : ExportService :=
  { ExportService.new with isExporting := true }

/-- A world in which nobody cancels, every comment renders to a one-byte image named `c`, and
every archive is built. -/
def World.calm : World Unit :=
  { cancelAt := none
    render := fun _ _ => .blob (lit "c") (some [1])
    zipOk := fun _ => true }

/-- A data manager that knows one video, with id 7 and title `clip`, and gives it the listed
top-level comments. -/
def DataManager.single (comments : List (Comment Unit)) : DataManager Unit :=
  { videoMap := none
    videos := some [{ video_id := 7, title := some (lit "clip") }]
    getAllComments := fun _ => .ok comments
    getVideos := .ok [{ video_id := 7, title := some (lit "clip") }] }

/-- The events before which a `cancel` finds no run in flight. -/
def Session.cancelsWhenIdle (σ : Session) : List SessionEvent → Bool
  | [] => true
  | e :: es => (e != .cancel || σ.inFlight == 0) && (σ.step e).cancelsWhenIdle es

/-- The calm world, but with the cancellation flag set from outside just before check `t`. -/
def World.cancelledAt (t : Nat) : World Unit :=
  { World.calm with cancelAt := some t }

/-- A comment without replies. -/
def Comment.plain : Comment Unit := Comment.mk () none

/-- The number of the cancellation check at the head of the last batch, counted from the
first check of `generateFflateZIPs`, in a run of `length ≥ 1` comments in which no earlier
check saw the flag set: each of the `totalBatches - 1` batches before it is full and costs one
check at its head and one for each of its `batchSize` comments. -/
def lastBatchCheck (length batchSize : Nat) : Nat :=
  (totalBatches length batchSize - 1) * (batchSize + 1)

/-- The default service with another value of `maxCommentsPerZip`. -/
def ExportService.withBatchSize (batchSize : Nat) : ExportService :=
  { ExportService.new with maxCommentsPerZip := batchSize }

/-! ## Relative time (`export-service.js`) -/

/-- The values that reach `formatTimeAgo` as `dateStr`. A `Date` object carries its time value
in milliseconds, `none` for an invalid date. -/
inductive DateArg where
  | date (time : Option Int)
  | undefined
  | null
  | number (ms : Int)
  | string (text : JSString)
  deriving DecidableEq, Repr

/-- `TimeClip`: a time value beyond 8.64e15 milliseconds from the epoch is `NaN`. -/
def timeClip (ms : Int) : Option Int :=
  if ms.natAbs ≤ 8640000000000000 then some ms else none

/-- The expression `(dateStr instanceof Date ? dateStr : new Date(dateStr)).getTime()`, `none`
for `NaN`. `parse` is `Date.parse`, which belongs to the host. -/
def toTimeValue (parse : JSString → Option Int) : DateArg → Option Int
  | .date time => time
  | .undefined => none
  | .null => some 0
  | .number ms => timeClip ms
  | .string text => parse text

/-- Source: `formatTimeAgo(dateStr)`, with the clock reading `now = new Date()` as a parameter.
Time values are integers of magnitude below 2^53, for which `Math.floor(x / d)` on doubles is
the integer floor division; on `Int` the operator `/` with a positive divisor is that
division. -/
def formatTimeAgo (parse : JSString → Option Int) (dateStr : DateArg) (now : Int) : JSString :=
  match toTimeValue parse dateStr with
  | none => lit "1d"
  | some date =>
    let diffMs := now - date
    let diffSecs := diffMs / 1000
    let diffMins := diffSecs / 60
    let diffHours := diffMins / 60
    let diffDays := diffHours / 24
    let diffWeeks := diffDays / 7
    let diffMonths := diffDays / 30
    let diffYears := diffDays / 365
    if diffYears > 0 then decimal diffYears.toNat ++ lit "y"
    else if diffMonths > 0 then decimal diffMonths.toNat ++ lit "mo"
    else if diffWeeks > 0 then decimal diffWeeks.toNat ++ lit "w"
    else if diffDays > 0 then decimal diffDays.toNat ++ lit "d"
    else if diffHours > 0 then decimal diffHours.toNat ++ lit "h"
    else if diffMins > 0 then decimal diffMins.toNat ++ lit "m"
    else lit "just now"

/-- The rule for the relative time in the words of the specification, on the elapsed
milliseconds: successive floors of rational quotients, then the coarsest unit that is at
least 1. -/
def timeAgoRule (elapsedMs : Int) : JSString :=
  let secs : Int := ⌊(elapsedMs : ℚ) / 1000⌋
  let mins : Int := ⌊(secs : ℚ) / 60⌋
  let hours : Int := ⌊(mins : ℚ) / 60⌋
  let days : Int := ⌊(hours : ℚ) / 24⌋
  if 1 ≤ ⌊(days : ℚ) / 365⌋ then decimal (⌊(days : ℚ) / 365⌋).toNat ++ lit "y"
  else if 1 ≤ ⌊(days : ℚ) / 30⌋ then decimal (⌊(days : ℚ) / 30⌋).toNat ++ lit "mo"
  else if 1 ≤ ⌊(days : ℚ) / 7⌋ then decimal (⌊(days : ℚ) / 7⌋).toNat ++ lit "w"
  else if 1 ≤ days then decimal days.toNat ++ lit "d"
  else if 1 ≤ hours then decimal hours.toNat ++ lit "h"
  else if 1 ≤ mins then decimal mins.toNat ++ lit "m"
  else lit "just now"

/-- The milliseconds of one day. -/
def msPerDay : Int := 24 * 60 * 60 * 1000

/-! ## Like counts (`export-service.js`) -/

/-- The values that reach `formatLikes` as `count`: `number n` is a non-negative integer
below 2^53, exact as a double; `other` is any value whose `typeof` is not `'number'`. -/
inductive LikeCount where
  | null
  | undefined
  | other
  | number (n : Nat)
  deriving DecidableEq, Repr

/-- The integer nearest to `a / b`, a tie going to the even neighbour. -/
def roundHalfEven (a b : Nat) : Nat :=
  let q := a / b
  let r := a % b
  if 2 * r < b then q
  else if 2 * r > b then q + 1
  else if q % 2 = 0 then q
  else q + 1

/-- The exponent `e` with `2 ^ e ≤ n < 2 ^ (e + 1)` for `1 ≤ n < 2 ^ fuel`. -/
def binaryExponent : Nat → Nat → Nat
  | 0, _ => 0
  | fuel + 1, n => if n ≥ 2 then binaryExponent fuel (n / 2) + 1 else 0

/-- The double that the division `a / b` yields, for integers with `1 ≤ a / b < 2 ^ 53`: the
number with a 53-bit significand nearest to the quotient, a tie going to the even
significand. The pair `(m, s)` stands for the double `m / 2 ^ s`. -/
def divideDouble (a b : Nat) : Nat × Nat :=
  let e := binaryExponent 64 (a / b)
  let s := 52 - e
  (roundHalfEven (a * 2 ^ s) b, s)

/-- `Number.prototype.toFixed(1)` on the double `m / 2 ^ s` (below 1e21): with `n` the integer
for which `n / 10` is nearest to the double, the larger one on a tie, the digits of `n` with a
point before the last one. -/
def toFixed1 (x : Nat × Nat) : JSString :=
  let n := (20 * x.1 + 2 ^ x.2) / 2 ^ (x.2 + 1)
  decimal (n / 10) ++ lit "." ++ decimal (n % 10)

/-- `String.prototype.replace(pattern, replacement)` for a string pattern: the first
occurrence is replaced. -/
def replaceFirst (pattern replacement : JSString) : JSString → JSString
  | [] => if pattern = [] then replacement else []
  | c :: rest =>
    if pattern.isPrefixOf (c :: rest) then replacement ++ (c :: rest).drop pattern.length
    else c :: replaceFirst pattern replacement rest

/-- Source: `formatLikes(count)`. -/
def formatLikes : LikeCount → JSString
  | .number count =>
    if count = 0 then lit "0"
    else if count ≥ 1000 then
      replaceFirst (lit ".0") [] (toFixed1 (divideDouble count 1000)) ++ lit "K"
    else decimal count
  | _ => lit "0"

/-- A number of tenths as `formatLikes` prints it before the `K`: the whole part, and the
tenths digit after a point unless it is 0. -/
def showTenths (t : Nat) : JSString :=
  if t % 10 = 0 then decimal (t / 10) else decimal (t / 10) ++ lit "." ++ decimal (t % 10)

/-- A `Date.parse` that rejects every text. -/
def parseNothing : JSString → Option Int := fun _ => none

/-! ## What a run leaves behind -/

/-- The entry that a render adds to `imageFiles`: the key `${filename}.png` and the bytes,
when the blob exists and is not empty; nothing when the render raised or the blob is `null`
or empty. -/
def renderedImage : RenderOutcome → Option (JSString × List Nat)
  | .blob filename (some png) =>
    if png.length > 0 then some (filename ++ lit ".png", png) else none
  | _ => none

/-- The bytes stored under a file name, if any. -/
def ImageFiles.get (files : ImageFiles) (name : JSString) : Option (List Nat) :=
  match files with
  | [] => none
  | (k, v) :: rest => if k = name then some v else ImageFiles.get rest name

/-- The images stored one after the other, a later equal name overwriting. -/
def storeAll (files : ImageFiles) (images : List (JSString × List Nat)) : ImageFiles :=
  images.foldl (fun fs kv => fs.set kv.1 kv.2) files

/-- The images of the comments of a batch whose render succeeded, in the order of the comments,
when `tick` checks were made before the check of the first comment: the comment at position
`j` is rendered after `tick + j + 1` checks. -/
def batchSuccesses {α : Type} (w : World α) (batch : List (Comment α)) (tick : Nat) :
    List (JSString × List Nat) :=
  (List.range batch.length).filterMap
    (fun j => batch[j]?.bind (fun c => renderedImage (w.render (tick + j + 1) c)))

/-- The archive of batch `batchIndex` in a run that makes the check at the head of the batch
as check number `tick` and is not cancelled during the batch: the images of the batch under
the name of the batch, provided there is an image and the archiver succeeds. -/
def batchArchive {α : Type} (w : World α) (comments : List (Comment α))
    (videoTitle : Option JSString) (batchSize totalBatches tick batchIndex : Nat) :
    Option (JSString × ImageFiles) :=
  let batch := batchComments comments batchSize batchIndex
  let files := storeAll [] (batchSuccesses w batch (tick + 1))
  if files.length > 0 ∧ w.zipOk (tick + 1 + batch.length) = true then
    some (zipName videoTitle totalBatches batchIndex, files)
  else none

/-- The archives of the `count` batches from `first` on, in batch order, in a run that makes
the check at the head of batch `first` as check number `tick` and is not cancelled during
these batches, all but the last of which are full: batch `first + d` has its head check at
`tick + d * (batchSize + 1)`. -/
def archivesFrom {α : Type} (w : World α) (comments : List (Comment α))
    (videoTitle : Option JSString) (batchSize totalBatches tick first count : Nat) :
    List (JSString × ImageFiles) :=
  (List.range count).filterMap
    (fun d => batchArchive w comments videoTitle batchSize totalBatches
      (tick + d * (batchSize + 1)) (first + d))

/-- A world in which nobody cancels and every archive is built, while the render that starts
after a number of checks divisible by 3 raises and the others give a one-byte image, named `0`
or `1` by the parity of that number. -/
def World.patchy : World Unit :=
  { cancelAt := none
    render := fun tick _ =>
      if tick % 3 = 0 then .threw else .blob (decimal (tick % 2)) (some [tick])
    zipOk := fun _ => true }

/-- The patchy world with the cancellation flag set just before check `t`. -/
def World.patchyCancelledAt (t : Nat) : World Unit :=
  { World.patchy with cancelAt := some t }

/-- Five comments without replies. -/
def Comment.five : List (Comment Unit) :=
  [Comment.plain, Comment.plain, Comment.plain, Comment.plain, Comment.plain]

/-! ## The staging record (`upload-manager.js`) -/

/-- The part of `this.uploadedFiles` that the readiness test and the storage code read. A file
slot holds `null` (`none`) or a `File` or `Blob` object; the username is always a string. -/
structure UploadedFiles (φ : Type) where
  avatar : Option φ
  media : Option φ
  comments : Option φ
  username : JSString

/-- The values that the `&&` chain of the readiness test can yield. -/
inductive Value (φ : Type) where
  | null
  | object (file : φ)
  | boolean (b : Bool)

namespace Value

/-- `ToBoolean`: `null` and `false` are falsy, every object is truthy. -/
def toBoolean {φ : Type} : Value φ → Bool
  | null => false
  | object _ => true
  | boolean b => b

/-- The operator `a && b`: the left operand when it is falsy, else the right one. -/
def and {φ : Type} (a b : Value φ) : Value φ :=
  if a.toBoolean then b else a

/-- The value read from a file slot. -/
def ofSlot {φ : Type} : Option φ → Value φ
  | none => null
  | some file => object file

end Value

/-- Source: `isDataValid()`: the value of
`avatar && media && comments && username.length > 0`. -/
def isDataValid {φ : Type} (uploadedFiles : UploadedFiles φ) : Value φ :=
  (((Value.ofSlot uploadedFiles.avatar).and (Value.ofSlot uploadedFiles.media)).and
    (Value.ofSlot uploadedFiles.comments)).and
    (Value.boolean (decide (uploadedFiles.username.length > 0)))

/-- Source: `updateContinueButton()`: the value it assigns to `continueBtn.disabled`, which
is `!isValid` for the same `&&` chain. -/
def updateContinueButton {φ : Type} (uploadedFiles : UploadedFiles φ) : Bool :=
  let isValid :=
    (((Value.ofSlot uploadedFiles.avatar).and (Value.ofSlot uploadedFiles.media)).and
      (Value.ofSlot uploadedFiles.comments)).and
      (Value.boolean (decide (uploadedFiles.username.length > 0)))
  !isValid.toBoolean

/-! ## Local storage (`upload-manager.js`) -/

/-- The browser's `localStorage`: the stored items, and which writes the browser accepts
(`setItem` throws when the quota is exceeded or storage is disabled). -/
structure LocalStorage where
  items : JSString → Option JSString
  accepts : JSString → JSString → Bool

namespace LocalStorage

/-- `localStorage.getItem(key)`, `none` for `null`. -/
def getItem (storage : LocalStorage) (key : JSString) : Option JSString :=
  storage.items key

/-- `localStorage.setItem(key, value)`; `none` when it throws. -/
def setItem (storage : LocalStorage) (key value : JSString) : Option LocalStorage :=
  if storage.accepts key value then
    some { storage with items := fun k => if k = key then some value else storage.items k }
  else none

end LocalStorage

/-- The key `'spie_username'`. -/
def spieUsername : JSString := lit "spie_username"

/-- The key `'spie_avatar'`. -/
def spieAvatar : JSString := lit "spie_avatar"

/-- Source: `saveToStorage()`, up to its return: the storage it leaves, and the avatar whose
data URL it has asked for (`none` when there is no avatar or the `try` block was left by an
exception). -/
def saveToStorage {φ : Type} (uploadedFiles : UploadedFiles φ) (storage : LocalStorage) :
    LocalStorage × Option φ :=
  let saved :=
    if uploadedFiles.username ≠ [] then storage.setItem spieUsername uploadedFiles.username
    else some storage
  match saved with
  | none => (storage, none)
  | some storage => (storage, uploadedFiles.avatar)

/-- The callback `dataUrl => localStorage.setItem('spie_avatar', dataUrl)` of `saveToStorage`,
run when the avatar has been read; an exception is caught and logged. -/
def avatarSaved (storage : LocalStorage) (dataUrl : JSString) : LocalStorage :=
  (storage.setItem spieAvatar dataUrl).getD storage

/-- The page state that the username handler touches. -/
structure Page (φ : Type) where
  uploadedFiles : UploadedFiles φ
  localStorage : LocalStorage
  continueDisabled : Bool
  avatarReads : List φ

/-- Source: the `input` listener of `setupEventListeners`, run with `usernameInput.value`. -/
def Page.usernameInput {φ : Type} (page : Page φ) (value : JSString) : Page φ :=
  let uploadedFiles := { page.uploadedFiles with username := trim value }
  let saved := saveToStorage uploadedFiles page.localStorage
  { uploadedFiles := uploadedFiles
    localStorage := saved.1
    continueDisabled := updateContinueButton uploadedFiles
    avatarReads := page.avatarReads ++ saved.2.toList }

/-- The page after the constructor has run on an empty storage that accepts every write. -/
def Page.fresh : Page Unit :=
  { uploadedFiles := { avatar := none, media := none, comments := none, username := [] }
    localStorage := { items := fun _ => none, accepts := fun _ _ => true }
    continueDisabled := true
    avatarReads := [] }

/-! ## Avatar colours (`export-service.js`) -/

/-- `ToInt32`: the integer modulo 2^32 in the range from -2^31 to 2^31 - 1. -/
def toInt32 (x : Int) : Int :=
  (x + 2147483648) % 4294967296 - 2147483648

/-- One iteration of the loop of `hashString`: `hash = ((hash << 5) - hash) + char`, then
`hash = hash & hash`. The shift yields `ToInt32(ToInt32(hash) * 32)`; the subtraction and the
addition are exact on numbers of this size; `hash & hash` is `ToInt32(hash)`. -/
def hashStep (hash : Int) (char : Nat) : Int :=
  let hash := (toInt32 (toInt32 hash * 32) - hash) + (char : Int)
  toInt32 hash

/-- Source: `hashString(str)`; `Math.abs` of an integer is its absolute value. -/
def hashString (str : JSString) : Nat :=
  (str.foldl hashStep 0).natAbs

/-- The polynomial sum of the code units, `c_0 * 31^(n-1) + ... + c_(n-1) * 31^0`. -/
def polynomialSum (str : JSString) : Nat :=
  ((List.range str.length).map (fun i => str.getD i 0 * 31 ^ (str.length - 1 - i))).sum

/-- The palette `colors` of `generateAvatarColor`. -/
def avatarColors : List JSString :=
  [lit "#FF6B6B", lit "#4ECDC4", lit "#45B7D1", lit "#96CEB4",
   lit "#FFEAA7", lit "#DDA0DD", lit "#98D8C8", lit "#F39C12",
   lit "#E74C3C", lit "#9B59B6", lit "#3498DB", lit "#2ECC71"]

/-- Source: `generateAvatarColor(username)`; `none` stands for `undefined`, the value of an
index outside the array. -/
def generateAvatarColor (username : JSString) : Option JSString :=
  let hash := hashString username
  avatarColors[hash % avatarColors.length]?

/-! ## Export file names (`export-service.js`) -/

/-- The expression `new Date().toISOString().slice(0, 16).replace(/[:-]/g, '')` on the ISO
string `iso` of the clock reading: code unit 58 is the colon, 45 the hyphen. -/
def timestampOf (iso : JSString) : JSString :=
  (slice iso 0 16).filter (fun c => !(c = 58 || c = 45))

/-- Source: `generateFileName(videoTitle, username, commentText)`, with the ISO string of the
clock reading as a parameter. -/
def generateFileName (videoTitle username commentText : Option JSString) (iso : JSString) :
    JSString :=
  let cleanTitle := sanitizeFilename videoTitle 30
  let cleanUsername := sanitizeFilename username 20
  let cleanComment := sanitizeFilename commentText 40
  let timestamp := timestampOf iso
  cleanTitle ++ lit "_" ++ cleanUsername ++ lit "_" ++ cleanComment ++ lit "_" ++ timestamp

/-- The number that a string of decimal digits denotes. -/
def digitsValue (digits : JSString) : Nat :=
  digits.foldl (fun acc d => 10 * acc + (d - 48)) 0

/-! ## Text wrapping (`export-service.js`) -/

/-- One iteration of the loop of `wrapText`; `measure` is `ctx.measureText(...).width`, and the
state is `lines` with `currentLine`. -/
def wrapStep {β : Type} [LinearOrder β] (measure : JSString → β) (maxWidth : β)
    (state : List JSString × JSString) (word : JSString) : List JSString × JSString :=
  let lines := state.1
  let currentLine := state.2
  let testLine := currentLine ++ (if currentLine ≠ [] then lit " " else []) ++ word
  if maxWidth < measure testLine ∧ currentLine ≠ [] then (lines ++ [currentLine], word)
  else (lines, testLine)

/-- Source: `wrapText(ctx, text, maxWidth)`. Code unit 32 is the space. -/
def wrapText {β : Type} [LinearOrder β] (measure : JSString → β) (text : JSString)
    (maxWidth : β) : List JSString :=
  let words := splitOn 32 text
  let state := words.foldl (wrapStep measure maxWidth) ([], [])
  if state.2 ≠ [] then state.1 ++ [state.2] else state.1

/-- Words joined by single spaces. -/
def joinWords : List JSString → JSString
  | [] => []
  | [word] => word
  | word :: words => word ++ 32 :: joinWords words

/-- The greedy condition between a line and the one after it, both as lists of words: the
line, a space and the first word of the next line together measure more than `maxWidth`. -/
def Overflows {β : Type} [LinearOrder β] (measure : JSString → β) (maxWidth : β)
    (line next : List JSString) : Prop :=
  ∃ word rest, next = word :: rest ∧ maxWidth < measure (joinWords line ++ lit " " ++ word)

/-- A width measure for examples: the number of code units. -/
def measureLength (line : JSString) : Nat := line.length

/-- What the loop of `wrapText` keeps true, on the lines as lists of words: no finished line
is empty, the current line is empty only before the first word, a line of several words fits,
and each line overflows with the first word of the next. -/
def WrapInvariant {β : Type} [LinearOrder β] (measure : JSString → β) (maxWidth : β)
    (groups : List (List JSString)) (current : List JSString) : Prop :=
  (∀ g ∈ groups, g ≠ []) ∧ (groups ≠ [] → current ≠ []) ∧
  (∀ g ∈ groups ++ [current], 1 < g.length → measure (joinWords g) ≤ maxWidth) ∧
  List.Chain' (Overflows measure maxWidth) (groups ++ [current])

/-! ## The post image of the iPhone composite (`export-service.js`) -/

/-- `Math.round`: the nearest integer, a half going up. -/
def mathRound (x : ℚ) : ℚ := (⌊x + 1 / 2⌋ : Int)

/-- The integer nearest to `x`, a tie going to the even neighbour. -/
def roundTiesEven (x : ℚ) : Int :=
  let f := ⌊x⌋
  let r := x - f
  if r < 1 / 2 then f
  else if 1 / 2 < r then f + 1
  else if f % 2 = 0 then f
  else f + 1

/-- The double nearest to the number `q`, a tie going to the even significand: with
`2 ^ e ≤ |q| < 2 ^ (e + 1)`, the multiple of `2 ^ (e - 52)` nearest to `q`. This is the
rounding of every arithmetic operation on numbers, for results in the range of normal
doubles (magnitude from 2^-1022 up to the largest double), which the sizes of images never
leave. A double is the rational number it stands for. -/
def roundDouble (q : ℚ) : ℚ :=
  if q = 0 then 0
  else
    let e := Int.log 2 |q|
    (roundTiesEven (q * 2 ^ (52 - e)) : ℚ) * 2 ^ (e - 52)

/-- The operator `a / b` on numbers, for `b` other than 0. -/
def divideNumbers (a b : ℚ) : ℚ := roundDouble (a / b)

/-- The operator `a * b` on numbers. -/
def multiplyNumbers (a b : ℚ) : ℚ := roundDouble (a * b)

/-- The operator `a - b` on numbers. -/
def subtractNumbers (a b : ℚ) : ℚ := roundDouble (a - b)

/-- The eight numbers that `generateiPhoneComposite` passes to `ctx.drawImage` after the
thumbnail: the source rectangle inside the thumbnail and the destination rectangle on the
canvas. -/
structure DrawImage where
  sourceX : ℚ
  sourceY : ℚ
  sourceWidth : ℚ
  sourceHeight : ℚ
  contentX : ℚ
  contentY : ℚ
  contentWidth : ℚ
  contentHeight : ℚ
  deriving DecidableEq

/-- The value of `canvas.width` in `generateiPhoneComposite`. -/
def canvasWidth : ℚ := 1179

/-- The value of `canvas.height` in `generateiPhoneComposite`. -/
def canvasHeight : ℚ := 2556

/-- Source: the crop geometry of `generateiPhoneComposite`, from `const contentX = 0` to the
call of `ctx.drawImage`, for a thumbnail of the given width and height. Every product,
difference and quotient is rounded to a double, as the code computes it. -/
def cropGeometry (thumbnailWidth thumbnailHeight : ℚ) : DrawImage :=
  let contentX : ℚ := 0
  let contentY : ℚ := 306
  let contentWidth : ℚ := 1179
  let contentHeight : ℚ := mathRound (divideNumbers (multiplyNumbers contentWidth 16) 9)
  let targetAspect : ℚ := divideNumbers contentWidth contentHeight
  let sourceAspect : ℚ := divideNumbers thumbnailWidth thumbnailHeight
  if sourceAspect > targetAspect then
    let sourceWidth := multiplyNumbers thumbnailHeight targetAspect
    { sourceX := divideNumbers (subtractNumbers thumbnailWidth sourceWidth) 2
      sourceY := 0
      sourceWidth := sourceWidth
      sourceHeight := thumbnailHeight
      contentX := contentX
      contentY := contentY
      contentWidth := contentWidth
      contentHeight := contentHeight }
  else
    { sourceX := 0
      sourceY := 0
      sourceWidth := thumbnailWidth
      sourceHeight := divideNumbers thumbnailWidth targetAspect
      contentX := contentX
      contentY := contentY
      contentWidth := contentWidth
      contentHeight := contentHeight }

/-! # Properties -/

/-! ## Flattening -/

theorem flattenStep_append {α : Type} (acc : List (Comment α)) (c : Comment α) :
    flattenStep acc c = acc ++ (c :: directReplies c) := by
  unfold flattenStep directReplies
  cases h : c.replies with
  | none => simp
  | some rs =>
    cases rs with
    | nil => simp
    | cons r rs => simp

theorem foldl_flattenStep {α : Type} (cs : List (Comment α)) (acc : List (Comment α)) :
    cs.foldl flattenStep acc = acc ++ cs.flatMap (fun c => c :: directReplies c) := by
  induction cs generalizing acc with
  | nil => simp
  | cons c cs ih => simp [List.foldl_cons, ih, flattenStep_append, List.flatMap_cons]

theorem sublist_flatMap_cons {α : Type} (f : α → List α) (cs : List α) :
    List.Sublist cs (cs.flatMap (fun c => c :: f c)) := by
  induction cs with
  | nil => simp
  | cons c cs ih =>
    rw [List.flatMap_cons]
    simp only [List.cons_append]
    exact List.Sublist.cons₂ c (List.Sublist.trans ih (List.sublist_append_right _ _))

/-- C2. `flattenComments` returns, in input order, each top-level comment followed
immediately by its direct replies (nothing when the reply list is missing or empty),
and the top-level comments keep their relative order in the output. -/
theorem flattenComments_spec {α : Type} (comments : List (Comment α)) :
    flattenComments comments = comments.flatMap (fun c => c :: directReplies c) ∧
    (∀ c : Comment α, (c.replies = none ∨ c.replies = some []) → directReplies c = []) ∧
    List.Sublist comments (flattenComments comments) := by
  have h : flattenComments comments = comments.flatMap (fun c => c :: directReplies c) := by
    unfold flattenComments
    rw [foldl_flattenStep]
    simp
  refine ⟨h, ?_, ?_⟩
  · intro c hc
    rcases hc with hc | hc <;> simp [directReplies, hc]
  · rw [h]
    exact sublist_flatMap_cons directReplies comments

/-! ## Batching -/

theorem totalBatches_mul_ge (n b : Nat) (hb : 1 ≤ b) : n ≤ totalBatches n b * b := by
  unfold totalBatches
  have h1 := Nat.div_add_mod (n + b - 1) b
  have h2 := Nat.mod_lt (n + b - 1) (show b > 0 by omega)
  rw [Nat.mul_comm]
  generalize b * ((n + b - 1) / b) = m at *
  omega

theorem totalBatches_pred_mul_lt (n b : Nat) (hn : 1 ≤ n) (hb : 1 ≤ b) :
    (totalBatches n b - 1) * b < n := by
  unfold totalBatches
  have h1 := Nat.div_add_mod (n + b - 1) b
  rw [Nat.sub_mul, Nat.mul_comm]
  generalize b * ((n + b - 1) / b) = m at *
  omega

theorem totalBatches_pos (n b : Nat) (hn : 1 ≤ n) (hb : 1 ≤ b) : 1 ≤ totalBatches n b := by
  have h := totalBatches_mul_ge n b hb
  rcases Nat.eq_zero_or_pos (totalBatches n b) with h0 | h0
  · rw [h0] at h; omega
  · exact h0

theorem totalBatches_eq_ceil (n b : Nat) (hn : 1 ≤ n) (hb : 1 ≤ b) :
    totalBatches n b = ⌈(n : ℚ) / (b : ℚ)⌉₊ := by
  have hk := totalBatches_pos n b hn hb
  have hbq : (0 : ℚ) < (b : ℚ) := by exact_mod_cast hb
  symm
  rw [Nat.ceil_eq_iff (by omega)]
  constructor
  · rw [lt_div_iff₀ hbq]
    exact_mod_cast totalBatches_pred_mul_lt n b hn hb
  · rw [div_le_iff₀ hbq]
    exact_mod_cast totalBatches_mul_ge n b hb

theorem length_batchComments {α : Type} (cs : List α) (b i : Nat) :
    (batchComments cs b i).length = min ((i + 1) * b) cs.length - i * b := by
  simp only [batchComments, slice, List.length_drop, List.length_take, Nat.add_mul, Nat.one_mul]
  omega

theorem getElem?_batchComments {α : Type} (cs : List α) (b i j : Nat)
    (hj : j < (batchComments cs b i).length) :
    (batchComments cs b i)[j]? = cs[i * b + j]? := by
  rw [length_batchComments] at hj
  simp only [batchComments, slice, List.getElem?_drop, List.getElem?_take]
  rw [if_pos]
  rw [Nat.add_mul, Nat.one_mul] at hj
  omega

theorem flatten_batches_take {α : Type} (cs : List α) (b k : Nat) :
    ((List.range k).map (batchComments cs b)).flatten = cs.take (k * b) := by
  induction k with
  | zero => simp
  | succ k ih =>
    rw [List.range_succ, List.map_append, List.flatten_append, ih]
    simp only [List.map_cons, List.map_nil, List.flatten_cons, List.flatten_nil, List.append_nil,
      batchComments, slice]
    have h1 : List.take (min (k * b + b) cs.length) cs = List.take (k * b + b) cs := by
      rw [← List.take_take, List.take_length]
    rw [h1]
    have h2 : List.take (k * b) cs = List.take (k * b) (List.take (k * b + b) cs) := by
      rw [List.take_take]; congr 1; omega
    rw [h2, List.take_append_drop, Nat.add_mul, Nat.one_mul]

/-- C1. For a non-empty comment sequence of length `N` and a batch size `B ≥ 1`, the batches
that `generateFflateZIPs` forms are `ceil(N / B)` in number, each holds at most `B` comments,
batch `i` holds exactly the elements at the indices `[i*B, min((i+1)*B, N))` in order, and
the batches concatenated give back the sequence. -/
theorem generateFflateZIPs_batches {α : Type} (comments : List α) (B : Nat)
    (hne : comments ≠ []) (hB : 1 ≤ B) :
    (batches comments B).length = ⌈(comments.length : ℚ) / (B : ℚ)⌉₊ ∧
    (∀ b ∈ batches comments B, b.length ≤ B) ∧
    (∀ i, i < (batches comments B).length →
      ∃ b, (batches comments B)[i]? = some b ∧
        b.length = min ((i + 1) * B) comments.length - i * B ∧
        ∀ j, j < b.length → b[j]? = comments[i * B + j]?) ∧
    (batches comments B).flatten = comments := by
  have hN : 1 ≤ comments.length := by
    cases comments with
    | nil => exact absurd rfl hne
    | cons c cs => simp
  refine ⟨?_, ?_, ?_, ?_⟩
  · simp only [batches, List.length_map, List.length_range]
    exact totalBatches_eq_ceil _ _ hN hB
  · intro b hb
    simp only [batches, List.mem_map, List.mem_range] at hb
    obtain ⟨i, _, rfl⟩ := hb
    rw [length_batchComments, Nat.add_mul, Nat.one_mul]
    omega
  · intro i hi
    simp only [batches, List.length_map, List.length_range] at hi
    refine ⟨batchComments comments B i, ?_, length_batchComments _ _ _, ?_⟩
    · simp [batches, List.getElem?_map, List.getElem?_range hi]
    · intro j hj
      exact getElem?_batchComments _ _ _ _ hj
  · unfold batches
    rw [flatten_batches_take]
    exact List.take_of_length_le (totalBatches_mul_ge _ _ hB)

/-- An instance of C1: three comments in batches of two. -/
theorem generateFflateZIPs_batches_witness :
    (batches [10, 20, 30] 2).length = ⌈(([10, 20, 30] : List Nat).length : ℚ) / ((2 : Nat) : ℚ)⌉₊ ∧
    (batches [10, 20, 30] 2).flatten = [10, 20, 30] ∧
    batches [10, 20, 30] 2 = [[10, 20], [30]] :=
  ⟨(generateFflateZIPs_batches [10, 20, 30] 2 (by decide) (by decide)).1,
   (generateFflateZIPs_batches [10, 20, 30] 2 (by decide) (by decide)).2.2.2, by decide⟩

theorem totalBatches_succ (n b : Nat) (hn : 1 ≤ n) (hb : 1 ≤ b) :
    totalBatches n b = totalBatches (n - b) b + 1 := by
  unfold totalBatches
  by_cases h : b ≤ n
  · have : n + b - 1 = (n - b + b - 1) + b := by omega
    rw [this, Nat.add_div_right _ (by omega)]
  · have h1 : n - b = 0 := by omega
    rw [h1]
    have h2 : (0 + b - 1) / b = 0 := Nat.div_eq_of_lt (by omega)
    have h3 : n + b - 1 = (n - 1) + b := by omega
    have h4 : (n - 1) / b = 0 := Nat.div_eq_of_lt (by omega)
    rw [h2, h3, Nat.add_div_right _ (by omega), h4]

theorem batchComments_succ {α : Type} (cs : List α) (b i : Nat) :
    batchComments cs b (i + 1) = batchComments (cs.drop b) b i := by
  simp only [batchComments, slice, List.length_drop]
  rw [List.take_drop, List.drop_drop]
  have h1 : (i + 1) * b = b + i * b := by rw [Nat.add_mul, Nat.one_mul, Nat.add_comm]
  rw [h1]
  by_cases h : b ≤ cs.length
  · have h2 : b + min (i * b + b) (cs.length - b) = min (b + i * b + b) cs.length := by omega
    rw [h2]
  · have h3 : List.drop (b + i * b) (List.take (min (b + i * b + b) cs.length) cs) = [] := by
      rw [List.drop_eq_nil_iff]; simp only [List.length_take]; omega
    have h4 : List.drop (b + i * b) (List.take (b + min (i * b + b) (cs.length - b)) cs) = [] := by
      rw [List.drop_eq_nil_iff]; simp only [List.length_take]; omega
    rw [h3, h4]

theorem batches_cons {α : Type} (cs : List α) (b : Nat) (hn : 1 ≤ cs.length) (hb : 1 ≤ b) :
    batches cs b = cs.take b :: batches (cs.drop b) b := by
  unfold batches
  rw [totalBatches_succ _ _ hn hb, List.range_succ_eq_map, List.map_cons, List.map_map,
    List.length_drop]
  congr 1
  · simp [batchComments, slice, ← List.take_take]
  · apply List.map_congr_left
    intro i _
    exact batchComments_succ cs b i

theorem chunkLoop_eq_batches {α : Type} (b : Nat) (hb : 1 ≤ b) (fuel : Nat) (rest : List α)
    (h : rest.length ≤ fuel) : chunkLoop b fuel rest = batches rest b := by
  induction fuel generalizing rest with
  | zero =>
    have : rest = [] := List.length_eq_zero.mp (by omega)
    subst this
    simp [chunkLoop, batches, totalBatches, Nat.div_eq_of_lt (show b - 1 < b by omega)]
  | succ fuel ih =>
    unfold chunkLoop
    by_cases hr : rest.length > 0
    · rw [if_pos hr, batches_cons rest b hr hb, ih]
      rw [List.length_drop]; omega
    · rw [if_neg hr]
      have : rest = [] := List.length_eq_zero.mp (by omega)
      subst this
      simp [batches, totalBatches, Nat.div_eq_of_lt (show b - 1 < b by omega)]

/-- The unused helper `chunkArray` forms the same batches as the loop of
`generateFflateZIPs`. -/
theorem chunkArray_eq_batches {α : Type} (array : List α) (chunkSize : Nat)
    (h : 1 ≤ chunkSize) : chunkArray array chunkSize = batches array chunkSize :=
  chunkLoop_eq_batches chunkSize h array.length array (Nat.le_refl _)

/-! ## CSV field splitting -/

theorem parseCSVLoop_other (char : Nat) (rest : JSString) (result : List JSString)
    (current : JSString) (inQuotes : Bool) (h : char ≠ 34) :
    parseCSVLoop (char :: rest) result current inQuotes =
      if char = 44 && !inQuotes then parseCSVLoop rest (result ++ [current]) [] inQuotes
      else parseCSVLoop rest result (current ++ [char]) inQuotes := by
  cases rest <;> simp [parseCSVLoop, h]

theorem parseCSVLoop_escaped (rest : JSString) (result : List JSString) (current : JSString) :
    parseCSVLoop (34 :: 34 :: rest) result current true =
      parseCSVLoop rest result (current ++ [34]) true := by
  simp [parseCSVLoop]

theorem parseCSVLoop_open (rest : JSString) (result : List JSString) (current : JSString) :
    parseCSVLoop (34 :: rest) result current false = parseCSVLoop rest result current true := by
  cases rest <;> simp [parseCSVLoop]

theorem parseCSVLoop_close (rest : JSString) (result : List JSString) (current : JSString)
    (hrest : rest = [] ∨ ∃ r, rest = 44 :: r) :
    parseCSVLoop (34 :: rest) result current true = parseCSVLoop rest result current false := by
  rcases hrest with h | ⟨r, h⟩ <;> subst h <;> simp [parseCSVLoop]

theorem parseCSVLoop_quoted_body (field : JSString) (rest : JSString) (result : List JSString)
    (current : JSString) (hrest : rest = [] ∨ ∃ r, rest = 44 :: r) :
    parseCSVLoop (field.flatMap (fun c => if c = 34 then [34, 34] else [c]) ++ 34 :: rest)
      result current true = parseCSVLoop rest result (current ++ field) false := by
  induction field generalizing current with
  | nil => simpa using parseCSVLoop_close rest result current hrest
  | cons c field ih =>
    by_cases hc : c = 34
    · subst hc
      simp only [List.flatMap_cons, if_true, List.cons_append, List.nil_append]
      rw [parseCSVLoop_escaped, ih]
      simp
    · simp only [List.flatMap_cons, if_neg hc, List.cons_append, List.nil_append]
      rw [parseCSVLoop_other _ _ _ _ _ hc]
      simp only [Bool.not_true, Bool.and_false]
      rw [if_neg (by simp), ih]
      simp

theorem parseCSVLoop_quoteField (field : JSString) (rest : JSString) (result : List JSString)
    (current : JSString) (hrest : rest = [] ∨ ∃ r, rest = 44 :: r) :
    parseCSVLoop (quoteField field ++ rest) result current false =
      parseCSVLoop rest result (current ++ field) false := by
  unfold quoteField
  simp only [List.cons_append, List.append_assoc, List.singleton_append, List.nil_append]
  rw [parseCSVLoop_open, parseCSVLoop_quoted_body field rest result current hrest]

theorem parseCSVLoop_quoteLine (fields : List JSString) (hne : fields ≠ [])
    (result : List JSString) :
    parseCSVLoop (quoteLine fields) result [] false = result ++ fields := by
  induction fields generalizing result with
  | nil => exact absurd rfl hne
  | cons f fs ih =>
    cases fs with
    | nil =>
      have h := parseCSVLoop_quoteField f [] result [] (Or.inl rfl)
      simp only [List.append_nil, List.nil_append] at h
      simp [quoteLine, h, parseCSVLoop]
    | cons g gs =>
      have h := parseCSVLoop_quoteField f (44 :: quoteLine (g :: gs)) result [] (Or.inr ⟨_, rfl⟩)
      simp only [quoteLine, h, List.nil_append]
      rw [parseCSVLoop_other _ _ _ _ _ (by decide)]
      simp only [Bool.not_false, Bool.and_true, decide_True, if_true]
      rw [ih (by simp)]
      simp

/-- C4. For every non-empty list of fields, the line that wraps each field in double quotes,
doubles every double quote inside it and joins the fields with commas is parsed by
`parseCSVLine` back to exactly that list; `a,"b,c",d` parses to `["a", "b,c", "d"]` and
`"he said ""hi"""` parses to the single field `he said "hi"`. -/
theorem parseCSVLine_roundtrip :
    (∀ fields : List JSString, fields ≠ [] → parseCSVLine (quoteLine fields) = fields) ∧
    parseCSVLine (lit "a,\"b,c\",d") = [lit "a", lit "b,c", lit "d"] ∧
    parseCSVLine (lit "\"he said \"\"hi\"\"\"") = [lit "he said \"hi\""] := by
  refine ⟨?_, by decide, by decide⟩
  intro fields hne
  unfold parseCSVLine
  rw [parseCSVLoop_quoteLine fields hne]
  simp

/-! ## CSV rows -/

theorem splitOn_ne_nil (sep : Nat) (s : JSString) : splitOn sep s ≠ [] := by
  induction s with
  | nil => simp [splitOn]
  | cons c rest ih =>
    unfold splitOn
    by_cases h : c = sep
    · simp [h]
    · simp only [if_neg h]
      cases hs : splitOn sep rest with
      | nil => simp
      | cons seg segs => simp

theorem splitOn_no_sep (sep : Nat) (s : JSString) (h : sep ∉ s) : splitOn sep s = [s] := by
  induction s with
  | nil => simp [splitOn]
  | cons c rest ih =>
    have hc : c ≠ sep := fun e => h (by simp [e])
    have hr : sep ∉ rest := fun e => h (by simp [e])
    simp [splitOn, hc, ih hr]

theorem splitOn_append_sep (sep : Nat) (s r : JSString) (h : sep ∉ s) :
    splitOn sep (s ++ sep :: r) = s :: splitOn sep r := by
  induction s with
  | nil => simp [splitOn]
  | cons c rest ih =>
    have hc : c ≠ sep := fun e => h (by simp [e])
    have hr : sep ∉ rest := fun e => h (by simp [e])
    simp [splitOn, hc, ih hr]

theorem splitOn_joinLines (lines : List JSString) (hne : lines ≠ [])
    (h : ∀ l ∈ lines, 10 ∉ l) : splitOn 10 (joinLines lines) = lines := by
  induction lines with
  | nil => exact absurd rfl hne
  | cons l ls ih =>
    cases ls with
    | nil => simpa [joinLines] using splitOn_no_sep 10 l (h l (by simp))
    | cons l' ls' =>
      simp only [joinLines]
      rw [splitOn_append_sep 10 l _ (h l (by simp)), ih (by simp)]
      intro x hx
      exact h x (List.mem_cons_of_mem _ hx)

theorem foldl_parseCSVStep (headers : List JSString) (lines : List JSString)
    (acc : List JSObject) :
    lines.foldl (parseCSVStep headers) acc = acc ++ lines.filterMap (rowOfLine headers) := by
  induction lines generalizing acc with
  | nil => simp
  | cons l ls ih =>
    rw [List.foldl_cons, ih, List.filterMap_cons]
    unfold parseCSVStep rowOfLine
    by_cases h1 : trim l = []
    · simp [h1]
    · by_cases h2 : (parseCSVLine (trim l)).length ≥ headers.length
      · simp [h1, h2]
      · simp [h1, h2]

/-- The rows of a CSV text, read line by line: the header line is split as it stands, and every
further line contributes `rowOfLine`, in the order of the lines. -/
theorem parseCSV_joinLines (header : JSString) (lines : List JSString)
    (hh : 10 ∉ header) (hl : ∀ l ∈ lines, 10 ∉ l) :
    parseCSV (joinLines (header :: lines)) =
      lines.filterMap (rowOfLine (parseCSVLine header)) := by
  unfold parseCSV
  rw [splitOn_joinLines (header :: lines) (by simp)]
  · simp [foldl_parseCSVStep]
  · intro l hmem
    rcases List.mem_cons.mp hmem with h | h
    · exact h ▸ hh
    · exact hl l h

theorem orEmpty_some (v : JSString) : orEmpty (some v) = v := by
  unfold orEmpty
  by_cases h : v = [] <;> simp [h]

theorem JSObject.get_eq_none_of_not_mem (o : JSObject) (key : JSString)
    (h : key ∉ o.keys) : o.get key = none := by
  induction o with
  | nil => rfl
  | cons kv rest ih =>
    obtain ⟨k, v⟩ := kv
    simp only [JSObject.keys, List.map_cons, List.mem_cons, not_or] at h
    have hk : k ≠ key := fun e => h.1 e.symm
    simp only [JSObject.get, if_neg hk]
    exact ih h.2

theorem JSObject.set_fresh (o : JSObject) (key value : JSString)
    (hp : key ≠ protoKey) (h : key ∉ o.keys) : o.set key value = o ++ [(key, value)] := by
  unfold JSObject.set
  rw [if_neg hp, JSObject.get_eq_none_of_not_mem o key h]
  simp

theorem fillRow_eq_zip (values : List JSString) (headers : List JSString) (index : Nat)
    (comment : JSObject) (hnodup : headers.Nodup) (hproto : protoKey ∉ headers)
    (hfresh : ∀ h ∈ headers, h ∉ comment.keys)
    (hlen : index + headers.length ≤ values.length) :
    fillRow values headers index comment = comment ++ headers.zip (values.drop index) := by
  induction headers generalizing index comment with
  | nil => simp [fillRow]
  | cons h hs ih =>
    have hi : index < values.length := by simp only [List.length_cons] at hlen; omega
    have hp : h ≠ protoKey := fun e => hproto (by simp [e])
    rw [fillRow, List.getElem?_eq_getElem hi, orEmpty_some,
      JSObject.set_fresh comment h _ hp (hfresh h (by simp))]
    rw [ih (index + 1) _ (List.nodup_cons.mp hnodup).2 (fun e => hproto (List.mem_cons_of_mem _ e))]
    · rw [List.drop_eq_getElem_cons hi, List.zip_cons_cons, List.append_assoc]
      rfl
    · intro x hx
      simp only [JSObject.keys, List.map_append, List.map_cons, List.map_nil, List.mem_append,
        List.mem_singleton, not_or]
      refine ⟨hfresh x (List.mem_cons_of_mem _ hx), ?_⟩
      intro e
      exact (List.nodup_cons.mp hnodup).1 (e ▸ hx)
    · simp only [List.length_cons] at hlen; omega

/-- C3, as stated, fails: with a header of three columns and one data row of two fields (not
blank), `parseCSV` returns no row at all, so there is no row whose third field is the empty
string. -/
theorem parseCSV_short_row_counterexample :
    (parseCSVLine (lit "a,b,c")).length = 3 ∧
    trim (lit "1,2") ≠ [] ∧
    (parseCSVLine (trim (lit "1,2"))).length = 2 ∧
    parseCSV (lit "a,b,c\n1,2") = [] ∧
    ¬ ∃ row ∈ parseCSV (lit "a,b,c\n1,2"), row.get (lit "c") = some [] := by
  refine ⟨by decide, by decide, by decide, by decide, ?_⟩
  rw [show parseCSV (lit "a,b,c\n1,2") = [] by decide]
  simp

/-- C3, amended. A data line with fewer fields than the header line contributes no row: the
guard `values.length >= headers.length` skips it, and the result of `parseCSV` is the one
for the text without that line. -/
theorem parseCSV_short_row_skipped (header line : JSString) (before after : List JSString)
    (hh : 10 ∉ header) (hl : 10 ∉ line) (hb : ∀ l ∈ before, 10 ∉ l) (ha : ∀ l ∈ after, 10 ∉ l)
    (hshort : (parseCSVLine (trim line)).length < (parseCSVLine header).length) :
    rowOfLine (parseCSVLine header) line = none ∧
    parseCSV (joinLines (header :: (before ++ line :: after))) =
      parseCSV (joinLines (header :: (before ++ after))) := by
  have hrow : rowOfLine (parseCSVLine header) line = none := by
    unfold rowOfLine
    by_cases h1 : trim line = []
    · simp [h1]
    · simp only [if_neg h1]
      rw [if_neg (by omega)]
  refine ⟨hrow, ?_⟩
  rw [parseCSV_joinLines header _ hh, parseCSV_joinLines header _ hh]
  · simp [List.filterMap_append, List.filterMap_cons, hrow]
  · intro l hmem
    rcases List.mem_append.mp hmem with h | h
    · exact hb l h
    · exact ha l h
  · intro l hmem
    rcases List.mem_append.mp hmem with h | h
    · exact hb l h
    · rcases List.mem_cons.mp h with h | h
      · exact h ▸ hl
      · exact ha l h

/-- An instance of the amended C3: the short line `1,2` between two full lines. -/
theorem parseCSV_short_row_skipped_witness :
    rowOfLine (parseCSVLine (lit "a,b,c")) (lit "1,2") = none ∧
    parseCSV (joinLines (lit "a,b,c" :: ([lit "x,y,z"] ++ lit "1,2" :: [lit "4,5,6"]))) =
      parseCSV (joinLines (lit "a,b,c" :: ([lit "x,y,z"] ++ [lit "4,5,6"]))) :=
  parseCSV_short_row_skipped (lit "a,b,c") (lit "1,2") [lit "x,y,z"] [lit "4,5,6"]
    (by decide) (by decide) (by decide) (by decide) (by decide)

/-- A data line with at least as many fields as there are headers, under distinct headers
none of which is `__proto__`: the row pairs the headers with the fields by position, and the
fields beyond the last header are left out. -/
theorem rowOfLine_eq_zip (headers : List JSString) (rawLine : JSString)
    (hnodup : headers.Nodup) (hproto : protoKey ∉ headers) (hblank : trim rawLine ≠ [])
    (hlen : headers.length ≤ (parseCSVLine (trim rawLine)).length) :
    rowOfLine headers rawLine = some (headers.zip (parseCSVLine (trim rawLine))) := by
  unfold rowOfLine
  rw [if_neg hblank, if_pos hlen,
    fillRow_eq_zip _ headers 0 [] hnodup hproto (by simp [JSObject.keys]) (by omega)]
  simp

/-- C5, the failing input. The header line `__proto__` with the data line `x`: the line has as
many fields as there are headers, and the one row that `parseCSV` returns has no key at all,
where the claim promises the key `__proto__` mapped to `x`. -/
theorem parseCSV_proto_header :
    parseCSVLine (lit "__proto__") = [protoKey] ∧
    parseCSVLine (trim (lit "x")) = [lit "x"] ∧
    parseCSV (lit "__proto__\nx") = [[]] ∧
    (∀ row ∈ parseCSV (lit "__proto__\nx"), row.keys = [] ∧ row.get protoKey = none) := by
  refine ⟨by decide, by decide, by decide, ?_⟩
  rw [show parseCSV (lit "__proto__\nx") = [[]] by decide]
  simp [JSObject.keys, JSObject.get]

/-! ## File validation -/

/-- What `validateFile` accepts: a file within the size cap whose declared type is allowed
or whose name ends in `.csv`, whatever the category. -/
theorem validateFile_accepts_iff (file : File) (type : Category) :
    (validateFile file type).1 = true ↔
      file.size ≤ (validations type).maxSize ∧
      (file.type ∈ (validations type).types ∨ hasCsvExtension file.name = true) := by
  unfold validateFile
  by_cases h1 : file.type ∈ (validations type).types
  · by_cases h2 : file.size > (validations type).maxSize
    · simp [h1, h2]
    · simp [h1, h2]; omega
  · by_cases h3 : hasCsvExtension file.name = true
    · by_cases h2 : file.size > (validations type).maxSize
      · simp [h1, h3, h2]
      · simp [h1, h3, h2]; omega
    · simp [h1, h3]

/-- C6, the failing input. A one-byte file named `notes.csv` of declared type `text/csv`,
offered as avatar: the type is not in the avatar's allowed set, the category is not
`comments`, and `validateFile` accepts it without an alert; the same file is accepted as
media. -/
theorem validateFile_avatar_csv :
    lit "text/csv" ∉ (validations .avatar).types ∧
    validateFile { name := lit "notes.csv", type := lit "text/csv", size := 1 } .avatar
      = (true, none) ∧
    validateFile { name := lit "notes.csv", type := lit "text/csv", size := 1 } .media
      = (true, none) := by
  decide

/-! ## Cancellation and reentrancy -/

/-- C7, the failing input. The `cancelExport` that a call reaches never writes `isCancelled`:
on a service with an export under way the flag is `false` before and after the call, while
the definition it replaced would have set it. -/
theorem cancelExport_leaves_flag :
    (∀ s : ExportService, (cancelExport s).isCancelled = s.isCancelled) ∧
    ExportService.exporting.isCancelled = false ∧
    (cancelExport ExportService.exporting).isCancelled = false ∧
    (cancelExportShadowed ExportService.exporting).isCancelled = true := by
  refine ⟨fun s => rfl, by decide, by decide, by decide⟩

/-- C8. On a service with `isExporting` set, `exportVideoComments` and `exportAllVideos` fail
with `'Export already in progress'`, make no request to the data manager (and no cancellation
check, render or download), and leave the service, hence `isExporting`, `isCancelled` and
`exportProgress`, as it was. -/
theorem export_rejected_while_exporting {α : Type} (w : World α) (dm : DataManager α)
    (videoId : Nat) (s : ExportService) (h : s.isExporting = true) :
    (exportVideoComments w dm videoId s).result = .error "Export already in progress" ∧
    (exportVideoComments w dm videoId s).run = Run.idle s.exportProgress ∧
    (exportVideoComments w dm videoId s).run.queries = [] ∧
    (exportVideoComments w dm videoId s).service = s ∧
    (exportAllVideos w dm s).result = .error "Export already in progress" ∧
    (exportAllVideos w dm s).run = Run.idle s.exportProgress ∧
    (exportAllVideos w dm s).run.queries = [] ∧
    (exportAllVideos w dm s).service = s := by
  simp [exportVideoComments, exportAllVideos, beginExport, h, Run.idle]

/-- An instance of C8 on the service on which an export has begun. -/
theorem export_rejected_while_exporting_witness :
    ExportService.exporting.isExporting = true ∧
    (exportVideoComments World.calm (DataManager.single []) 7 ExportService.exporting).result
      = .error "Export already in progress" ∧
    (exportAllVideos World.calm (DataManager.single []) ExportService.exporting).service
      = ExportService.exporting :=
  ⟨by decide,
   (export_rejected_while_exporting World.calm (DataManager.single []) 7
      ExportService.exporting (by decide)).1,
   (export_rejected_while_exporting World.calm (DataManager.single []) 7
      ExportService.exporting (by decide)).2.2.2.2.2.2.2⟩

/-- C9, as stated, fails: after a run has started, `cancelExport` clears `isExporting` while
that run is still in flight, and a second call then starts a second run: two runs are in
flight at once. -/
theorem session_two_runs_counterexample :
    (Session.new.run [.start]).inFlight = 1 ∧
    (Session.new.run [.start, .cancel]).inFlight = 1 ∧
    (Session.new.run [.start, .cancel]).service.isExporting = false ∧
    (Session.new.run [.start, .cancel, .start]).inFlight = 2 := by
  decide

theorem Session.step_invariant (σ : Session) (e : SessionEvent)
    (hcancel : e = .cancel → σ.inFlight = 0)
    (hinv : σ.inFlight ≤ 1 ∧ (σ.service.isExporting = true ↔ σ.inFlight = 1)) :
    (σ.step e).inFlight ≤ 1 ∧ ((σ.step e).service.isExporting = true ↔ (σ.step e).inFlight = 1) := by
  obtain ⟨h1, h2⟩ := hinv
  cases e with
  | start =>
    by_cases hx : σ.service.isExporting = true
    · have hsame : σ.step .start = σ := by simp [Session.step, beginExport, hx]
      rw [hsame]
      exact ⟨h1, h2⟩
    · have h0 : σ.inFlight = 0 := by
        have : σ.inFlight ≠ 1 := fun e => hx (h2.mpr e)
        omega
      simp [Session.step, beginExport, hx, h0]
  | finish =>
    unfold Session.step
    by_cases h0 : σ.inFlight = 0
    · simp only [h0, if_true]
      constructor
      · omega
      · rw [h2, h0]
    · simp only [h0, if_false, endExport]
      constructor
      · omega
      · simp; omega
  | cancel =>
    have h0 := hcancel rfl
    simp [Session.step, cancelExport, h0]

/-- C9, amended. As long as `cancelExport` is not called while a run is in flight, at most one
export run is in flight at any time: `isExporting` is set exactly while a run is in flight,
and a call made then starts no second run. `cancelExport` itself clears `isExporting` at
once, whatever is in flight. -/
theorem session_single_run (events : List SessionEvent)
    (h : Session.new.cancelsWhenIdle events = true) :
    (Session.new.run events).inFlight ≤ 1 ∧
    ((Session.new.run events).service.isExporting = true ↔
      (Session.new.run events).inFlight = 1) ∧
    ((Session.new.run events).inFlight = 1 →
      (Session.new.run events).step .start = Session.new.run events) ∧
    (∀ σ : Session, (σ.step .cancel).service.isExporting = false) := by
  have key : ∀ (es : List SessionEvent) (σ : Session), σ.cancelsWhenIdle es = true →
      (σ.inFlight ≤ 1 ∧ (σ.service.isExporting = true ↔ σ.inFlight = 1)) →
      ((σ.run es).inFlight ≤ 1 ∧
        ((σ.run es).service.isExporting = true ↔ (σ.run es).inFlight = 1)) := by
    intro es
    induction es with
    | nil => intro σ _ hinv; exact hinv
    | cons e es ih =>
      intro σ hc hinv
      simp only [Session.cancelsWhenIdle, Bool.and_eq_true, Bool.or_eq_true, bne_iff_ne, ne_eq,
        beq_iff_eq] at hc
      have hstep := Session.step_invariant σ e
        (fun he => by rcases hc.1 with h1 | h1; exact absurd he h1; exact h1) hinv
      exact ih (σ.step e) hc.2 hstep
  have hnew := key events Session.new h (by decide)
  refine ⟨hnew.1, hnew.2, ?_, ?_⟩
  · intro h1
    have hx := hnew.2.mpr h1
    simp [Session.step, beginExport, hx]
  · intro σ
    rfl

/-- An instance of the amended C9: cancels only between runs. -/
theorem session_single_run_witness :
    (Session.new.run [.cancel, .start, .start, .finish, .cancel, .start]).inFlight ≤ 1 :=
  (session_single_run [.cancel, .start, .start, .finish, .cancel, .start] (by decide)).1

/-! ## Cancellation inside a run -/

theorem World.flagAt_eq {α : Type} (w : World α) (t tick : Nat) (h : w.cancelAt = some t) :
    w.flagAt tick = decide (t ≤ tick) := by
  simp [World.flagAt, h]

/-- The inner loop either collects the images of all its comments, having made one check for
each, or stops at a check that saw the flag set. -/
theorem commentLoop_checks {α : Type} (w : World α) (onProgress : ExportProgress → ExportProgress)
    (batchIndex total startIndex batchLength t : Nat) (hc : w.cancelAt = some t)
    (batch : List (Comment α)) (i : Nat) (imageFiles : ImageFiles) (run : Run) :
    ((commentLoop w onProgress batchIndex total startIndex batchLength batch i imageFiles run).1
        = none →
      t < (commentLoop w onProgress batchIndex total startIndex batchLength batch i imageFiles
        run).2.checks) ∧
    ((commentLoop w onProgress batchIndex total startIndex batchLength batch i imageFiles run).1
        ≠ none →
      (commentLoop w onProgress batchIndex total startIndex batchLength batch i imageFiles
        run).2.checks = run.checks + batch.length) := by
  induction batch generalizing i imageFiles run with
  | nil => simp [commentLoop]
  | cons comment rest ih =>
    rw [commentLoop]
    by_cases hf : w.flagAt run.checks = true
    · rw [if_pos hf]
      rw [World.flagAt_eq w t _ hc] at hf
      simp only [decide_eq_true_eq] at hf
      simp only [ne_eq, not_true_eq_false, false_implies, and_true]
      intro _
      omega
    · rw [if_neg hf]
      simp only []
      refine ⟨fun h => (ih _ _ _).1 h, fun h => ?_⟩
      rw [(ih _ _ _).2 h]
      simp only [List.length_cons]
      omega

theorem length_batchComments_full {α : Type} (cs : List α) (b j : Nat) (hb : 1 ≤ b)
    (hj : j + 1 < totalBatches cs.length b) : (batchComments cs b j).length = b := by
  have hN : 1 ≤ cs.length := by
    rcases Nat.eq_zero_or_pos cs.length with h0 | h0
    · rw [h0] at hj
      have : totalBatches 0 b = 0 := by
        unfold totalBatches
        exact Nat.div_eq_of_lt (by omega)
      omega
    · exact h0
  have h1 := totalBatches_pred_mul_lt cs.length b hN hb
  have h2 : (j + 1) * b ≤ (totalBatches cs.length b - 1) * b :=
    Nat.mul_le_mul_right b (by omega)
  rw [length_batchComments, Nat.min_eq_left (by omega), Nat.add_mul, Nat.one_mul]
  omega

/-- The outer loop raises when the flag is set no later than the check at the head of its
last iteration. -/
theorem batchLoop_cancelled {α : Type} (w : World α) (onProgress : ExportProgress → ExportProgress)
    (comments : List (Comment α)) (videoTitle : Option JSString) (batchSize total t : Nat)
    (hc : w.cancelAt = some t) (remaining : Nat) :
    ∀ (batchIndex : Nat) (zipFiles : List JSString) (run : Run),
      1 ≤ remaining →
      t ≤ run.checks + (remaining - 1) * (batchSize + 1) →
      (∀ j, batchIndex ≤ j → j + 1 < batchIndex + remaining →
        (batchComments comments batchSize j).length = batchSize) →
      (batchLoop w onProgress comments videoTitle batchSize total remaining batchIndex zipFiles
        run).1 = .error "Export cancelled by user" := by
  induction remaining with
  | zero => intro _ _ _ h; omega
  | succ remaining ih =>
    intro batchIndex zipFiles run _ ht hfull
    rw [batchLoop]
    by_cases hf : w.flagAt run.checks = true
    · rw [if_pos hf]
    · rw [if_neg hf]
      rw [World.flagAt_eq w t _ hc] at hf
      simp only [decide_eq_true_eq, not_le] at hf
      simp only [Nat.add_sub_cancel] at ht
      have hrem : 1 ≤ remaining := by
        rcases Nat.eq_zero_or_pos remaining with h0 | h0
        · rw [h0] at ht; simp at ht; omega
        · exact h0
      have hlen : (batchComments comments batchSize batchIndex).length = batchSize :=
        hfull batchIndex (Nat.le_refl _) (by omega)
      have hmul : remaining * (batchSize + 1) =
          (remaining - 1) * (batchSize + 1) + (batchSize + 1) := by
        obtain ⟨r, rfl⟩ : ∃ r, remaining = r + 1 := ⟨remaining - 1, by omega⟩
        simp [Nat.succ_mul]
      have hnext : ∀ j, batchIndex + 1 ≤ j → j + 1 < batchIndex + 1 + remaining →
          (batchComments comments batchSize j).length = batchSize :=
        fun j h1 h2 => hfull j (by omega) (by omega)
      have hloop := commentLoop_checks w onProgress batchIndex total (batchIndex * batchSize)
        (batchComments comments batchSize batchIndex).length t hc
        (batchComments comments batchSize batchIndex) 0 []
        { run with checks := run.checks + 1 }
      simp only []
      rcases hres : commentLoop w onProgress batchIndex total (batchIndex * batchSize)
        (batchComments comments batchSize batchIndex).length
        (batchComments comments batchSize batchIndex) 0 []
        { run with checks := run.checks + 1 } with ⟨_ | imageFiles, run'⟩
      · rw [hres] at hloop
        have h1 := hloop.1 rfl
        simp only at h1 ⊢
        exact ih _ _ _ hrem (by omega) hnext
      · rw [hres] at hloop
        have h1 := hloop.2 (by simp)
        simp only [hlen] at h1
        simp only
        split
        · split
          · exact ih _ _ _ hrem (by simp only; omega) hnext
          · exact ih _ _ _ hrem (by simp only; omega) hnext
        · exact ih _ _ _ hrem (by omega) hnext

/-- With at least one comment and a batch size of at least one, `generateFflateZIPs` raises
`'Export cancelled by user'` whenever the flag is set no later than the check at the head of
the last batch, which without cancellation is check number
`(totalBatches - 1) * (batchSize + 1)` counted from the first check of the method. -/
theorem generateFflateZIPs_cancelled {α : Type} (w : World α)
    (onProgress : ExportProgress → ExportProgress) (comments : List (Comment α))
    (videoTitle : Option JSString) (batchSize t : Nat) (run : Run)
    (hc : w.cancelAt = some t) (hne : comments ≠ []) (hb : 1 ≤ batchSize)
    (ht : t ≤ run.checks + (totalBatches comments.length batchSize - 1) * (batchSize + 1)) :
    (generateFflateZIPs w onProgress comments videoTitle batchSize run).1 =
      .error "Export cancelled by user" := by
  have hN : 1 ≤ comments.length := by
    cases comments with
    | nil => exact absurd rfl hne
    | cons c cs => simp
  unfold generateFflateZIPs
  apply batchLoop_cancelled w onProgress comments videoTitle batchSize _ t hc _ 0 [] run
    (totalBatches_pos _ _ hN hb) ht
  intro j _ hj
  exact length_batchComments_full comments batchSize j hb (by omega)

theorem commentLoop_checks_le {α : Type} (w : World α)
    (onProgress : ExportProgress → ExportProgress)
    (batchIndex total startIndex batchLength : Nat)
    (batch : List (Comment α)) (i : Nat) (imageFiles : ImageFiles) (run : Run) :
    (commentLoop w onProgress batchIndex total startIndex batchLength batch i imageFiles
      run).2.checks ≤ run.checks + batch.length := by
  induction batch generalizing i imageFiles run with
  | nil => simp [commentLoop]
  | cons comment rest ih =>
    rw [commentLoop]
    by_cases hf : w.flagAt run.checks = true
    · rw [if_pos hf]
      simp only [List.length_cons]
      omega
    · rw [if_neg hf]
      simp only []
      refine Nat.le_trans (ih _ _ _) ?_
      simp only [List.length_cons]
      omega

/-- The outer loop returns normally when the flag is not set by the check at the head of its
last iteration: a check of the inner loop that sees it raises inside the `try`. -/
theorem batchLoop_resolves {α : Type} (w : World α) (onProgress : ExportProgress → ExportProgress)
    (comments : List (Comment α)) (videoTitle : Option JSString) (batchSize total : Nat)
    (remaining : Nat) :
    ∀ (batchIndex : Nat) (zipFiles : List JSString) (run : Run),
      (1 ≤ remaining →
        ∀ t, w.cancelAt = some t → run.checks + (remaining - 1) * (batchSize + 1) < t) →
      ∃ names, (batchLoop w onProgress comments videoTitle batchSize total remaining batchIndex
        zipFiles run).1 = .ok names := by
  induction remaining with
  | zero => intro _ zipFiles _ _; exact ⟨zipFiles, by simp [batchLoop]⟩
  | succ remaining ih =>
    intro batchIndex zipFiles run ht
    have ht := ht (by omega)
    rw [batchLoop]
    have hf : ¬ w.flagAt run.checks = true := by
      unfold World.flagAt
      cases hc : w.cancelAt with
      | none => simp
      | some t =>
        have := ht t hc
        simp only [decide_eq_true_eq, not_le]
        omega
    rw [if_neg hf]
    simp only [Nat.add_sub_cancel] at ht
    have hlen : (batchComments comments batchSize batchIndex).length ≤ batchSize := by
      rw [length_batchComments, Nat.add_mul, Nat.one_mul]
      omega
    have hle := commentLoop_checks_le w onProgress batchIndex total (batchIndex * batchSize)
      (batchComments comments batchSize batchIndex).length
      (batchComments comments batchSize batchIndex) 0 []
      { run with checks := run.checks + 1 }
    have hnext : ∀ run' : Run, run'.checks ≤ run.checks + 1 + batchSize → 1 ≤ remaining →
        ∀ t, w.cancelAt = some t → run'.checks + (remaining - 1) * (batchSize + 1) < t := by
      intro run' hr hrem t hc
      have h1 := ht t hc
      have h2 : (remaining - 1) * (batchSize + 1) + (batchSize + 1) =
          remaining * (batchSize + 1) := by
        obtain ⟨r, rfl⟩ : ∃ r, remaining = r + 1 := ⟨remaining - 1, by omega⟩
        simp [Nat.succ_mul]
      omega
    simp only []
    rcases hres : commentLoop w onProgress batchIndex total (batchIndex * batchSize)
      (batchComments comments batchSize batchIndex).length
      (batchComments comments batchSize batchIndex) 0 []
      { run with checks := run.checks + 1 } with ⟨_ | imageFiles, run'⟩
    · rw [hres] at hle
      simp only at hle ⊢
      exact ih _ _ _ (hnext _ (by omega))
    · rw [hres] at hle
      simp only at hle ⊢
      split
      · split
        · exact ih _ _ _ (hnext _ (by simp only; omega))
        · exact ih _ _ _ (hnext _ (by simp only; omega))
      · exact ih _ _ _ (hnext _ (by omega))

/-- With a batch size of at least one, `generateFflateZIPs` returns normally when nobody
cancels, and also when the flag is set only after the check at the head of the last batch. -/
theorem generateFflateZIPs_resolves {α : Type} (w : World α)
    (onProgress : ExportProgress → ExportProgress) (comments : List (Comment α))
    (videoTitle : Option JSString) (batchSize : Nat) (run : Run)
    (ht : ∀ t, w.cancelAt = some t →
      run.checks + lastBatchCheck comments.length batchSize < t) :
    ∃ names, (generateFflateZIPs w onProgress comments videoTitle batchSize run).1 = .ok names :=
  batchLoop_resolves w onProgress comments videoTitle batchSize _ _ 0 [] run (fun _ => ht)

/-- C10, as stated, fails: with the flag set before the first check of a run over one
comment, and with the flag set at the check before the only comment of the first of two
batches, `exportVideoComments` raises `'Export cancelled by user'` instead of resolving; the
same runs without cancellation resolve with their archive names. -/
theorem exportVideoComments_cancel_counterexample :
    (World.cancelledAt 0).cancelAt = some 0 ∧
    (exportVideoComments (World.cancelledAt 0) (DataManager.single [Comment.plain]) 7
      ExportService.new).result = .error "Export cancelled by user" ∧
    (exportVideoComments (World.cancelledAt 1)
      (DataManager.single [Comment.plain, Comment.plain]) 7
      (ExportService.withBatchSize 1)).result = .error "Export cancelled by user" ∧
    (exportVideoComments World.calm (DataManager.single [Comment.plain]) 7
      ExportService.new).result = .ok [lit "clip_comments.zip"] ∧
    (exportVideoComments World.calm (DataManager.single [Comment.plain, Comment.plain]) 7
      (ExportService.withBatchSize 1)).result
      = .ok [lit "clip_part1_comments.zip", lit "clip_part2_comments.zip"] :=
  ⟨rfl, rfl, rfl, rfl, rfl⟩

/-- C10, amended. When the cancellation flag is set no later than the check at the head of
the last batch, a call of `exportVideoComments` that got its comments does not resolve: it
raises `'Export cancelled by user'`, the check at the head of a batch being outside the `try`
of the batch; the `finally` block has cleared `isExporting`. -/
theorem exportVideoComments_cancel_raises {α : Type} (w : World α) (dm : DataManager α)
    (videoId : Nat) (s : ExportService) (commentsData : List (Comment α)) (t : Nat)
    (hidle : s.isExporting = false)
    (hdm : dm.getAllComments videoId = .ok commentsData)
    (hne : 1 ≤ (flattenComments commentsData).length)
    (hb : 1 ≤ s.maxCommentsPerZip)
    (hc : w.cancelAt = some t)
    (ht : t ≤ lastBatchCheck (flattenComments commentsData).length s.maxCommentsPerZip) :
    (exportVideoComments w dm videoId s).result = .error "Export cancelled by user" ∧
    (exportVideoComments w dm videoId s).service.isExporting = false := by
  have hne' : flattenComments commentsData ≠ [] := by
    intro h
    rw [h] at hne
    simp at hne
  have hlen : ¬ (flattenComments commentsData).length = 0 := by omega
  have hgen := generateFflateZIPs_cancelled w
    (fun p => { p with current := some (p.completed.getD 0) })
    (flattenComments commentsData) (videoTitleOf dm videoId) s.maxCommentsPerZip t
    { Run.idle s.exportProgress with
      queries := [.videoInfo videoId, .getAllComments videoId]
      progress :=
        { current := some 0, total := some (flattenComments commentsData).length,
          status := .starting } }
    hc hne' hb (by simpa [Run.idle, lastBatchCheck] using ht)
  unfold exportVideoComments
  simp only [beginExport, hidle, Bool.false_eq_true, if_false, hdm, hlen]
  split
  · rename_i e run heq
    simp only [Run.idle] at hgen heq
    rw [heq] at hgen
    simp only [Except.error.injEq] at hgen
    subst hgen
    exact ⟨rfl, rfl⟩
  · rename_i zipFiles run heq
    simp only [Run.idle] at hgen heq
    rw [heq] at hgen
    simp at hgen

/-- An instance of the amended C10: three comments in batches of two, the flag set at the
check before the second comment of the first batch. -/
theorem exportVideoComments_cancel_raises_witness :
    (exportVideoComments (World.cancelledAt 2)
      (DataManager.single [Comment.plain, Comment.plain, Comment.plain]) 7
      (ExportService.withBatchSize 2)).result = .error "Export cancelled by user" :=
  (exportVideoComments_cancel_raises (World.cancelledAt 2)
    (DataManager.single [Comment.plain, Comment.plain, Comment.plain]) 7
    (ExportService.withBatchSize 2) [Comment.plain, Comment.plain, Comment.plain] 2
    rfl rfl (by decide) (by decide) rfl (by decide)).1

/-- With at least one comment, a batch size of at least one and the flag set just before
check `t`, `generateFflateZIPs` raises exactly when `t` is no later than the check at the
head of the last batch; otherwise the flag is first seen, if at all, by a check of the inner
loop of the last batch, and the method returns. -/
theorem generateFflateZIPs_raises_iff {α : Type} (w : World α)
    (onProgress : ExportProgress → ExportProgress) (comments : List (Comment α))
    (videoTitle : Option JSString) (batchSize t : Nat) (run : Run)
    (hc : w.cancelAt = some t) (hne : comments ≠ []) (hb : 1 ≤ batchSize) :
    (generateFflateZIPs w onProgress comments videoTitle batchSize run).1 =
        .error "Export cancelled by user" ↔
      t ≤ run.checks + lastBatchCheck comments.length batchSize := by
  constructor
  · intro h
    by_contra hlt
    obtain ⟨names, hn⟩ := generateFflateZIPs_resolves w onProgress comments videoTitle
      batchSize run (fun t' ht' => by
        rw [hc] at ht'
        cases ht'
        omega)
    rw [hn] at h
    cases h
  · intro h
    exact generateFflateZIPs_cancelled w onProgress comments videoTitle batchSize t run hc hne
      hb h

/-- Three comments in batches of two: the check at the head of the last batch is check 3;
a flag set by then makes the call raise, a flag set just before check 4, the check before the
last comment, lets it resolve with the archive of the first batch. -/
theorem lastBatchCheck_example :
    lastBatchCheck 3 2 = 3 ∧
    (exportVideoComments (World.cancelledAt 3)
      (DataManager.single [Comment.plain, Comment.plain, Comment.plain]) 7
      (ExportService.withBatchSize 2)).result = .error "Export cancelled by user" ∧
    (exportVideoComments (World.cancelledAt 4)
      (DataManager.single [Comment.plain, Comment.plain, Comment.plain]) 7
      (ExportService.withBatchSize 2)).result = .ok [lit "clip_part1_comments.zip"] :=
  ⟨rfl, rfl, rfl⟩

/-- An instance of the round trip of C4 with a comma and a quoted word inside the fields. -/
theorem parseCSVLine_roundtrip_witness :
    parseCSVLine (quoteLine [lit "a", lit "b,c", lit "he said \"hi\""]) =
      [lit "a", lit "b,c", lit "he said \"hi\""] :=
  parseCSVLine_roundtrip.1 [lit "a", lit "b,c", lit "he said \"hi\""] (by decide)

/-! ## The end of a run -/

theorem settle_isExporting {α : Type} (w : World α) (s : ExportService) (run : Run) :
    (settle w s run).isExporting = false := rfl

theorem beginExport_of_idle (s : ExportService) (h : s.isExporting = false) :
    beginExport s = .ok { s with isExporting := true, isCancelled := false } := by
  simp [beginExport, h]

theorem exportVideoComments_service {α : Type} (w : World α) (dm : DataManager α)
    (videoId : Nat) (s : ExportService) (h : s.isExporting = false) :
    ∃ s' run, (exportVideoComments w dm videoId s).service = settle w s' run := by
  unfold exportVideoComments
  rw [beginExport_of_idle s h]
  simp only []
  split
  · exact ⟨_, _, rfl⟩
  · split
    · exact ⟨_, _, rfl⟩
    · split
      · exact ⟨_, _, rfl⟩
      · exact ⟨_, _, rfl⟩

theorem exportAllVideos_service {α : Type} (w : World α) (dm : DataManager α)
    (s : ExportService) (h : s.isExporting = false) :
    ∃ s' run, (exportAllVideos w dm s).service = settle w s' run := by
  unfold exportAllVideos
  rw [beginExport_of_idle s h]
  simp only []
  split
  · exact ⟨_, _, rfl⟩
  · split
    · exact ⟨_, _, rfl⟩
    · split
      · exact ⟨_, _, rfl⟩
      · exact ⟨_, _, rfl⟩

/-- C14. A call of `exportVideoComments` or of `exportAllVideos` that passed the reentrancy
check leaves `isExporting` cleared however it ends (with its archive names, with a fatal
error or with the cancellation error), so that a following export call passes the
reentrancy check. -/
theorem export_ends_idle {α : Type} (w : World α) (dm : DataManager α) (videoId : Nat)
    (s : ExportService) (h : s.isExporting = false) :
    (exportVideoComments w dm videoId s).service.isExporting = false ∧
    (exportAllVideos w dm s).service.isExporting = false ∧
    (∃ s', beginExport (exportVideoComments w dm videoId s).service = .ok s') ∧
    (∃ s', beginExport (exportAllVideos w dm s).service = .ok s') := by
  obtain ⟨s1, r1, h1⟩ := exportVideoComments_service w dm videoId s h
  obtain ⟨s2, r2, h2⟩ := exportAllVideos_service w dm s h
  have e1 : (exportVideoComments w dm videoId s).service.isExporting = false := by
    rw [h1]; rfl
  have e2 : (exportAllVideos w dm s).service.isExporting = false := by
    rw [h2]; rfl
  exact ⟨e1, e2, ⟨_, beginExport_of_idle _ e1⟩, ⟨_, beginExport_of_idle _ e2⟩⟩

/-- An instance of C14 for each way a run ends: no comments, a failing data manager, the
cancellation error, and a normal return. -/
theorem export_ends_idle_witness :
    ((exportVideoComments World.calm (DataManager.single []) 7 ExportService.new).result
        = .error "No comments found for this video" ∧
      (exportVideoComments World.calm (DataManager.single []) 7
        ExportService.new).service.isExporting = false) ∧
    ((exportAllVideos (World.cancelledAt 0) (DataManager.single [Comment.plain])
        ExportService.new).result = .error "Export cancelled by user" ∧
      (exportAllVideos (World.cancelledAt 0) (DataManager.single [Comment.plain])
        ExportService.new).service.isExporting = false) ∧
    ((exportVideoComments World.calm (DataManager.single [Comment.plain]) 7
        ExportService.new).result = .ok [lit "clip_comments.zip"] ∧
      (exportVideoComments World.calm (DataManager.single [Comment.plain]) 7
        ExportService.new).service.isExporting = false) :=
  ⟨⟨rfl, (export_ends_idle World.calm (DataManager.single []) 7 ExportService.new rfl).1⟩,
   ⟨rfl, (export_ends_idle (World.cancelledAt 0) (DataManager.single [Comment.plain]) 7
      ExportService.new rfl).2.1⟩,
   ⟨rfl, (export_ends_idle World.calm (DataManager.single [Comment.plain]) 7
      ExportService.new rfl).1⟩⟩

/-! ## File names -/

theorem mem_collapseWhitespace (inRun : Bool) (s : JSString) (c : Nat)
    (h : c ∈ collapseWhitespace inRun s) : c = 95 ∨ (c ∈ s ∧ isWhitespace c = false) := by
  induction s generalizing inRun with
  | nil => simp [collapseWhitespace] at h
  | cons d rest ih =>
    rw [collapseWhitespace] at h
    by_cases hd : isWhitespace d = true
    · rw [if_pos hd] at h
      cases inRun with
      | true =>
        simp only [if_true] at h
        rcases ih _ h with h1 | h1
        · exact Or.inl h1
        · exact Or.inr ⟨List.mem_cons_of_mem _ h1.1, h1.2⟩
      | false =>
        simp only [Bool.false_eq_true, if_false, List.mem_cons] at h
        rcases h with h | h
        · exact Or.inl h
        · rcases ih _ h with h1 | h1
          · exact Or.inl h1
          · exact Or.inr ⟨List.mem_cons_of_mem _ h1.1, h1.2⟩
    · rw [if_neg hd] at h
      simp only [List.mem_cons] at h
      rcases h with h | h
      · subst h
        exact Or.inr ⟨List.mem_cons_self _ _, by simpa using hd⟩
      · rcases ih _ h with h1 | h1
        · exact Or.inl h1
        · exact Or.inr ⟨List.mem_cons_of_mem _ h1.1, h1.2⟩

/-- The scan of `s ++ rest` is the scan of `s` followed by the scan of `rest`, which starts
inside a run exactly when `s` ends in white space. -/
theorem collapseWhitespace_append (inRun : Bool) (s rest : JSString) :
    collapseWhitespace inRun (s ++ rest) =
      collapseWhitespace inRun s ++
        collapseWhitespace ((s.getLast?.map isWhitespace).getD inRun) rest := by
  induction s generalizing inRun with
  | nil => simp [collapseWhitespace]
  | cons d s ih =>
    have hlast : ∀ b : Bool, (((d :: s).getLast?.map isWhitespace).getD b) =
        ((s.getLast?.map isWhitespace).getD (isWhitespace d)) := by
      intro b
      cases s with
      | nil => simp
      | cons e s' =>
        rw [List.getLast?_cons_cons, List.getLast?_eq_getLast _ (List.cons_ne_nil e s')]
        rfl
    rw [List.cons_append, collapseWhitespace, collapseWhitespace, hlast]
    by_cases hd : isWhitespace d = true
    · rw [if_pos hd, if_pos hd, hd]
      cases inRun with
      | true => simp only [if_true]; exact ih true
      | false =>
        simp only [Bool.false_eq_true, if_false, List.cons_append]
        rw [ih true]
    · rw [if_neg hd, if_neg hd]
      have hf : isWhitespace d = false := by simpa using hd
      rw [hf, List.cons_append, ih false]

theorem collapseWhitespace_run (ws : JSString) (h : ∀ c ∈ ws, isWhitespace c = true) :
    collapseWhitespace true ws = [] := by
  induction ws with
  | nil => rfl
  | cons c ws ih =>
    rw [collapseWhitespace, if_pos (h c (List.mem_cons_self _ _))]
    simp only [if_true]
    exact ih (fun d hd => h d (List.mem_cons_of_mem _ hd))

theorem collapseWhitespace_start (inRun : Bool) (v : JSString)
    (h : ∀ c ∈ v.head?, isWhitespace c = false) :
    collapseWhitespace inRun v = collapseWhitespace false v := by
  cases v with
  | nil => rfl
  | cons c v =>
    have hc : isWhitespace c = false := h c (by simp)
    rw [collapseWhitespace, collapseWhitespace, hc]
    simp

/-- The step `.replace(/\s+/g, '_')`: a run of white space between two pieces that do not
touch it with white space becomes exactly one underscore. -/
theorem collapseWhitespace_between (u ws v : JSString) (hne : ws ≠ [])
    (hws : ∀ c ∈ ws, isWhitespace c = true)
    (hu : ∀ c ∈ u.getLast?, isWhitespace c = false)
    (hv : ∀ c ∈ v.head?, isWhitespace c = false) :
    collapseWhitespace false (u ++ ws ++ v) =
      collapseWhitespace false u ++ 95 :: collapseWhitespace false v := by
  have hstate : ((u.getLast?.map isWhitespace).getD false) = false := by
    cases hl : u.getLast? with
    | none => rfl
    | some c => simpa using hu c (by simp [hl])
  rw [List.append_assoc, collapseWhitespace_append, hstate]
  congr 1
  cases ws with
  | nil => exact absurd rfl hne
  | cons c ws =>
    rw [List.cons_append, collapseWhitespace, if_pos (hws c (List.mem_cons_self _ _))]
    simp only [Bool.false_eq_true, if_false]
    congr 1
    rw [collapseWhitespace_append, collapseWhitespace_run ws
      (fun d hd => hws d (List.mem_cons_of_mem _ hd)), List.nil_append]
    exact collapseWhitespace_start _ v hv

/-- C15. Whatever the input string and the length limit, the result of `sanitizeFilename` holds
none of the characters `< > : " / \ | ? *`, holds no white space (the replacement step has
turned each run of white space into a single underscore), and does not end with an
underscore. -/
theorem sanitizeFilename_clean (text : JSString) (maxLength : Nat) :
    (∀ c ∈ sanitizeFilename (some text) maxLength,
      c ∉ lit "<>:\"/\\|?*" ∧ isWhitespace c = false) ∧
    (sanitizeFilename (some text) maxLength).getLast? ≠ some 95 ∧
    (∀ u ws v : JSString, ws ≠ [] → (∀ c ∈ ws, isWhitespace c = true) →
      (∀ c ∈ u.getLast?, isWhitespace c = false) → (∀ c ∈ v.head?, isWhitespace c = false) →
      collapseWhitespace false (u ++ ws ++ v) =
        collapseWhitespace false u ++ 95 :: collapseWhitespace false v) := by
  refine ⟨?_, ?_, collapseWhitespace_between⟩
  · intro c hc
    unfold sanitizeFilename at hc
    simp only [] at hc
    by_cases ht : text = []
    · rw [if_pos ht] at hc
      revert c
      decide
    · rw [if_neg ht] at hc
      have h1 := (List.rdropWhile_prefix _ _).subset hc
      have h2 := (List.take_prefix _ _).subset h1
      rcases mem_collapseWhitespace _ _ _ h2 with h3 | h3
      · subst h3
        decide
      · have h4 := (List.mem_filter.mp h3.1).2
        refine ⟨?_, h3.2⟩
        simp only [isInvalidFilenameChar, Bool.not_eq_true', Bool.or_eq_false_iff,
          decide_eq_false_iff_not] at h4
        intro hmem
        have : c ∈ [60, 62, 58, 34, 47, 92, 124, 63, 42] := hmem
        simp only [List.mem_cons, List.mem_singleton, List.mem_nil_iff, or_false] at this
        omega
  · unfold sanitizeFilename
    simp only []
    by_cases ht : text = []
    · rw [if_pos ht]
      decide
    · rw [if_neg ht]
      intro hlast
      have hne : List.rdropWhile (fun c => decide (c = 95))
          (List.take maxLength (collapseWhitespace false
            (List.filter (fun c => !isInvalidFilenameChar c) text))) ≠ [] := by
        intro h0
        rw [h0] at hlast
        simp at hlast
      have hnot := List.rdropWhile_last_not (fun c => decide (c = 95)) _ hne
      rw [List.getLast?_eq_getLast _ hne] at hlast
      simp only [Option.some.injEq] at hlast
      rw [hlast] at hnot
      simp at hnot

/-- C16, as stated, fails: for the empty string `sanitizeFilename` returns the fallback
`untitled`, eight characters long, also under the limit 5. -/
theorem sanitizeFilename_length_counterexample :
    sanitizeFilename (some []) 5 = lit "untitled" ∧
    (sanitizeFilename (some []) 5).length = 8 ∧
    ¬ (sanitizeFilename (some []) 5).length ≤ 5 := by
  decide

/-- C16, amended. The result of `sanitizeFilename(text, maxLength)` is at most `maxLength`
long for every non-empty string, and for every string when `maxLength` is at least 8, the
length of the fallback `untitled` that the empty string gets. -/
theorem sanitizeFilename_length (text : JSString) (maxLength : Nat)
    (h : text ≠ [] ∨ 8 ≤ maxLength) :
    (sanitizeFilename (some text) maxLength).length ≤ maxLength := by
  unfold sanitizeFilename
  simp only []
  by_cases ht : text = []
  · rw [if_pos ht]
    rcases h with h | h
    · exact absurd ht h
    · exact Nat.le_trans (by decide) h
  · rw [if_neg ht]
    exact Nat.le_trans (List.rdropWhile_prefix _ _).length_le (List.length_take_le _ _)

/-- An instance of the amended C16: a title cut at four characters, and the empty string under
the limit 20. -/
theorem sanitizeFilename_length_witness :
    (sanitizeFilename (some (lit "my clip")) 4).length ≤ 4 ∧
    (sanitizeFilename (some []) 20).length ≤ 20 ∧
    sanitizeFilename (some (lit "my clip")) 4 = lit "my_c" :=
  ⟨sanitizeFilename_length (lit "my clip") 4 (Or.inl (by decide)),
   sanitizeFilename_length [] 20 (Or.inr (by decide)), by decide⟩

/-! ## Relative time -/

theorem floor_intCast_div_lit (n : Int) (d : Nat) : ⌊(n : ℚ) / (d : ℚ)⌋ = n / (d : Int) :=
  Rat.floor_intCast_div_natCast n d

theorem formatTimeAgo_of_time (parse : JSString → Option Int) (dateStr : DateArg)
    (now date : Int) (h : toTimeValue parse dateStr = some date) :
    formatTimeAgo parse dateStr now = timeAgoRule (now - date) := by
  have f1000 : ∀ n : Int, ⌊(n : ℚ) / 1000⌋ = n / 1000 := fun n => by
    simpa using floor_intCast_div_lit n 1000
  have f60 : ∀ n : Int, ⌊(n : ℚ) / 60⌋ = n / 60 := fun n => by
    simpa using floor_intCast_div_lit n 60
  have f24 : ∀ n : Int, ⌊(n : ℚ) / 24⌋ = n / 24 := fun n => by
    simpa using floor_intCast_div_lit n 24
  have f365 : ∀ n : Int, ⌊(n : ℚ) / 365⌋ = n / 365 := fun n => by
    simpa using floor_intCast_div_lit n 365
  have f30 : ∀ n : Int, ⌊(n : ℚ) / 30⌋ = n / 30 := fun n => by
    simpa using floor_intCast_div_lit n 30
  have f7 : ∀ n : Int, ⌊(n : ℚ) / 7⌋ = n / 7 := fun n => by
    simpa using floor_intCast_div_lit n 7
  unfold formatTimeAgo timeAgoRule
  rw [h]
  simp only [f1000, f60, f24, f365, f30, f7, gt_iff_lt, Int.lt_iff_add_one_le, zero_add]

/-- C17, as stated, fails: ten days before a fixed clock reading `formatTimeAgo` answers
`1w`, not `10d`. -/
theorem formatTimeAgo_ten_days_counterexample :
    formatTimeAgo parseNothing (.date (some (1700000000000 - 10 * msPerDay))) 1700000000000
      = lit "1w" ∧
    formatTimeAgo parseNothing (.date (some (1700000000000 - 10 * msPerDay))) 1700000000000
      ≠ lit "10d" := by
  decide

/-- C17, amended. Whatever the clock reads, `formatTimeAgo` of a timestamp exactly ten days
earlier returns `1w`: the weeks, `floor(10 / 7) = 1`, are tried before the days. -/
theorem formatTimeAgo_ten_days (parse : JSString → Option Int) (now : Int) :
    formatTimeAgo parse (.date (some (now - 10 * msPerDay))) now = lit "1w" := by
  have h : now - (now - 10 * msPerDay) = 864000000 := by
    unfold msPerDay
    omega
  unfold formatTimeAgo toTimeValue
  simp only [h]
  decide

/-- C18. For a valid timestamp, `formatTimeAgo` follows the rule of successive floors and
coarsest unit; a timestamp 365 days before the clock reading gives `1y`, one after it gives
`just now`. -/
theorem formatTimeAgo_rule (parse : JSString → Option Int) (dateStr : DateArg)
    (now date : Int) (h : toTimeValue parse dateStr = some date) :
    formatTimeAgo parse dateStr now = timeAgoRule (now - date) ∧
    (date = now - 365 * msPerDay → formatTimeAgo parse dateStr now = lit "1y") ∧
    (now < date → formatTimeAgo parse dateStr now = lit "just now") := by
  refine ⟨formatTimeAgo_of_time parse dateStr now date h, ?_, ?_⟩
  · intro hd
    have h1 : now - date = 31536000000 := by
      rw [hd]
      unfold msPerDay
      omega
    unfold formatTimeAgo
    rw [h]
    simp only [h1]
    decide
  · intro hlt
    unfold formatTimeAgo
    rw [h]
    simp only []
    have h0 : (now - date) / 1000 / 60 / 60 / 24 < 0 := by omega
    have h1 : (now - date) / 1000 / 60 / 60 < 0 := by omega
    have h2 : (now - date) / 1000 / 60 < 0 := by omega
    rw [if_neg (by omega), if_neg (by omega), if_neg (by omega), if_neg (by omega),
      if_neg (by omega), if_neg (by omega)]

/-- An instance of C18: 800 days before the clock reading, two years. -/
theorem formatTimeAgo_rule_witness :
    formatTimeAgo parseNothing (.number (1700000000000 - 800 * msPerDay)) 1700000000000
      = timeAgoRule (1700000000000 - (1700000000000 - 800 * msPerDay)) ∧
    formatTimeAgo parseNothing (.number (1700000000000 - 800 * msPerDay)) 1700000000000
      = lit "2y" :=
  ⟨(formatTimeAgo_rule parseNothing (.number (1700000000000 - 800 * msPerDay)) 1700000000000
      (1700000000000 - 800 * msPerDay) (by decide)).1, by decide⟩

/-- C19. For an input that gives no valid date (`undefined`, an invalid `Date` object, a text
that `Date.parse` rejects, a number out of range), `formatTimeAgo` returns `1d` whatever the
clock reads; it has no failing path. -/
theorem formatTimeAgo_invalid (parse : JSString → Option Int) (dateStr : DateArg) (now : Int)
    (h : toTimeValue parse dateStr = none) :
    formatTimeAgo parse dateStr now = lit "1d" ∧
    formatTimeAgo parse .undefined now = lit "1d" ∧
    formatTimeAgo parse (.date none) now = lit "1d" ∧
    (∀ text, parse text = none → formatTimeAgo parse (.string text) now = lit "1d") := by
  refine ⟨?_, rfl, rfl, ?_⟩
  · unfold formatTimeAgo
    rw [h]
  · intro text ht
    unfold formatTimeAgo toTimeValue
    simp only [ht]

/-- An instance of C19: a text that the parser rejects. -/
theorem formatTimeAgo_invalid_witness :
    formatTimeAgo parseNothing (.string (lit "not a date")) 1700000000000 = lit "1d" :=
  (formatTimeAgo_invalid parseNothing (.string (lit "not a date")) 1700000000000 rfl).1

/-! ## Like counts -/

theorem digitChar_toNat (d : Nat) (h : d < 10) : (Nat.digitChar d).toNat = 48 + d := by
  interval_cases d <;> rfl

theorem toDigitsCore_digits (fuel n : Nat) (ds : List Char)
    (h : ∀ c ∈ ds, 48 ≤ c.toNat ∧ c.toNat ≤ 57) :
    ∀ c ∈ Nat.toDigitsCore 10 fuel n ds, 48 ≤ c.toNat ∧ c.toNat ≤ 57 := by
  induction fuel generalizing n ds with
  | zero => simpa [Nat.toDigitsCore] using h
  | succ fuel ih =>
    have hd : 48 ≤ (Nat.digitChar (n % 10)).toNat ∧ (Nat.digitChar (n % 10)).toNat ≤ 57 := by
      rw [digitChar_toNat _ (Nat.mod_lt _ (by decide))]
      have := Nat.mod_lt n (show 10 > 0 by decide)
      omega
    have hcons : ∀ c ∈ Nat.digitChar (n % 10) :: ds, 48 ≤ c.toNat ∧ c.toNat ≤ 57 := by
      intro c hc
      rcases List.mem_cons.mp hc with h1 | h1
      · rw [h1]; exact hd
      · exact h c h1
    rw [Nat.toDigitsCore]
    split
    · exact hcons
    · exact ih _ _ hcons

theorem decimal_digits (n : Nat) : ∀ c ∈ decimal n, 48 ≤ c ∧ c ≤ 57 := by
  intro c hc
  unfold decimal at hc
  obtain ⟨ch, hch, rfl⟩ := List.mem_map.mp hc
  exact toDigitsCore_digits _ _ [] (by simp) ch hch

theorem decimal_digit (d : Nat) (h : d < 10) : decimal d = [48 + d] := by
  interval_cases d <;> rfl

theorem replaceFirst_skip (a b : Nat) (replacement u v : JSString) (h : a ∉ u) :
    replaceFirst [a, b] replacement (u ++ v) = u ++ replaceFirst [a, b] replacement v := by
  induction u with
  | nil => rfl
  | cons c u ih =>
    have hc : a ≠ c := fun e => h (by simp [e])
    have hu : a ∉ u := fun e => h (List.mem_cons_of_mem _ e)
    rw [List.cons_append, replaceFirst]
    have hp : List.isPrefixOf [a, b] (c :: (u ++ v)) = false := by
      simp [List.isPrefixOf, hc]
    rw [hp]
    simp only [Bool.false_eq_true, if_false, List.cons_append]
    rw [ih hu]

/-- The replacement `.replace('.0', '')` on the output of `toFixed(1)`: the only point stands
before the last digit, so that what goes is a trailing `.0`. -/
theorem replaceFirst_tenths (t : Nat) :
    replaceFirst (lit ".0") [] (decimal (t / 10) ++ lit "." ++ decimal (t % 10)) =
      showTenths t := by
  have hd : t % 10 < 10 := Nat.mod_lt _ (by decide)
  have hno : 46 ∉ decimal (t / 10) := fun hm => by
    have := decimal_digits _ _ hm
    omega
  have hlit : lit ".0" = [46, 48] := by decide
  have hpt : lit "." = [46] := by decide
  rw [hlit, hpt, List.append_assoc, replaceFirst_skip 46 48 [] _ _ hno, decimal_digit _ hd]
  unfold showTenths
  by_cases h0 : t % 10 = 0
  · rw [if_pos h0, h0]
    simp [replaceFirst, List.isPrefixOf]
  · rw [if_neg h0, hpt, decimal_digit _ hd]
    have h48 : ¬ (48 = 48 + t % 10) := by omega
    simp [replaceFirst, List.isPrefixOf, h48]

theorem roundHalfEven_near (a b : Nat) (hb : 0 < b) :
    2 * (roundHalfEven a b * b) ≤ 2 * a + b ∧ 2 * a ≤ 2 * (roundHalfEven a b * b) + b := by
  have h1 := Nat.div_add_mod a b
  have h2 := Nat.mod_lt a hb
  have h3 : (a / b + 1) * b = b * (a / b) + b := by rw [Nat.add_mul, Nat.one_mul, Nat.mul_comm]
  have h4 : a / b * b = b * (a / b) := Nat.mul_comm _ _
  unfold roundHalfEven
  simp only []
  split
  · rw [h4]; omega
  · split
    · rw [h3]; omega
    · split
      · rw [h4]; omega
      · rw [h3]; omega

theorem pow_binaryExponent_le (fuel n : Nat) (h : 1 ≤ n) : 2 ^ binaryExponent fuel n ≤ n := by
  induction fuel generalizing n with
  | zero => simpa [binaryExponent] using h
  | succ fuel ih =>
    rw [binaryExponent]
    by_cases h2 : n ≥ 2
    · rw [if_pos h2, Nat.pow_succ]
      have := ih (n / 2) (by omega)
      omega
    · rw [if_neg h2]
      simpa using h

theorem lt_pow_binaryExponent (fuel n : Nat) (h : n < 2 ^ fuel) :
    n < 2 ^ (binaryExponent fuel n + 1) := by
  induction fuel generalizing n with
  | zero =>
    simp only [Nat.pow_zero] at h
    have h0 : binaryExponent 0 n = 0 := rfl
    rw [h0]
    omega
  | succ fuel ih =>
    rw [binaryExponent]
    by_cases h2 : n ≥ 2
    · rw [if_pos h2]
      have hh : n / 2 < 2 ^ fuel := by
        rw [Nat.pow_succ] at h
        omega
      have := ih (n / 2) hh
      rw [Nat.pow_succ]
      omega
    · rw [if_neg h2]
      simp
      omega

/-- The significand is scaled by at least `2 ^ 9` when the quotient is below `2 ^ 44`. -/
theorem divideDouble_scale (n : Nat) (h1 : 1000 ≤ n) (h2 : n < 2 ^ 53) :
    512 ≤ 2 ^ (divideDouble n 1000).2 := by
  have hq1 : 1 ≤ n / 1000 := by omega
  have hq2 : n / 1000 < 2 ^ 44 := by
    have : (2 : Nat) ^ 53 = 9007199254740992 := by norm_num
    have : (2 : Nat) ^ 44 = 17592186044416 := by norm_num
    omega
  have hle := pow_binaryExponent_le 64 (n / 1000) hq1
  have he : binaryExponent 64 (n / 1000) < 44 := by
    by_contra hc
    have : 2 ^ 44 ≤ 2 ^ binaryExponent 64 (n / 1000) :=
      Nat.pow_le_pow_right (by decide) (by omega)
    omega
  have hs : 9 ≤ 52 - binaryExponent 64 (n / 1000) := by omega
  have : 2 ^ 9 ≤ 2 ^ (52 - binaryExponent 64 (n / 1000)) :=
    Nat.pow_le_pow_right (by decide) hs
  simpa [divideDouble] using this

theorem tenths_near (n p m : Nat) (hp : 512 ≤ p)
    (hr1 : 2 * (m * 1000) ≤ 2 * (n * p) + 1000) (hr2 : 2 * (n * p) ≤ 2 * (m * 1000) + 1000) :
    100 * ((20 * m + p) / (2 * p)) ≤ n + 50 ∧ n ≤ 100 * ((20 * m + p) / (2 * p)) + 50 := by
  have hpos : 0 < 2 * p := by omega
  have hd1 : (20 * m + p) / (2 * p) * (2 * p) ≤ 20 * m + p := Nat.div_mul_le_self _ _
  have hd2 : 20 * m + p < 2 * p * ((20 * m + p) / (2 * p) + 1) := Nat.lt_mul_div_succ _ hpos
  generalize (20 * m + p) / (2 * p) = t at hd1 hd2 ⊢
  have e1 : t * (2 * p) = 2 * (t * p) := by ring
  have e2 : 2 * p * (t + 1) = 2 * (t * p) + 2 * p := by ring
  rw [e1] at hd1
  rw [e2] at hd2
  constructor
  · by_contra hc
    have h51 : (n + 51) * p ≤ 100 * t * p := Nat.mul_le_mul_right p (by omega)
    have e3 : (n + 51) * p = n * p + 51 * p := by ring
    have e4 : 100 * t * p = 100 * (t * p) := by ring
    rw [e3, e4] at h51
    generalize t * p = y at *
    generalize n * p = x at *
    omega
  · by_contra hc
    have h51 : (100 * t + 51) * p ≤ n * p := Nat.mul_le_mul_right p (by omega)
    have e3 : (100 * t + 51) * p = 100 * (t * p) + 51 * p := by ring
    rw [e3] at h51
    generalize t * p = y at *
    generalize n * p = x at *
    omega

/-- From 1000 up, `formatLikes` prints a number of tenths that is within half a tenth of
`count / 1000`. -/
theorem formatLikes_thousands (n : Nat) (h1 : 1000 ≤ n) (h2 : n < 2 ^ 53) :
    ∃ t, 100 * t ≤ n + 50 ∧ n ≤ 100 * t + 50 ∧
      formatLikes (.number n) = showTenths t ++ lit "K" := by
  have hscale := divideDouble_scale n h1 h2
  obtain ⟨hr1, hr2⟩ := roundHalfEven_near (n * 2 ^ (divideDouble n 1000).2) 1000 (by decide)
  have hm : (divideDouble n 1000).1 = roundHalfEven (n * 2 ^ (divideDouble n 1000).2) 1000 :=
    rfl
  have hpow : 2 ^ ((divideDouble n 1000).2 + 1) = 2 * 2 ^ (divideDouble n 1000).2 := by
    rw [Nat.pow_succ, Nat.mul_comm]
  have hnear := tenths_near n (2 ^ (divideDouble n 1000).2) (divideDouble n 1000).1 hscale
    (by rw [hm]; exact hr1) (by rw [hm]; exact hr2)
  refine ⟨(20 * (divideDouble n 1000).1 + 2 ^ (divideDouble n 1000).2) /
    2 ^ ((divideDouble n 1000).2 + 1), ?_, ?_, ?_⟩
  · rw [hpow]; exact hnear.1
  · rw [hpow]; exact hnear.2
  · simp only [formatLikes]
    rw [if_neg (by omega), if_pos h1]
    unfold toFixed1
    simp only []
    rw [replaceFirst_tenths]

/-- C20. `formatLikes` returns `0` for 0, `null`, `undefined` and a value that is not a
number; the decimal string for an integer from 1 to 999; and from 1000 up (counts below 2^53,
which are exact as numbers) `count / 1000` rounded to the nearest tenth and followed by `K`,
the tenths left out when they are 0: 999 gives `999`, 1000 gives `1K`, 1500 gives `1.5K`,
10000 gives `10K`. -/
theorem formatLikes_spec :
    formatLikes (.number 0) = lit "0" ∧ formatLikes .null = lit "0" ∧
    formatLikes .undefined = lit "0" ∧ formatLikes .other = lit "0" ∧
    (∀ n, 1 ≤ n → n ≤ 999 → formatLikes (.number n) = decimal n) ∧
    (∀ n, 1000 ≤ n → n < 2 ^ 53 →
      ∃ t, 100 * t ≤ n + 50 ∧ n ≤ 100 * t + 50 ∧
        formatLikes (.number n) = showTenths t ++ lit "K") ∧
    (∀ n, 1000 ≤ n → n < 2 ^ 53 → n % 100 ≠ 50 →
      formatLikes (.number n) = showTenths ((n + 50) / 100) ++ lit "K") ∧
    formatLikes (.number 999) = lit "999" ∧ formatLikes (.number 1000) = lit "1K" ∧
    formatLikes (.number 1500) = lit "1.5K" ∧ formatLikes (.number 10000) = lit "10K" := by
  refine ⟨rfl, rfl, rfl, rfl, ?_, formatLikes_thousands, ?_, by decide, by decide, by decide,
    by decide⟩
  · intro n h1 h2
    simp only [formatLikes]
    rw [if_neg (by omega), if_neg (by omega)]
  · intro n h1 h2 h3
    obtain ⟨t, ht1, ht2, ht3⟩ := formatLikes_thousands n h1 h2
    have : t = (n + 50) / 100 := by omega
    rw [ht3, this]

/-- Counts halfway between two tenths go where the double of `count / 1000` lies: 1.15 is
stored below its decimal value and 1.05 above, 1.25 is exact and goes up. -/
theorem formatLikes_halfway :
    formatLikes (.number 1050) = lit "1.1K" ∧ formatLikes (.number 1150) = lit "1.1K" ∧
    formatLikes (.number 1250) = lit "1.3K" ∧ formatLikes (.number 999950) = lit "1000K" := by
  decide

/-! ## The image map of a batch -/

theorem ImageFiles.get_cons (k : JSString) (v : List Nat) (rest : ImageFiles)
    (key : JSString) :
    ImageFiles.get ((k, v) :: rest) key = if k = key then some v else ImageFiles.get rest key :=
  rfl

theorem ImageFiles.get_replace (files : ImageFiles) (name : JSString) (bytes : List Nat)
    (key : JSString) :
    ImageFiles.get (files.map (fun kv => if kv.1 = name then (kv.1, bytes) else kv)) key =
      if name = key then (files.get key).map (fun _ => bytes) else files.get key := by
  induction files with
  | nil => by_cases h : name = key <;> simp [ImageFiles.get, h]
  | cons kv rest ih =>
    obtain ⟨k, v⟩ := kv
    by_cases hk : k = name
    · have hhead : (if (k, v).1 = name then ((k, v).1, bytes) else (k, v)) = (k, bytes) :=
        if_pos hk
      rw [List.map_cons, hhead, ImageFiles.get_cons, ImageFiles.get_cons, ih]
      by_cases h : k = key
      · have hn : name = key := hk ▸ h
        simp [h, hn]
      · have hn : ¬ name = key := fun e => h (hk.trans e)
        simp [h, hn]
    · have hhead : (if (k, v).1 = name then ((k, v).1, bytes) else (k, v)) = (k, v) :=
        if_neg hk
      rw [List.map_cons, hhead, ImageFiles.get_cons, ImageFiles.get_cons, ih]
      by_cases h : k = key
      · have hn : ¬ name = key := fun e => hk (h.trans e.symm)
        simp [h, hn]
      · by_cases hn : name = key <;> simp [h, hn]

theorem ImageFiles.any_iff_get (files : ImageFiles) (name : JSString) :
    files.any (fun kv => decide (kv.1 = name)) = true ↔ (files.get name).isSome = true := by
  induction files with
  | nil => simp [ImageFiles.get]
  | cons kv rest ih =>
    obtain ⟨k, v⟩ := kv
    rw [List.any_cons, ImageFiles.get_cons]
    by_cases h : k = name
    · simp [h]
    · simp only [h, decide_False, Bool.false_or, if_false]
      exact ih

theorem ImageFiles.get_append (xs ys : ImageFiles) (key : JSString) :
    ImageFiles.get (xs ++ ys) key =
      match ImageFiles.get xs key with
      | some v => some v
      | none => ImageFiles.get ys key := by
  induction xs with
  | nil => simp [ImageFiles.get]
  | cons kv rest ih =>
    obtain ⟨k, v⟩ := kv
    by_cases h : k = key
    · simp [ImageFiles.get, h]
    · simp only [List.cons_append, ImageFiles.get, if_neg h]
      exact ih

theorem ImageFiles.get_set (files : ImageFiles) (name : JSString) (bytes : List Nat)
    (key : JSString) :
    (files.set name bytes).get key = if name = key then some bytes else files.get key := by
  unfold ImageFiles.set
  by_cases hany : files.any (fun kv => decide (kv.1 = name)) = true
  · rw [if_pos hany, ImageFiles.get_replace]
    by_cases h : name = key
    · rw [if_pos h, if_pos h]
      have hs := (ImageFiles.any_iff_get files name).mp hany
      rw [h] at hs
      cases hg : ImageFiles.get files key with
      | none => rw [hg] at hs; simp at hs
      | some v => rfl
    · rw [if_neg h, if_neg h]
  · rw [if_neg hany, ImageFiles.get_append]
    have hnone : ImageFiles.get files name = none := by
      cases hg : ImageFiles.get files name with
      | none => rfl
      | some v =>
        exact absurd ((ImageFiles.any_iff_get files name).mpr (by rw [hg]; rfl)) hany
    by_cases h : name = key
    · rw [if_pos h, ← h, hnone]
      simp [ImageFiles.get]
    · rw [if_neg h]
      cases ImageFiles.get files key with
      | none => simp [ImageFiles.get, h]
      | some v => rfl

/-- Last write wins: the bytes under a name are those of the last stored image of that name,
else what was there before. -/
theorem storeAll_get (files : ImageFiles) (images : List (JSString × List Nat))
    (key : JSString) :
    (storeAll files images).get key =
      match ImageFiles.get images.reverse key with
      | some v => some v
      | none => files.get key := by
  induction images generalizing files with
  | nil => simp [storeAll, ImageFiles.get]
  | cons kv images ih =>
    have hstep : storeAll files (kv :: images) = storeAll (files.set kv.1 kv.2) images := rfl
    rw [hstep, ih, List.reverse_cons, ImageFiles.get_append, ImageFiles.get_set]
    cases ImageFiles.get images.reverse key with
    | some v => rfl
    | none =>
      obtain ⟨k, v⟩ := kv
      by_cases h : k = key <;> simp [ImageFiles.get, h]

theorem ImageFiles.mem_set (files : ImageFiles) (name : JSString) (bytes : List Nat)
    (kv : JSString × List Nat) (h : kv ∈ files.set name bytes) :
    kv ∈ files ∨ kv = (name, bytes) := by
  unfold ImageFiles.set at h
  split at h
  · obtain ⟨x, hx, hxe⟩ := List.mem_map.mp h
    by_cases hk : x.1 = name
    · rw [if_pos hk] at hxe
      right
      rw [← hxe, hk]
    · rw [if_neg hk] at hxe
      left
      rw [← hxe]
      exact hx
  · rcases List.mem_append.mp h with h1 | h1
    · exact Or.inl h1
    · right
      simpa using h1

theorem storeAll_mem (files : ImageFiles) (images : List (JSString × List Nat))
    (kv : JSString × List Nat) (h : kv ∈ storeAll files images) : kv ∈ files ∨ kv ∈ images := by
  induction images generalizing files with
  | nil => exact Or.inl h
  | cons x images ih =>
    have hstep : storeAll files (x :: images) = storeAll (files.set x.1 x.2) images := rfl
    rw [hstep] at h
    rcases ih _ h with h1 | h1
    · rcases ImageFiles.mem_set _ _ _ _ h1 with h2 | h2
      · exact Or.inl h2
      · right
        rw [h2]
        exact List.mem_cons_self _ _
    · exact Or.inr (List.mem_cons_of_mem _ h1)

theorem ImageFiles.keys_set (files : ImageFiles) (name : JSString) (bytes : List Nat) :
    (files.set name bytes).map Prod.fst =
      if name ∈ files.map Prod.fst then files.map Prod.fst
      else files.map Prod.fst ++ [name] := by
  unfold ImageFiles.set
  by_cases hany : files.any (fun kv => decide (kv.1 = name)) = true
  · have hm : name ∈ files.map Prod.fst := by
      obtain ⟨kv, hkv, he⟩ := List.any_eq_true.mp hany
      exact List.mem_map.mpr ⟨kv, hkv, by simpa using he⟩
    rw [if_pos hany, if_pos hm, List.map_map]
    apply List.map_congr_left
    intro kv _
    by_cases hk : kv.1 = name <;> simp [hk]
  · have hm : name ∉ files.map Prod.fst := by
      intro hm
      obtain ⟨kv, hkv, he⟩ := List.mem_map.mp hm
      exact hany (List.any_eq_true.mpr ⟨kv, hkv, by simpa using he⟩)
    rw [if_neg hany, if_neg hm]
    simp

theorem storeAll_keys (files : ImageFiles) (images : List (JSString × List Nat))
    (hnodup : (files.map Prod.fst).Nodup) :
    ((storeAll files images).map Prod.fst).Nodup ∧
    ∀ key, key ∈ (storeAll files images).map Prod.fst ↔
      key ∈ files.map Prod.fst ∨ key ∈ images.map Prod.fst := by
  induction images generalizing files with
  | nil => simp [storeAll, hnodup]
  | cons x images ih =>
    have hstep : storeAll files (x :: images) = storeAll (files.set x.1 x.2) images := rfl
    have hn : ((files.set x.1 x.2).map Prod.fst).Nodup := by
      rw [ImageFiles.keys_set]
      split
      · exact hnodup
      · rename_i hx
        exact List.Nodup.append hnodup (List.nodup_singleton _) (by simpa using hx)
    obtain ⟨h1, h2⟩ := ih _ hn
    rw [hstep]
    refine ⟨h1, fun key => ?_⟩
    rw [h2, ImageFiles.keys_set]
    split
    · rename_i hx
      simp only [List.map_cons, List.mem_cons]
      constructor
      · rintro (h | h)
        · exact Or.inl h
        · exact Or.inr (Or.inr h)
      · rintro (h | h | h)
        · exact Or.inl h
        · exact Or.inl (h ▸ hx)
        · exact Or.inr h
    · simp only [List.mem_append, List.mem_singleton, List.map_cons, List.mem_cons]
      tauto

theorem storeAll_length_pos (images : List (JSString × List Nat)) :
    0 < (storeAll [] images).length ↔ images ≠ [] := by
  constructor
  · intro h e
    rw [e] at h
    simp [storeAll] at h
  · intro h
    cases images with
    | nil => exact absurd rfl h
    | cons x images =>
      have hk := ((storeAll_keys [] (x :: images) (by simp)).2 x.1).mpr (Or.inr (by simp))
      cases hs : storeAll [] (x :: images) with
      | nil => rw [hs] at hk; simp at hk
      | cons y ys => simp

/-! ## The loops of `generateFflateZIPs`, step by step -/

theorem store_rendered (files : ImageFiles) (o : RenderOutcome) :
    (match o with
      | .blob filename (some png) =>
        if png.length > 0 then files.set (filename ++ lit ".png") png else files
      | _ => files) = storeAll files (renderedImage o).toList := by
  cases o with
  | threw => rfl
  | blob filename png =>
    cases png with
    | none => rfl
    | some png =>
      by_cases h : png.length > 0
      · simp [renderedImage, h, storeAll]
      · simp [renderedImage, h, storeAll]

theorem storeAll_append (files : ImageFiles) (xs ys : List (JSString × List Nat)) :
    storeAll files (xs ++ ys) = storeAll (storeAll files xs) ys := by
  simp [storeAll, List.foldl_append]

theorem batchSuccesses_nil {α : Type} (w : World α) (tick : Nat) :
    batchSuccesses w [] tick = [] := rfl

theorem batchSuccesses_cons {α : Type} (w : World α) (c : Comment α) (rest : List (Comment α))
    (tick : Nat) :
    batchSuccesses w (c :: rest) tick =
      (renderedImage (w.render (tick + 1) c)).toList ++ batchSuccesses w rest (tick + 1) := by
  unfold batchSuccesses
  rw [List.length_cons, List.range_succ_eq_map, List.filterMap_cons, List.filterMap_map]
  have htail : (fun j => (c :: rest)[j]?.bind
        (fun c => renderedImage (w.render (tick + j + 1) c))) ∘ Nat.succ =
      fun j => rest[j]?.bind (fun c => renderedImage (w.render (tick + 1 + j + 1) c)) := by
    funext j
    simp only [Function.comp, Nat.succ_eq_add_one, List.getElem?_cons_succ]
    have e : tick + (j + 1) + 1 = tick + 1 + j + 1 := by omega
    rw [e]
  rw [htail]
  simp only [List.getElem?_cons_zero, Option.some_bind, Nat.add_zero]
  cases renderedImage (w.render (tick + 1) c) <;> rfl

/-- The inner loop when no check of it sees the flag: every comment is rendered, in order,
and the images are those of the successful renders. -/
theorem commentLoop_calm {α : Type} (w : World α) (onProgress : ExportProgress → ExportProgress)
    (batchIndex total startIndex batchLength : Nat) (batch : List (Comment α)) :
    ∀ (i : Nat) (imageFiles : ImageFiles) (run : Run),
      (∀ t, w.cancelAt = some t → run.checks + batch.length ≤ t) →
      (commentLoop w onProgress batchIndex total startIndex batchLength batch i imageFiles
          run).1 = some (storeAll imageFiles (batchSuccesses w batch run.checks)) ∧
      (commentLoop w onProgress batchIndex total startIndex batchLength batch i imageFiles
          run).2.checks = run.checks + batch.length ∧
      (commentLoop w onProgress batchIndex total startIndex batchLength batch i imageFiles
          run).2.attempts = run.attempts ++ List.range' (startIndex + i) batch.length ∧
      (commentLoop w onProgress batchIndex total startIndex batchLength batch i imageFiles
          run).2.downloads = run.downloads ∧
      (commentLoop w onProgress batchIndex total startIndex batchLength batch i imageFiles
          run).2.queries = run.queries := by
  induction batch with
  | nil =>
    intro i imageFiles run _
    simp [commentLoop, batchSuccesses_nil, storeAll]
  | cons comment rest ih =>
    intro i imageFiles run hcalm
    have hf : ¬ w.flagAt run.checks = true := by
      unfold World.flagAt
      cases hc : w.cancelAt with
      | none => simp
      | some t =>
        have := hcalm t hc
        simp only [List.length_cons] at this
        simp only [decide_eq_true_eq, not_le]
        omega
    rw [commentLoop, if_neg hf]
    simp only []
    have hnext := ih (i + 1)
      (match w.render (run.checks + 1) comment with
        | .blob filename (some png) =>
          if png.length > 0 then imageFiles.set (filename ++ lit ".png") png else imageFiles
        | _ => imageFiles)
      { run with
        checks := run.checks + 1
        progress := onProgress
          { run.progress with
            completed := some (startIndex + i)
            status := .generatingImage (batchIndex + 1) total (i + 1) batchLength }
        attempts := run.attempts ++ [startIndex + i] }
      (fun t hc => by
        have := hcalm t hc
        simp only [List.length_cons] at this
        simp only []
        omega)
    simp only [] at hnext
    obtain ⟨h1, h2, h3, h4, h5⟩ := hnext
    refine ⟨?_, ?_, ?_, h4, h5⟩
    · rw [h1, store_rendered, batchSuccesses_cons, storeAll_append]
    · rw [h2, List.length_cons]
      omega
    · rw [h3, List.length_cons, List.range'_succ, List.append_assoc]
      have e : startIndex + (i + 1) = startIndex + i + 1 := by omega
      rw [e]
      rfl

/-- The inner loop when the flag is set just before one of its checks: that check raises, the
comments before it were rendered and no other. -/
theorem commentLoop_stopped {α : Type} (w : World α)
    (onProgress : ExportProgress → ExportProgress)
    (batchIndex total startIndex batchLength t : Nat) (hc : w.cancelAt = some t)
    (batch : List (Comment α)) :
    ∀ (i : Nat) (imageFiles : ImageFiles) (run : Run),
      run.checks ≤ t → t < run.checks + batch.length →
      (commentLoop w onProgress batchIndex total startIndex batchLength batch i imageFiles
          run).1 = none ∧
      (commentLoop w onProgress batchIndex total startIndex batchLength batch i imageFiles
          run).2.checks = t + 1 ∧
      (commentLoop w onProgress batchIndex total startIndex batchLength batch i imageFiles
          run).2.attempts = run.attempts ++ List.range' (startIndex + i) (t - run.checks) ∧
      (commentLoop w onProgress batchIndex total startIndex batchLength batch i imageFiles
          run).2.downloads = run.downloads ∧
      (commentLoop w onProgress batchIndex total startIndex batchLength batch i imageFiles
          run).2.queries = run.queries := by
  induction batch with
  | nil =>
    intro i imageFiles run h1 h2
    simp only [List.length_nil] at h2
    omega
  | cons comment rest ih =>
    intro i imageFiles run h1 h2
    rw [commentLoop, World.flagAt_eq w t _ hc]
    by_cases ht : t ≤ run.checks
    · have he : t = run.checks := by omega
      rw [if_pos (by simpa using ht)]
      simp [he]
    · rw [if_neg (by simpa using ht)]
      simp only []
      have hnext := ih (i + 1)
        (match w.render (run.checks + 1) comment with
          | .blob filename (some png) =>
            if png.length > 0 then imageFiles.set (filename ++ lit ".png") png else imageFiles
          | _ => imageFiles)
        { run with
          checks := run.checks + 1
          progress := onProgress
            { run.progress with
              completed := some (startIndex + i)
              status := .generatingImage (batchIndex + 1) total (i + 1) batchLength }
          attempts := run.attempts ++ [startIndex + i] }
        (by simp only []; omega)
        (by simp only [List.length_cons] at h2; simp only []; omega)
      simp only [] at hnext
      obtain ⟨g1, g2, g3, g4, g5⟩ := hnext
      refine ⟨g1, g2, ?_, g4, g5⟩
      rw [g3, List.append_assoc]
      have e1 : t - run.checks = (t - (run.checks + 1)) + 1 := by omega
      have e2 : startIndex + (i + 1) = startIndex + i + 1 := by omega
      rw [e1, List.range'_succ, e2]
      rfl

/-- One iteration of the outer loop that no check sees cancelled: the batch is rendered in
full and its archive, if any, is appended. -/
theorem batchLoop_step_calm {α : Type} (w : World α)
    (onProgress : ExportProgress → ExportProgress) (comments : List (Comment α))
    (videoTitle : Option JSString) (batchSize total remaining batchIndex : Nat)
    (zipFiles : List JSString) (run : Run)
    (hcalm : ∀ t, w.cancelAt = some t →
      run.checks + 1 + (batchComments comments batchSize batchIndex).length ≤ t) :
    ∃ run' : Run,
      batchLoop w onProgress comments videoTitle batchSize total (remaining + 1) batchIndex
          zipFiles run =
        batchLoop w onProgress comments videoTitle batchSize total remaining (batchIndex + 1)
          (zipFiles ++ (batchArchive w comments videoTitle batchSize total run.checks
            batchIndex).toList.map Prod.fst) run' ∧
      run'.checks = run.checks + 1 + (batchComments comments batchSize batchIndex).length ∧
      run'.attempts = run.attempts ++
        List.range' (batchIndex * batchSize) (batchComments comments batchSize batchIndex).length ∧
      run'.downloads = run.downloads ++
        (batchArchive w comments videoTitle batchSize total run.checks batchIndex).toList ∧
      run'.queries = run.queries := by
  have hf : ¬ w.flagAt run.checks = true := by
    unfold World.flagAt
    cases hc : w.cancelAt with
    | none => simp
    | some t =>
      have := hcalm t hc
      simp only [decide_eq_true_eq, not_le]
      omega
  have hloop := commentLoop_calm w onProgress batchIndex total (batchIndex * batchSize)
    (batchComments comments batchSize batchIndex).length
    (batchComments comments batchSize batchIndex) 0 []
    { run with checks := run.checks + 1 }
    (fun t hc => by have := hcalm t hc; simp only []; omega)
  rw [batchLoop, if_neg hf]
  simp only []
  rcases hres : commentLoop w onProgress batchIndex total (batchIndex * batchSize)
    (batchComments comments batchSize batchIndex).length
    (batchComments comments batchSize batchIndex) 0 []
    { run with checks := run.checks + 1 } with ⟨o, run1⟩
  rw [hres] at hloop
  simp only [Nat.add_zero] at hloop
  obtain ⟨h1, h2, h3, h4, h5⟩ := hloop
  subst h1
  simp only []
  by_cases hlen : (storeAll [] (batchSuccesses w (batchComments comments batchSize batchIndex)
      (run.checks + 1))).length > 0
  · rw [if_pos hlen]
    by_cases hzip : w.zipOk run1.checks = true
    · rw [if_pos hzip]
      have harch : batchArchive w comments videoTitle batchSize total run.checks batchIndex =
          some (zipName videoTitle total batchIndex,
            storeAll [] (batchSuccesses w (batchComments comments batchSize batchIndex)
              (run.checks + 1))) := by
        unfold batchArchive
        simp only []
        rw [if_pos ⟨hlen, by rw [← h2]; exact hzip⟩]
      rw [harch]
      simp only [Option.toList, List.map_cons, List.map_nil]
      refine ⟨_, rfl, ?_, ?_, ?_, ?_⟩
      · exact h2
      · exact h3
      · simp only [h4]
      · exact h5
    · rw [if_neg hzip]
      have harch : batchArchive w comments videoTitle batchSize total run.checks batchIndex =
          none := by
        unfold batchArchive
        simp only []
        rw [if_neg (fun hh => hzip (by rw [h2]; exact hh.2))]
      rw [harch]
      simp only [Option.toList, List.map_nil, List.append_nil]
      refine ⟨_, rfl, ?_, ?_, ?_, ?_⟩
      · exact h2
      · exact h3
      · exact h4
      · exact h5
  · rw [if_neg hlen]
    have harch : batchArchive w comments videoTitle batchSize total run.checks batchIndex =
        none := by
      unfold batchArchive
      simp only []
      rw [if_neg (fun hh => hlen hh.1)]
    rw [harch]
    simp only [Option.toList, List.map_nil, List.append_nil]
    exact ⟨run1, rfl, h2, h3, h4, h5⟩

/-- One iteration of the outer loop in which a check of the inner loop sees the flag: the
comments before that check were rendered, the batch leaves no archive and no name. -/
theorem batchLoop_step_stopped {α : Type} (w : World α)
    (onProgress : ExportProgress → ExportProgress) (comments : List (Comment α))
    (videoTitle : Option JSString) (batchSize total remaining batchIndex t : Nat)
    (zipFiles : List JSString) (run : Run) (hc : w.cancelAt = some t)
    (h1 : run.checks + 1 ≤ t)
    (h2 : t < run.checks + 1 + (batchComments comments batchSize batchIndex).length) :
    ∃ run' : Run,
      batchLoop w onProgress comments videoTitle batchSize total (remaining + 1) batchIndex
          zipFiles run =
        batchLoop w onProgress comments videoTitle batchSize total remaining (batchIndex + 1)
          zipFiles run' ∧
      run'.checks = t + 1 ∧
      run'.attempts = run.attempts ++
        List.range' (batchIndex * batchSize) (t - (run.checks + 1)) ∧
      run'.downloads = run.downloads ∧
      run'.queries = run.queries := by
  have hf : ¬ w.flagAt run.checks = true := by
    rw [World.flagAt_eq w t _ hc]
    simp only [decide_eq_true_eq, not_le]
    omega
  have hloop := commentLoop_stopped w onProgress batchIndex total (batchIndex * batchSize)
    (batchComments comments batchSize batchIndex).length t hc
    (batchComments comments batchSize batchIndex) 0 []
    { run with checks := run.checks + 1 } (by simp only []; omega) (by simp only []; omega)
  rw [batchLoop, if_neg hf]
  simp only []
  rcases hres : commentLoop w onProgress batchIndex total (batchIndex * batchSize)
    (batchComments comments batchSize batchIndex).length
    (batchComments comments batchSize batchIndex) 0 []
    { run with checks := run.checks + 1 } with ⟨o, run1⟩
  rw [hres] at hloop
  simp only [Nat.add_zero] at hloop
  obtain ⟨g1, g2, g3, g4, g5⟩ := hloop
  subst g1
  exact ⟨run1, rfl, g2, g3, g4, g5⟩

/-- Once the flag is set, the outer loop renders nothing and builds no archive: it raises at
its next check, or returns what it has when no iteration is left. -/
theorem batchLoop_after_cancel {α : Type} (w : World α)
    (onProgress : ExportProgress → ExportProgress) (comments : List (Comment α))
    (videoTitle : Option JSString) (batchSize total remaining batchIndex t : Nat)
    (zipFiles : List JSString) (run : Run) (hc : w.cancelAt = some t) (ht : t ≤ run.checks) :
    (batchLoop w onProgress comments videoTitle batchSize total remaining batchIndex zipFiles
        run).1 = (if remaining = 0 then .ok zipFiles else .error "Export cancelled by user") ∧
    (batchLoop w onProgress comments videoTitle batchSize total remaining batchIndex zipFiles
        run).2.attempts = run.attempts ∧
    (batchLoop w onProgress comments videoTitle batchSize total remaining batchIndex zipFiles
        run).2.downloads = run.downloads := by
  cases remaining with
  | zero => simp [batchLoop]
  | succ remaining =>
    have hf : w.flagAt run.checks = true := by
      rw [World.flagAt_eq w t _ hc]
      simpa using ht
    rw [batchLoop, if_pos hf]
    simp

theorem archivesFrom_succ {α : Type} (w : World α) (comments : List (Comment α))
    (videoTitle : Option JSString) (batchSize total tick first count : Nat) :
    archivesFrom w comments videoTitle batchSize total tick first (count + 1) =
      (batchArchive w comments videoTitle batchSize total tick first).toList ++
        archivesFrom w comments videoTitle batchSize total (tick + 1 + batchSize) (first + 1)
          count := by
  unfold archivesFrom
  rw [List.range_succ_eq_map, List.filterMap_cons, List.filterMap_map]
  have htail : (fun d => batchArchive w comments videoTitle batchSize total
        (tick + d * (batchSize + 1)) (first + d)) ∘ Nat.succ =
      fun d => batchArchive w comments videoTitle batchSize total
        (tick + 1 + batchSize + d * (batchSize + 1)) (first + 1 + d) := by
    funext d
    simp only [Function.comp, Nat.succ_eq_add_one]
    have e1 : tick + (d + 1) * (batchSize + 1) = tick + 1 + batchSize + d * (batchSize + 1) := by
      rw [Nat.add_mul, Nat.one_mul]
      omega
    have e2 : first + (d + 1) = first + 1 + d := by omega
    rw [e1, e2]
  rw [htail]
  simp only [Nat.zero_mul, Nat.add_zero]
  cases batchArchive w comments videoTitle batchSize total tick first <;> rfl

theorem archivesFrom_last {α : Type} (w : World α) (comments : List (Comment α))
    (videoTitle : Option JSString) (batchSize total tick first count : Nat) :
    archivesFrom w comments videoTitle batchSize total tick first (count + 1) =
      archivesFrom w comments videoTitle batchSize total tick first count ++
        (batchArchive w comments videoTitle batchSize total (tick + count * (batchSize + 1))
          (first + count)).toList := by
  unfold archivesFrom
  rw [List.range_succ, List.filterMap_append]
  congr 1

/-- A stretch of `count` full batches that no check sees cancelled. -/
theorem batchLoop_calm_batches {α : Type} (w : World α)
    (onProgress : ExportProgress → ExportProgress) (comments : List (Comment α))
    (videoTitle : Option JSString) (batchSize total : Nat) (count : Nat) :
    ∀ (remaining first : Nat) (zipFiles : List JSString) (run : Run),
      (∀ d, d < count → (batchComments comments batchSize (first + d)).length = batchSize) →
      (∀ t, w.cancelAt = some t → run.checks + count * (batchSize + 1) ≤ t) →
      ∃ run' : Run,
        batchLoop w onProgress comments videoTitle batchSize total (count + remaining) first
            zipFiles run =
          batchLoop w onProgress comments videoTitle batchSize total remaining (first + count)
            (zipFiles ++ (archivesFrom w comments videoTitle batchSize total run.checks first
              count).map Prod.fst) run' ∧
        run'.checks = run.checks + count * (batchSize + 1) ∧
        run'.attempts = run.attempts ++
          List.range' (first * batchSize) (count * batchSize) ∧
        run'.downloads = run.downloads ++
          archivesFrom w comments videoTitle batchSize total run.checks first count ∧
        run'.queries = run.queries := by
  induction count with
  | zero =>
    intro remaining first zipFiles run _ _
    exact ⟨run, by simp [archivesFrom], by simp, by simp, by simp [archivesFrom], rfl⟩
  | succ count ih =>
    intro remaining first zipFiles run hfull hcalm
    have hsize : (batchComments comments batchSize first).length = batchSize := by
      simpa using hfull 0 (by omega)
    have hmul : (count + 1) * (batchSize + 1) = count * (batchSize + 1) + (batchSize + 1) := by
      rw [Nat.add_mul, Nat.one_mul]
    obtain ⟨run1, e1, c1, a1, d1, q1⟩ := batchLoop_step_calm w onProgress comments videoTitle
      batchSize total (count + remaining) first zipFiles run
      (fun t hc => by have := hcalm t hc; rw [hsize]; omega)
    obtain ⟨run2, e2, c2, a2, d2, q2⟩ := ih remaining (first + 1)
      (zipFiles ++ (batchArchive w comments videoTitle batchSize total run.checks
        first).toList.map Prod.fst) run1
      (fun d hd => by
        have := hfull (d + 1) (by omega)
        have e : first + 1 + d = first + (d + 1) := by omega
        rw [e]
        exact this)
      (fun t hc => by have := hcalm t hc; rw [c1, hsize]; omega)
    have hshape : count + 1 + remaining = count + remaining + 1 := by omega
    refine ⟨run2, ?_, ?_, ?_, ?_, ?_⟩
    · rw [hshape, e1, e2, archivesFrom_succ, c1, hsize]
      have e : first + 1 + count = first + (count + 1) := by omega
      rw [e, List.map_append, List.append_assoc]
    · rw [c2, c1, hsize]
      omega
    · rw [a2, a1, hsize, List.append_assoc, Nat.add_mul first 1, Nat.one_mul,
        Nat.add_mul count 1, Nat.one_mul]
      congr 1
      rw [List.range'_append_1]
    · rw [d2, d1, archivesFrom_succ, c1, hsize, List.append_assoc]
    · rw [q2, q1]

/-! ## Whole runs of `generateFflateZIPs` -/

theorem totalBatches_zero (b : Nat) (hb : 1 ≤ b) : totalBatches 0 b = 0 := by
  unfold totalBatches
  exact Nat.div_eq_of_lt (by omega)

theorem totalBatches_eq_ceil_all (n b : Nat) (hb : 1 ≤ b) :
    totalBatches n b = ⌈(n : ℚ) / (b : ℚ)⌉₊ := by
  rcases Nat.eq_zero_or_pos n with h0 | h0
  · subst h0
    rw [totalBatches_zero b hb]
    simp
  · exact totalBatches_eq_ceil n b h0 hb

theorem length_batchComments_last {α : Type} (cs : List α) (b m : Nat) (hb : 1 ≤ b)
    (hm : totalBatches cs.length b = m + 1) :
    m * b + (batchComments cs b m).length = cs.length := by
  have hN : 1 ≤ cs.length := by
    rcases Nat.eq_zero_or_pos cs.length with h0 | h0
    · rw [h0, totalBatches_zero b hb] at hm
      omega
    · exact h0
  have h1 := totalBatches_pred_mul_lt cs.length b hN hb
  have h2 := totalBatches_mul_ge cs.length b hb
  rw [hm] at h1 h2
  simp only [Nat.add_sub_cancel] at h1
  rw [length_batchComments, Nat.min_eq_right h2]
  omega

theorem range'_zero_append (a n : Nat) :
    List.range' 0 a ++ List.range' a n = List.range (a + n) := by
  have h := List.range'_append_1 0 a n
  rw [Nat.zero_add] at h
  rw [h, List.range_eq_range', Nat.add_comm]

/-- A run of `generateFflateZIPs` that nobody cancels: every comment is rendered once, in
order, and the archives and the returned names are those of the batches, in batch order. -/
theorem generateFflateZIPs_calm {α : Type} (w : World α)
    (onProgress : ExportProgress → ExportProgress) (comments : List (Comment α))
    (videoTitle : Option JSString) (batchSize : Nat) (run : Run)
    (hcalm : w.cancelAt = none) (hb : 1 ≤ batchSize) :
    (generateFflateZIPs w onProgress comments videoTitle batchSize run).1 =
      .ok ((archivesFrom w comments videoTitle batchSize
        (totalBatches comments.length batchSize) run.checks 0
        (totalBatches comments.length batchSize)).map Prod.fst) ∧
    (generateFflateZIPs w onProgress comments videoTitle batchSize run).2.attempts =
      run.attempts ++ List.range comments.length ∧
    (generateFflateZIPs w onProgress comments videoTitle batchSize run).2.downloads =
      run.downloads ++ archivesFrom w comments videoTitle batchSize
        (totalBatches comments.length batchSize) run.checks 0
        (totalBatches comments.length batchSize) ∧
    (generateFflateZIPs w onProgress comments videoTitle batchSize run).2.checks =
      run.checks + comments.length + totalBatches comments.length batchSize := by
  unfold generateFflateZIPs
  rcases Nat.eq_zero_or_pos (totalBatches comments.length batchSize) with h0 | h0
  · have hN : comments.length = 0 := by
      have := totalBatches_mul_ge comments.length batchSize hb
      rw [h0] at this
      omega
    rw [h0, hN]
    simp [batchLoop, archivesFrom]
  · obtain ⟨m, hm⟩ : ∃ m, totalBatches comments.length batchSize = m + 1 :=
      ⟨totalBatches comments.length batchSize - 1, by omega⟩
    have hlast := length_batchComments_last comments batchSize m hb hm
    obtain ⟨run1, e1, c1, a1, d1, _⟩ := batchLoop_calm_batches w onProgress comments videoTitle
      batchSize (m + 1) m 1 0 [] run
      (fun d hd => by
        rw [Nat.zero_add]
        exact length_batchComments_full comments batchSize d hb (by omega))
      (fun t ht => by rw [hcalm] at ht; cases ht)
    obtain ⟨run2, e2, c2, a2, d2, _⟩ := batchLoop_step_calm w onProgress comments videoTitle
      batchSize (m + 1) 0 (0 + m)
      ([] ++ (archivesFrom w comments videoTitle batchSize (m + 1) run.checks 0 m).map
        Prod.fst) run1
      (fun t ht => by rw [hcalm] at ht; cases ht)
    rw [hm, e1, e2]
    simp only [batchLoop]
    refine ⟨?_, ?_, ?_, ?_⟩
    · rw [archivesFrom_last, c1, List.map_append, List.nil_append]
    · rw [a2, a1, List.append_assoc]
      simp only [Nat.zero_mul, Nat.zero_add]
      rw [range'_zero_append, hlast]
    · rw [d2, d1, archivesFrom_last, c1, List.append_assoc]
    · rw [c2, c1, Nat.mul_add, Nat.mul_one]
      simp only [Nat.zero_add]
      omega

/-- A run of `generateFflateZIPs` in which the flag is set just before the check that precedes
the comment at position `j` of batch `i`: the comments before that one were rendered and no
other, and the archives are those of the batches before batch `i`. -/
theorem generateFflateZIPs_stopped {α : Type} (w : World α)
    (onProgress : ExportProgress → ExportProgress) (comments : List (Comment α))
    (videoTitle : Option JSString) (batchSize : Nat) (run : Run) (i j : Nat)
    (hb : 1 ≤ batchSize) (hi : i < totalBatches comments.length batchSize)
    (hj : j < (batchComments comments batchSize i).length)
    (hc : w.cancelAt = some (run.checks + i * (batchSize + 1) + 1 + j)) :
    (generateFflateZIPs w onProgress comments videoTitle batchSize run).2.attempts =
      run.attempts ++ List.range (i * batchSize + j) ∧
    (generateFflateZIPs w onProgress comments videoTitle batchSize run).2.downloads =
      run.downloads ++ archivesFrom w comments videoTitle batchSize
        (totalBatches comments.length batchSize) run.checks 0 i ∧
    (generateFflateZIPs w onProgress comments videoTitle batchSize run).1 =
      (if totalBatches comments.length batchSize - (i + 1) = 0 then
        .ok ((archivesFrom w comments videoTitle batchSize
          (totalBatches comments.length batchSize) run.checks 0 i).map Prod.fst)
      else .error "Export cancelled by user") := by
  unfold generateFflateZIPs
  obtain ⟨r, hr⟩ : ∃ r, totalBatches comments.length batchSize = i + (r + 1) :=
    ⟨totalBatches comments.length batchSize - (i + 1), by omega⟩
  obtain ⟨run1, e1, c1, a1, d1, _⟩ := batchLoop_calm_batches w onProgress comments videoTitle
    batchSize (totalBatches comments.length batchSize) i (r + 1) 0 [] run
    (fun d hd => by
      rw [Nat.zero_add]
      exact length_batchComments_full comments batchSize d hb (by omega))
    (fun t ht => by rw [hc] at ht; cases ht; omega)
  obtain ⟨run2, e2, c2, a2, d2, _⟩ := batchLoop_step_stopped w onProgress comments videoTitle
    batchSize (totalBatches comments.length batchSize) r (0 + i)
    (run.checks + i * (batchSize + 1) + 1 + j)
    ([] ++ (archivesFrom w comments videoTitle batchSize
      (totalBatches comments.length batchSize) run.checks 0 i).map Prod.fst) run1 hc
    (by rw [c1]; omega) (by rw [c1, Nat.zero_add]; omega)
  obtain ⟨f1, f2, f3⟩ := batchLoop_after_cancel w onProgress comments videoTitle batchSize
    (totalBatches comments.length batchSize) r (0 + i + 1)
    (run.checks + i * (batchSize + 1) + 1 + j)
    ([] ++ (archivesFrom w comments videoTitle batchSize
      (totalBatches comments.length batchSize) run.checks 0 i).map Prod.fst) run2 hc
    (by rw [c2]; omega)
  have hshape : batchLoop w onProgress comments videoTitle batchSize
      (totalBatches comments.length batchSize) (totalBatches comments.length batchSize) 0 []
      run = batchLoop w onProgress comments videoTitle batchSize
      (totalBatches comments.length batchSize) r (0 + i + 1)
      ([] ++ (archivesFrom w comments videoTitle batchSize
        (totalBatches comments.length batchSize) run.checks 0 i).map Prod.fst) run2 := by
    conv_lhs => arg 7; rw [hr]
    rw [e1, e2]
  rw [hshape, f1, f2, f3]
  have hrem : totalBatches comments.length batchSize - (i + 1) = r := by omega
  refine ⟨?_, ?_, ?_⟩
  · rw [a2, a1, c1, List.append_assoc]
    simp only [Nat.zero_mul, Nat.zero_add]
    have e : run.checks + i * (batchSize + 1) + 1 + j - (run.checks + i * (batchSize + 1) + 1)
        = j := by omega
    rw [e, range'_zero_append]
  · rw [d2, d1]
  · rw [hrem, List.nil_append]

/-! ## Archives and batches -/

theorem mem_batchSuccesses {α : Type} (w : World α) (batch : List (Comment α)) (tick : Nat)
    (kv : JSString × List Nat) :
    kv ∈ batchSuccesses w batch tick ↔
      ∃ p c, batch[p]? = some c ∧ renderedImage (w.render (tick + p + 1) c) = some kv := by
  unfold batchSuccesses
  rw [List.mem_filterMap]
  constructor
  · rintro ⟨p, _, hp⟩
    cases hb : batch[p]? with
    | none => rw [hb] at hp; simp at hp
    | some c =>
      rw [hb] at hp
      exact ⟨p, c, hb, by simpa using hp⟩
  · rintro ⟨p, c, hb, hr⟩
    refine ⟨p, ?_, ?_⟩
    · rw [List.mem_range]
      by_contra hlt
      rw [List.getElem?_eq_none (by omega)] at hb
      cases hb
    · rw [hb]
      simpa using hr

theorem archivesFrom_zero {α : Type} (w : World α) (comments : List (Comment α))
    (videoTitle : Option JSString) (batchSize total tick count : Nat) :
    archivesFrom w comments videoTitle batchSize total tick 0 count =
      (List.range count).filterMap
        (fun i => batchArchive w comments videoTitle batchSize total
          (tick + i * (batchSize + 1)) i) := by
  simp [archivesFrom]

/-- A batch gets an archive exactly when one of its comments rendered to a non-empty image and
the archiver succeeded. -/
theorem batchArchive_isSome_iff {α : Type} (w : World α) (comments : List (Comment α))
    (videoTitle : Option JSString) (batchSize total tick i : Nat) :
    (batchArchive w comments videoTitle batchSize total tick i).isSome = true ↔
      (∃ p c, (batchComments comments batchSize i)[p]? = some c ∧
        (renderedImage (w.render (tick + 1 + p + 1) c)).isSome = true) ∧
      w.zipOk (tick + 1 + (batchComments comments batchSize i).length) = true := by
  have himg : 0 < (storeAll [] (batchSuccesses w (batchComments comments batchSize i)
        (tick + 1))).length ↔
      ∃ p c, (batchComments comments batchSize i)[p]? = some c ∧
        (renderedImage (w.render (tick + 1 + p + 1) c)).isSome = true := by
    rw [storeAll_length_pos]
    constructor
    · intro hne
      obtain ⟨kv, hkv⟩ := List.exists_mem_of_ne_nil _ hne
      obtain ⟨p, c, hb, hr⟩ := (mem_batchSuccesses _ _ _ _).mp hkv
      exact ⟨p, c, hb, by rw [hr]; rfl⟩
    · rintro ⟨p, c, hb, hr⟩ hnil
      obtain ⟨kv, hkv⟩ := Option.isSome_iff_exists.mp hr
      have hmem := (mem_batchSuccesses w _ (tick + 1) kv).mpr ⟨p, c, hb, hkv⟩
      rw [hnil] at hmem
      cases hmem
  unfold batchArchive
  simp only []
  by_cases hcond : (storeAll [] (batchSuccesses w (batchComments comments batchSize i)
      (tick + 1))).length > 0 ∧
      w.zipOk (tick + 1 + (batchComments comments batchSize i).length) = true
  · rw [if_pos hcond]
    simp only [Option.isSome_some, true_iff]
    exact ⟨himg.mp hcond.1, hcond.2⟩
  · rw [if_neg hcond]
    simp only [Option.isSome_none, Bool.false_eq_true, false_iff]
    rintro ⟨h1, h2⟩
    exact hcond ⟨himg.mpr h1, h2⟩

/-- The archive of a batch carries the name of the batch, and its files are the images of the
batch stored one after the other. -/
theorem batchArchive_eq_some {α : Type} (w : World α) (comments : List (Comment α))
    (videoTitle : Option JSString) (batchSize total tick i : Nat) (name : JSString)
    (files : ImageFiles)
    (h : batchArchive w comments videoTitle batchSize total tick i = some (name, files)) :
    name = zipName videoTitle total i ∧
    files = storeAll [] (batchSuccesses w (batchComments comments batchSize i) (tick + 1)) := by
  unfold batchArchive at h
  simp only [] at h
  split at h
  · simp only [Option.some.injEq, Prod.mk.injEq] at h
    exact ⟨h.1.symm, h.2.symm⟩
  · cases h

/-- C11. When the flag is seen set at the check before the comment at position `j` of batch
`i`, the comments rendered are exactly those before that comment, so no further comment of
the batch is rendered, and the archives are exactly those of the batches before batch `i`,
each built from the images of its own batch: no archive is made for batch `i` and none of its
images reaches an archive. -/
theorem generateFflateZIPs_cancel_in_batch {α : Type} (w : World α)
    (onProgress : ExportProgress → ExportProgress) (comments : List (Comment α))
    (videoTitle : Option JSString) (batchSize : Nat) (run : Run) (i j : Nat)
    (hb : 1 ≤ batchSize) (hi : i < totalBatches comments.length batchSize)
    (hj : j < (batchComments comments batchSize i).length)
    (hc : w.cancelAt = some (run.checks + i * (batchSize + 1) + 1 + j)) :
    (generateFflateZIPs w onProgress comments videoTitle batchSize run).2.attempts =
      run.attempts ++ List.range (i * batchSize + j) ∧
    (∀ p, j ≤ p → i * batchSize + p ∉ List.range (i * batchSize + j)) ∧
    (generateFflateZIPs w onProgress comments videoTitle batchSize run).2.downloads =
      run.downloads ++ (List.range i).filterMap
        (fun d => batchArchive w comments videoTitle batchSize
          (totalBatches comments.length batchSize) (run.checks + d * (batchSize + 1)) d) ∧
    (∀ a ∈ (List.range i).filterMap
        (fun d => batchArchive w comments videoTitle batchSize
          (totalBatches comments.length batchSize) (run.checks + d * (batchSize + 1)) d),
      ∃ d, d < i ∧ a.1 = zipName videoTitle (totalBatches comments.length batchSize) d ∧
        a.2 = storeAll [] (batchSuccesses w (batchComments comments batchSize d)
          (run.checks + d * (batchSize + 1) + 1))) := by
  obtain ⟨h1, h2, _⟩ := generateFflateZIPs_stopped w onProgress comments videoTitle batchSize
    run i j hb hi hj hc
  refine ⟨h1, ?_, ?_, ?_⟩
  · intro p hp hmem
    rw [List.mem_range] at hmem
    omega
  · rw [h2, archivesFrom_zero]
  · intro a ha
    obtain ⟨d, hd, hda⟩ := List.mem_filterMap.mp ha
    obtain ⟨n1, n2⟩ := batchArchive_eq_some w comments videoTitle batchSize _ _ d a.1 a.2 hda
    exact ⟨d, List.mem_range.mp hd, n1, n2⟩

/-- An instance of C11: five comments in batches of two, the flag set at the check before the
second comment of the second batch. Three comments were rendered, and the only archive is
that of the first batch. -/
theorem generateFflateZIPs_cancel_in_batch_witness :
    (generateFflateZIPs (World.patchyCancelledAt 5) id Comment.five (some (lit "clip")) 2
      (Run.idle ExportService.new.exportProgress)).2.attempts = [] ++ List.range (1 * 2 + 1) ∧
    (generateFflateZIPs (World.patchyCancelledAt 5) id Comment.five (some (lit "clip")) 2
      (Run.idle ExportService.new.exportProgress)).2.downloads =
      [(lit "clip_part1_comments.zip", [(lit "0.png", [2])])] :=
  ⟨(generateFflateZIPs_cancel_in_batch (World.patchyCancelledAt 5) id Comment.five
      (some (lit "clip")) 2 (Run.idle ExportService.new.exportProgress) 1 1
      (by decide) (by decide) (by decide) rfl).1, by decide⟩

/-- C12. In a run without cancellation the returned names are those of the archives handed to
the download, batch by batch in batch order: a batch contributes its name exactly when one of
its comments rendered to a non-empty image and the archiver succeeded, so the names are at
most `ceil(N / B)`, and every file of an archive is the image of a comment of its own batch. -/
theorem generateFflateZIPs_archive_names {α : Type} (w : World α)
    (onProgress : ExportProgress → ExportProgress) (comments : List (Comment α))
    (videoTitle : Option JSString) (batchSize : Nat) (run : Run)
    (hcalm : w.cancelAt = none) (hb : 1 ≤ batchSize) :
    (generateFflateZIPs w onProgress comments videoTitle batchSize run).1 =
      .ok ((List.range (totalBatches comments.length batchSize)).filterMap
        (fun i => (batchArchive w comments videoTitle batchSize
          (totalBatches comments.length batchSize)
          (run.checks + i * (batchSize + 1)) i).map Prod.fst)) ∧
    (generateFflateZIPs w onProgress comments videoTitle batchSize run).2.downloads =
      run.downloads ++ (List.range (totalBatches comments.length batchSize)).filterMap
        (fun i => batchArchive w comments videoTitle batchSize
          (totalBatches comments.length batchSize) (run.checks + i * (batchSize + 1)) i) ∧
    ((List.range (totalBatches comments.length batchSize)).filterMap
        (fun i => (batchArchive w comments videoTitle batchSize
          (totalBatches comments.length batchSize)
          (run.checks + i * (batchSize + 1)) i).map Prod.fst)).length ≤
      ⌈(comments.length : ℚ) / (batchSize : ℚ)⌉₊ ∧
    (∀ i, (batchArchive w comments videoTitle batchSize
          (totalBatches comments.length batchSize)
          (run.checks + i * (batchSize + 1)) i).isSome = true ↔
      (∃ p c, (batchComments comments batchSize i)[p]? = some c ∧
        (renderedImage (w.render (run.checks + i * (batchSize + 1) + 1 + p + 1) c)).isSome
          = true) ∧
      w.zipOk (run.checks + i * (batchSize + 1) + 1 +
        (batchComments comments batchSize i).length) = true) ∧
    (∀ i name files, batchArchive w comments videoTitle batchSize
          (totalBatches comments.length batchSize)
          (run.checks + i * (batchSize + 1)) i = some (name, files) →
      name = zipName videoTitle (totalBatches comments.length batchSize) i ∧
      ∀ kv ∈ files, ∃ p c, (batchComments comments batchSize i)[p]? = some c ∧
        renderedImage (w.render (run.checks + i * (batchSize + 1) + 1 + p + 1) c) = some kv) := by
  obtain ⟨h1, _, h3, _⟩ := generateFflateZIPs_calm w onProgress comments videoTitle batchSize
    run hcalm hb
  refine ⟨?_, ?_, ?_, ?_, ?_⟩
  · rw [h1, archivesFrom_zero, List.map_filterMap]
  · rw [h3, archivesFrom_zero]
  · rw [← totalBatches_eq_ceil_all _ _ hb]
    exact Nat.le_trans (List.length_filterMap_le _ _) (by simp)
  · intro i
    exact batchArchive_isSome_iff w comments videoTitle batchSize _ _ i
  · intro i name files h
    obtain ⟨n1, n2⟩ := batchArchive_eq_some w comments videoTitle batchSize _ _ i name files h
    refine ⟨n1, fun kv hkv => ?_⟩
    rw [n2] at hkv
    rcases storeAll_mem _ _ _ hkv with h0 | h0
    · cases h0
    · exact (mem_batchSuccesses _ _ _ _).mp h0

/-- An instance of C12: five comments in batches of two in the patchy world. -/
theorem generateFflateZIPs_archive_names_witness :
    (generateFflateZIPs World.patchy id Comment.five (some (lit "clip")) 2
      (Run.idle ExportService.new.exportProgress)).2.downloads =
      [] ++ (List.range (totalBatches Comment.five.length 2)).filterMap
        (fun i => batchArchive World.patchy Comment.five (some (lit "clip")) 2
          (totalBatches Comment.five.length 2) (0 + i * (2 + 1)) i) ∧
    (generateFflateZIPs World.patchy id Comment.five (some (lit "clip")) 2
      (Run.idle ExportService.new.exportProgress)).2.downloads =
      [(lit "clip_part1_comments.zip", [(lit "0.png", [2])]),
       (lit "clip_part2_comments.zip", [(lit "1.png", [5])]),
       (lit "clip_part3_comments.zip", [(lit "0.png", [8])])] :=
  ⟨(generateFflateZIPs_archive_names World.patchy id Comment.five (some (lit "clip")) 2
      (Run.idle ExportService.new.exportProgress) rfl (by decide)).2.1, by decide⟩

/-- C13. In a run without cancellation every comment is rendered exactly once, in order,
whatever renders fail; a render that raises or gives no blob or an empty one adds nothing; and
the archive of a batch holds, under each generated file name, the image of the last comment
of the batch that rendered to that name, and no other name. -/
theorem generateFflateZIPs_renders_all {α : Type} (w : World α)
    (onProgress : ExportProgress → ExportProgress) (comments : List (Comment α))
    (videoTitle : Option JSString) (batchSize : Nat) (run : Run)
    (hcalm : w.cancelAt = none) (hb : 1 ≤ batchSize) :
    (generateFflateZIPs w onProgress comments videoTitle batchSize run).2.attempts =
      run.attempts ++ List.range comments.length ∧
    (renderedImage .threw = none ∧
      (∀ filename, renderedImage (.blob filename none) = none) ∧
      (∀ filename, renderedImage (.blob filename (some [])) = none) ∧
      (∀ filename png, png ≠ [] →
        renderedImage (.blob filename (some png)) = some (filename ++ lit ".png", png))) ∧
    (generateFflateZIPs w onProgress comments videoTitle batchSize run).2.downloads =
      run.downloads ++ (List.range (totalBatches comments.length batchSize)).filterMap
        (fun i => batchArchive w comments videoTitle batchSize
          (totalBatches comments.length batchSize) (run.checks + i * (batchSize + 1)) i) ∧
    (∀ i name files, batchArchive w comments videoTitle batchSize
          (totalBatches comments.length batchSize)
          (run.checks + i * (batchSize + 1)) i = some (name, files) →
      (∀ key, files.get key = ImageFiles.get
        (batchSuccesses w (batchComments comments batchSize i)
          (run.checks + i * (batchSize + 1) + 1)).reverse key) ∧
      (files.map Prod.fst).Nodup ∧
      (∀ key, key ∈ files.map Prod.fst ↔
        ∃ p c bytes, (batchComments comments batchSize i)[p]? = some c ∧
          renderedImage (w.render (run.checks + i * (batchSize + 1) + 1 + p + 1) c)
            = some (key, bytes))) := by
  obtain ⟨_, h2, h3, _⟩ := generateFflateZIPs_calm w onProgress comments videoTitle batchSize
    run hcalm hb
  refine ⟨h2, ⟨rfl, fun _ => rfl, fun _ => rfl, ?_⟩, ?_, ?_⟩
  · intro filename png hne
    have hpos : png.length > 0 := List.length_pos.mpr hne
    simp [renderedImage, hpos]
  · rw [h3, archivesFrom_zero]
  · intro i name files h
    obtain ⟨_, n2⟩ := batchArchive_eq_some w comments videoTitle batchSize _ _ i name files h
    subst n2
    obtain ⟨k1, k2⟩ := storeAll_keys []
      (batchSuccesses w (batchComments comments batchSize i)
        (run.checks + i * (batchSize + 1) + 1)) (by simp)
    refine ⟨fun key => ?_, k1, fun key => ?_⟩
    · rw [storeAll_get]
      cases ImageFiles.get (batchSuccesses w (batchComments comments batchSize i)
        (run.checks + i * (batchSize + 1) + 1)).reverse key <;> rfl
    · rw [k2]
      simp only [List.map_nil, List.not_mem_nil, false_or, List.mem_map]
      constructor
      · rintro ⟨kv, hkv, rfl⟩
        obtain ⟨p, c, hp, hr⟩ := (mem_batchSuccesses _ _ _ _).mp hkv
        exact ⟨p, c, kv.2, hp, hr⟩
      · rintro ⟨p, c, bytes, hp, hr⟩
        exact ⟨(key, bytes), (mem_batchSuccesses _ _ _ _).mpr ⟨p, c, hp, hr⟩, rfl⟩

/-- An instance of C13: five comments in one batch in the patchy world. The second and the
fifth render raise, the first and the third give the same file name, and the archive keeps
the third. -/
theorem generateFflateZIPs_renders_all_witness :
    (generateFflateZIPs World.patchy id Comment.five (some (lit "clip")) 5
      (Run.idle ExportService.new.exportProgress)).2.attempts =
      [] ++ List.range Comment.five.length ∧
    (generateFflateZIPs World.patchy id Comment.five (some (lit "clip")) 5
      (Run.idle ExportService.new.exportProgress)).2.downloads =
      [(lit "clip_comments.zip", [(lit "0.png", [4]), (lit "1.png", [5])])] :=
  ⟨(generateFflateZIPs_renders_all World.patchy id Comment.five (some (lit "clip")) 5
      (Run.idle ExportService.new.exportProgress) rfl (by decide)).1, by decide⟩

/-! ## Readiness of the staging record -/

/-- C21. The continue button is enabled by `updateContinueButton`, and the value of
`isDataValid` is truthy, exactly when avatar, media and comments are all non-null and the
username has length above 0; either is off as soon as one of the four is missing. -/
theorem readiness_iff {φ : Type} (uploadedFiles : UploadedFiles φ) :
    ((isDataValid uploadedFiles).toBoolean = true ↔
      uploadedFiles.avatar ≠ none ∧ uploadedFiles.media ≠ none ∧
        uploadedFiles.comments ≠ none ∧ uploadedFiles.username.length > 0) ∧
    (updateContinueButton uploadedFiles = false ↔
      uploadedFiles.avatar ≠ none ∧ uploadedFiles.media ≠ none ∧
        uploadedFiles.comments ≠ none ∧ uploadedFiles.username.length > 0) ∧
    (uploadedFiles.avatar = none ∨ uploadedFiles.media = none ∨
        uploadedFiles.comments = none ∨ uploadedFiles.username.length = 0 →
      (isDataValid uploadedFiles).toBoolean = false ∧
        updateContinueButton uploadedFiles = true) := by
  obtain ⟨avatar, media, comments, username⟩ := uploadedFiles
  cases avatar <;> cases media <;> cases comments <;>
    simp [isDataValid, updateContinueButton, Value.and, Value.ofSlot, Value.toBoolean,
      List.length_pos, Nat.pos_iff_ne_zero]

/-! ## The stored username -/

theorem saveToStorage_blank {φ : Type} (uploadedFiles : UploadedFiles φ)
    (storage : LocalStorage) (h : uploadedFiles.username = []) :
    (saveToStorage uploadedFiles storage).1 = storage := by
  simp [saveToStorage, h]

/-- A change of the username to a blank value leaves the storage as it was. -/
theorem usernameInput_blank {φ : Type} (page : Page φ) (value : JSString)
    (h : trim value = []) :
    (page.usernameInput value).localStorage = page.localStorage ∧
    (page.usernameInput value).uploadedFiles.username = [] := by
  constructor
  · exact saveToStorage_blank _ _ h
  · exact h

/-- The later write of the avatar leaves the stored username alone. -/
theorem avatarSaved_getItem_username (storage : LocalStorage) (dataUrl : JSString) :
    (avatarSaved storage dataUrl).getItem spieUsername = storage.getItem spieUsername := by
  unfold avatarSaved LocalStorage.setItem
  split
  · have hne : spieUsername ≠ spieAvatar := by decide
    simp [LocalStorage.getItem, hne]
  · rfl

/-- After `bob` has been typed and the field cleared again, the stored name is still `bob`
while the username of the staging record is empty. -/
theorem usernameInput_cleared_counterexample :
    ((Page.fresh.usernameInput (lit "bob")).usernameInput []).localStorage.getItem
        spieUsername = some (lit "bob") ∧
    ((Page.fresh.usernameInput (lit "bob")).usernameInput []).uploadedFiles.username = [] ∧
    ((Page.fresh.usernameInput (lit "bob")).usernameInput []).localStorage.getItem
        spieUsername ≠
      some ((Page.fresh.usernameInput (lit "bob")).usernameInput []).uploadedFiles.username := by
  decide

/-- C23, amended. After a change of the username to a value that is not blank, and when the
browser accepts the write, the value stored under `spie_username` is the username of the
staging record, the trimmed input, whatever the rest of the record holds. -/
theorem usernameInput_stored {φ : Type} (page : Page φ) (value : JSString)
    (hvalue : trim value ≠ [])
    (haccepts : page.localStorage.accepts spieUsername (trim value) = true) :
    (page.usernameInput value).uploadedFiles.username = trim value ∧
    (page.usernameInput value).localStorage.getItem spieUsername =
      some (page.usernameInput value).uploadedFiles.username := by
  refine ⟨rfl, ?_⟩
  simp [Page.usernameInput, saveToStorage, hvalue, LocalStorage.setItem, haccepts,
    LocalStorage.getItem]

/-- An instance of C23: typing ` bob ` into the fresh page stores `bob`. -/
theorem usernameInput_stored_witness :
    trim (lit " bob ") ≠ [] ∧
    (Page.fresh.usernameInput (lit " bob ")).uploadedFiles.username = trim (lit " bob ") ∧
    (Page.fresh.usernameInput (lit " bob ")).localStorage.getItem spieUsername =
      some (Page.fresh.usernameInput (lit " bob ")).uploadedFiles.username :=
  ⟨by decide, usernameInput_stored Page.fresh (lit " bob ") (by decide) rfl⟩

/-! ## The hash of a username -/

theorem toInt32_range (x : Int) : -2147483648 ≤ toInt32 x ∧ toInt32 x < 2147483648 := by
  unfold toInt32
  omega

theorem toInt32_sub_emod (x : Int) : (toInt32 x - x) % 4294967296 = 0 := by
  unfold toInt32
  omega

theorem hashStep_eq (hash : Int) (char : Nat) :
    hashStep hash char = toInt32 (31 * hash + char) := by
  simp only [hashStep, toInt32]
  omega

theorem toInt32_horner (p : Int) (char : Nat) :
    toInt32 (31 * toInt32 p + char) = toInt32 (31 * p + char) := by
  unfold toInt32
  omega

theorem foldl_hashStep (str : JSString) (p : Int) :
    str.foldl hashStep (toInt32 p) =
      toInt32 (str.foldl (fun (acc : Int) (char : Nat) => 31 * acc + (char : Int)) p) := by
  induction str generalizing p with
  | nil => rfl
  | cons char str ih =>
    rw [List.foldl_cons, List.foldl_cons, hashStep_eq, toInt32_horner, ih]

theorem polynomialSum_append (str : JSString) (char : Nat) :
    polynomialSum (str ++ [char]) = 31 * polynomialSum str + char := by
  unfold polynomialSum
  rw [List.length_append, List.length_singleton, List.range_succ, List.map_append,
    List.sum_append, ← List.sum_map_mul_left]
  congr 1
  · congr 1
    apply List.map_congr_left
    intro i hi
    have hlt : i < str.length := List.mem_range.mp hi
    have hget : (str ++ [char]).getD i 0 = str.getD i 0 := by
      simp [List.getD, List.getElem?_append_left hlt]
    have hexp : str.length + 1 - 1 - i = (str.length - 1 - i) + 1 := by omega
    rw [hget, hexp, Nat.pow_succ]
    ring
  · simp [List.getD]

theorem foldl_horner (str : JSString) :
    str.foldl (fun (acc : Int) (char : Nat) => 31 * acc + (char : Int)) 0 = (polynomialSum str : Int) := by
  induction str using List.reverseRecOn with
  | nil => rfl
  | append_singleton str char ih =>
    rw [List.foldl_append, List.foldl_cons, List.foldl_nil, ih, polynomialSum_append]
    push_cast
    ring

/-- The hash before `Math.abs` is the polynomial sum wrapped to 32 bits. -/
theorem foldl_hashStep_eq (str : JSString) :
    str.foldl hashStep 0 = toInt32 (polynomialSum str) := by
  have h0 : (0 : Int) = toInt32 0 := by decide
  rw [h0, foldl_hashStep, foldl_horner]

theorem hashString_le (str : JSString) : hashString str ≤ 2147483648 := by
  unfold hashString
  rw [foldl_hashStep_eq]
  have := toInt32_range (polynomialSum str)
  omega

/-- C24. `hashString` is the absolute value of the polynomial sum of the code units wrapped
to a signed 32-bit integer (the value from -2^31 to 2^31 - 1 that differs from the sum by a
multiple of 2^32); it lies between 0 and 2^31, and it is 0 for the empty string. -/
theorem hashString_polynomial (str : JSString) :
    hashString str = (toInt32 (polynomialSum str)).natAbs ∧
    (-2 ^ 31 ≤ toInt32 (polynomialSum str) ∧ toInt32 (polynomialSum str) < 2 ^ 31 ∧
      (toInt32 (polynomialSum str) - polynomialSum str) % 2 ^ 32 = 0) ∧
    0 ≤ hashString str ∧ hashString str ≤ 2 ^ 31 ∧
    hashString [] = 0 := by
  have hr := toInt32_range (polynomialSum str)
  have hm := toInt32_sub_emod (polynomialSum str)
  have h31 : (2 : Int) ^ 31 = 2147483648 := by norm_num
  have h32 : (2 : Int) ^ 32 = 4294967296 := by norm_num
  have h31n : (2 : Nat) ^ 31 = 2147483648 := by norm_num
  rw [h31, h32, h31n]
  refine ⟨?_, ⟨hr.1, hr.2, hm⟩, Nat.zero_le _, hashString_le str, rfl⟩
  unfold hashString
  rw [foldl_hashStep_eq]

theorem polynomialSum_sample : polynomialSum (lit "xfjfxtf") = 109521666048 := by
  decide

theorem foldl_hashStep_sample : (lit "xfjfxtf").foldl hashStep 0 = -2147483648 := by
  rw [foldl_hashStep_eq, polynomialSum_sample]
  norm_num [toInt32]

theorem hashString_sample : hashString (lit "xfjfxtf") = 2147483648 := by
  unfold hashString
  rw [foldl_hashStep_sample]
  rfl

theorem generateAvatarColor_sample :
    generateAvatarColor (lit "xfjfxtf") = some (lit "#E74C3C") := by
  unfold generateAvatarColor
  rw [hashString_sample]
  rfl

/-- C22. `generateAvatarColor` returns the palette entry at index `hashString(username) mod 12`,
an index inside the palette of 12 colours for every string: also for the empty string, and for
`xfjfxtf`, whose 32-bit hash is -2^31; equal usernames get equal colours. -/
theorem generateAvatarColor_palette :
    avatarColors.length = 12 ∧
    (∀ username, hashString username % 12 < avatarColors.length ∧
      generateAvatarColor username = avatarColors[hashString username % 12]? ∧
      ∃ color, color ∈ avatarColors ∧ generateAvatarColor username = some color) ∧
    ((lit "xfjfxtf").foldl hashStep 0 = -2147483648 ∧
      hashString (lit "xfjfxtf") = 2147483648 ∧
      generateAvatarColor (lit "xfjfxtf") = some (lit "#E74C3C")) ∧
    (hashString [] = 0 ∧ generateAvatarColor [] = some (lit "#FF6B6B")) ∧
    (∀ username other, username = other →
      generateAvatarColor username = generateAvatarColor other) := by
  have hlen : avatarColors.length = 12 := rfl
  refine ⟨hlen, ?_, ⟨foldl_hashStep_sample, hashString_sample, generateAvatarColor_sample⟩,
    ⟨rfl, rfl⟩, ?_⟩
  · intro username
    have hlt : hashString username % 12 < avatarColors.length := by
      rw [hlen]
      exact Nat.mod_lt _ (by decide)
    refine ⟨hlt, rfl, avatarColors[hashString username % 12], List.getElem_mem _, ?_⟩
    unfold generateAvatarColor
    simp only [hlen]
    exact List.getElem?_eq_getElem hlt
  · intro username other h
    rw [h]

/-! ## Flattening, one level deep -/

theorem length_flatMap_cons {α : Type} (f : α → List α) (cs : List α) :
    (cs.flatMap (fun c => c :: f c)).length = cs.length + (cs.map (fun c => (f c).length)).sum := by
  induction cs with
  | nil => rfl
  | cons c cs ih =>
    rw [List.flatMap_cons, List.length_append, ih]
    simp only [List.length_cons, List.map_cons, List.sum_cons]
    omega

/-- C25. `flattenComments` flattens one level: the output has as many elements as there are
top-level comments and direct replies of them, and each element is a top-level comment or a
direct reply of one; a reply of a reply is not an element of the output but stays in the reply
list of its parent, as in the thread `a > b > c`, which flattens to `a, b`. -/
theorem flattenComments_one_level {α : Type} (comments : List (Comment α)) :
    (flattenComments comments).length =
      comments.length + (comments.map (fun c => (directReplies c).length)).sum ∧
    (∀ x, x ∈ flattenComments comments ↔
      x ∈ comments ∨ ∃ c, c ∈ comments ∧ x ∈ directReplies c) ∧
    (∀ a b c : α,
      flattenComments [Comment.mk a (some [Comment.mk b (some [Comment.mk c none])])] =
        [Comment.mk a (some [Comment.mk b (some [Comment.mk c none])]),
         Comment.mk b (some [Comment.mk c none])] ∧
      Comment.mk c none ∉
        flattenComments [Comment.mk a (some [Comment.mk b (some [Comment.mk c none])])]) := by
  have h : flattenComments comments = comments.flatMap (fun c => c :: directReplies c) := by
    unfold flattenComments
    rw [foldl_flattenStep]
    simp
  refine ⟨?_, ?_, ?_⟩
  · rw [h, length_flatMap_cons]
  · intro x
    rw [h, List.mem_flatMap]
    constructor
    · rintro ⟨c, hc, hx⟩
      rcases List.mem_cons.mp hx with hx | hx
      · exact Or.inl (hx ▸ hc)
      · exact Or.inr ⟨c, hc, hx⟩
    · rintro (hx | ⟨c, hc, hx⟩)
      · exact ⟨x, hx, List.mem_cons_self _ _⟩
      · exact ⟨c, hc, List.mem_cons_of_mem _ hx⟩
  · intro a b c
    refine ⟨rfl, ?_⟩
    have e : flattenComments [Comment.mk a (some [Comment.mk b (some [Comment.mk c none])])] =
        [Comment.mk a (some [Comment.mk b (some [Comment.mk c none])]),
         Comment.mk b (some [Comment.mk c none])] := rfl
    rw [e]
    simp

/-! ## File names made of removed characters only -/

theorem collapseWhitespace_underscores (inRun : Bool) (s : JSString)
    (h : ∀ c ∈ s, isWhitespace c = true ∨ c = 95) :
    ∀ c ∈ collapseWhitespace inRun s, c = 95 := by
  intro c hc
  rcases mem_collapseWhitespace inRun s c hc with h1 | ⟨hm, hw⟩
  · exact h1
  · rcases h c hm with h2 | h2
    · rw [hw] at h2
      cases h2
    · exact h2

/-- C28. A non-empty string made only of the characters `< > : " / \ | ? *`, white space and
underscores is sanitized to the empty string, whatever the length limit, not to `untitled`,
which is the answer only for the empty string and for a value that is not a string; so
`generateFileName` gives a name whose title, author or excerpt part is empty. -/
theorem sanitizeFilename_all_removed (text : JSString) (maxLength : Nat) (hne : text ≠ [])
    (h : ∀ c ∈ text, isInvalidFilenameChar c = true ∨ isWhitespace c = true ∨ c = 95) :
    sanitizeFilename (some text) maxLength = [] ∧
    sanitizeFilename (some text) maxLength ≠ lit "untitled" ∧
    sanitizeFilename none maxLength = lit "untitled" ∧
    sanitizeFilename (some []) maxLength = lit "untitled" ∧
    (∀ username commentText iso,
      generateFileName (some text) username commentText iso =
        lit "_" ++ sanitizeFilename username 20 ++ lit "_" ++
          sanitizeFilename commentText 40 ++ lit "_" ++ timestampOf iso) ∧
    (∀ videoTitle commentText iso,
      generateFileName videoTitle (some text) commentText iso =
        sanitizeFilename videoTitle 30 ++ lit "_" ++ lit "_" ++
          sanitizeFilename commentText 40 ++ lit "_" ++ timestampOf iso) ∧
    (∀ videoTitle username iso,
      generateFileName videoTitle username (some text) iso =
        sanitizeFilename videoTitle 30 ++ lit "_" ++ sanitizeFilename username 20 ++
          lit "_" ++ lit "_" ++ timestampOf iso) := by
  have hempty : ∀ m, sanitizeFilename (some text) m = [] := by
    intro m
    unfold sanitizeFilename
    simp only []
    rw [if_neg hne, List.rdropWhile_eq_nil_iff]
    intro c hc
    have hc1 := List.mem_of_mem_take hc
    have hall : ∀ d ∈ text.filter (fun c => !isInvalidFilenameChar c),
        isWhitespace d = true ∨ d = 95 := by
      intro d hd
      obtain ⟨hd1, hd2⟩ := List.mem_filter.mp hd
      rcases h d hd1 with h1 | h1 | h1
      · rw [h1] at hd2
        cases hd2
      · exact Or.inl h1
      · exact Or.inr h1
    simpa using collapseWhitespace_underscores false _ hall c hc1
  refine ⟨hempty maxLength, ?_, rfl, rfl, ?_, ?_, ?_⟩
  · rw [hempty]
    decide
  · intro username commentText iso
    simp only [generateFileName, hempty, List.nil_append]
  · intro videoTitle commentText iso
    simp only [generateFileName, hempty, List.append_nil]
  · intro videoTitle username iso
    simp only [generateFileName, hempty, List.append_nil]

/-- An instance of C28: the title `?? _` is sanitized to the empty string, and the file name
starts with the separator. -/
theorem sanitizeFilename_all_removed_witness :
    lit "?? _" ≠ [] ∧ sanitizeFilename (some (lit "?? _")) 30 = [] ∧
    generateFileName (some (lit "?? _")) (some (lit "ann")) (some (lit "hi"))
        (lit "2024-01-02T03:04:05.678Z") = lit "_ann_hi_20240102T0304" :=
  ⟨by decide,
    (sanitizeFilename_all_removed (lit "?? _") 30 (by decide) (by decide)).1, by decide⟩

/-! ## Reading a relative time back -/

theorem digitsValue_cons (d : Nat) (digits : JSString) :
    digitsValue (d :: digits) = (d - 48) * 10 ^ digits.length + digitsValue digits := by
  have hgen : ∀ (ds : JSString) (acc : Nat),
      ds.foldl (fun acc d => 10 * acc + (d - 48)) acc =
        acc * 10 ^ ds.length + ds.foldl (fun acc d => 10 * acc + (d - 48)) 0 := by
    intro ds
    induction ds with
    | nil => intro acc; simp
    | cons e ds ih =>
      intro acc
      rw [List.foldl_cons, List.foldl_cons, ih (10 * acc + (e - 48)), ih (10 * 0 + (e - 48)),
        List.length_cons, Nat.pow_succ]
      ring
  unfold digitsValue
  rw [List.foldl_cons, hgen]
  simp

theorem digitsValue_toDigitsCore (fuel n : Nat) (ds : List Char) (h : n < fuel) :
    digitsValue ((Nat.toDigitsCore 10 fuel n ds).map Char.toNat) =
      n * 10 ^ ds.length + digitsValue (ds.map Char.toNat) := by
  induction fuel generalizing n ds with
  | zero => omega
  | succ fuel ih =>
    have hd : (Nat.digitChar (n % 10)).toNat - 48 = n % 10 := by
      rw [digitChar_toNat _ (Nat.mod_lt _ (by decide))]
      omega
    have hcons : digitsValue ((Nat.digitChar (n % 10) :: ds).map Char.toNat) =
        n % 10 * 10 ^ ds.length + digitsValue (ds.map Char.toNat) := by
      rw [List.map_cons, digitsValue_cons, hd, List.length_map]
    rw [Nat.toDigitsCore]
    split
    · rename_i h0
      rw [hcons]
      have : n % 10 = n := by omega
      rw [this]
    · rename_i h0
      rw [ih (n / 10) _ (by omega), hcons, List.length_cons, Nat.pow_succ]
      have := Nat.div_add_mod n 10
      generalize n / 10 = q at *
      generalize n % 10 = r at *
      subst this
      ring

/-- The digits that `decimal` prints denote the number printed. -/
theorem digitsValue_decimal (n : Nat) : digitsValue (decimal n) = n := by
  unfold decimal Nat.toDigits
  rw [digitsValue_toDigitsCore _ _ _ (Nat.lt_succ_self n)]
  simp [digitsValue]

theorem decimal_injective (m n : Nat) (h : decimal m = decimal n) : m = n := by
  rw [← digitsValue_decimal m, ← digitsValue_decimal n, h]

theorem decimal_ne_nil (n : Nat) : decimal n ≠ [] := by
  intro h
  have h1 := digitsValue_decimal n
  have h2 := digitsValue_decimal (n + 1)
  have h3 : decimal (n + 1) ≠ [] := by
    intro h4
    rw [h4] at h2
    rw [h] at h1
    have : digitsValue [] = 0 := rfl
    omega
  rw [h] at h1
  have h0 : n = 0 := by
    have : digitsValue [] = 0 := rfl
    omega
  subst h0
  revert h
  decide

/-- A string of digits followed by a string without digits splits in one way only. -/
theorem digits_append_unique (a b u v : JSString)
    (ha : ∀ c ∈ a, 48 ≤ c ∧ c ≤ 57) (hb : ∀ c ∈ b, 48 ≤ c ∧ c ≤ 57)
    (hu : ∀ c ∈ u, ¬ (48 ≤ c ∧ c ≤ 57)) (hv : ∀ c ∈ v, ¬ (48 ≤ c ∧ c ≤ 57))
    (h : a ++ u = b ++ v) : a = b ∧ u = v := by
  induction a generalizing b with
  | nil =>
    cases b with
    | nil => exact ⟨rfl, by simpa using h⟩
    | cons k b =>
      exfalso
      rw [List.nil_append] at h
      exact hu k (by rw [h]; simp) (hb k (List.mem_cons_self _ _))
  | cons x a ih =>
    cases b with
    | nil =>
      exfalso
      rw [List.nil_append] at h
      exact hv x (by rw [← h]; simp) (ha x (List.mem_cons_self _ _))
    | cons k b =>
      rw [List.cons_append, List.cons_append, List.cons.injEq] at h
      obtain ⟨h1, h2⟩ := ih b (fun c hc => ha c (List.mem_cons_of_mem _ hc))
        (fun c hc => hb c (List.mem_cons_of_mem _ hc)) h.2
      exact ⟨by rw [h.1, h1], h2⟩

/-- The unit letters of `formatTimeAgo`, with the bound that the next coarser unit puts on the
number before each. -/
theorem formatTimeAgo_cases (parse : JSString → Option Int) (dateStr : DateArg)
    (now date : Int) (h : toTimeValue parse dateStr = some date) :
    formatTimeAgo parse dateStr now = lit "just now" ∨
    ∃ N unit, formatTimeAgo parse dateStr now = decimal N ++ unit ∧ 1 ≤ N ∧
      ((unit = lit "m" ∧ N ≤ 59) ∨ (unit = lit "h" ∧ N ≤ 23) ∨ (unit = lit "d" ∧ N ≤ 6) ∨
        (unit = lit "w" ∧ N ≤ 4) ∨ (unit = lit "mo" ∧ N ≤ 12) ∨ unit = lit "y") := by
  unfold formatTimeAgo
  rw [h]
  simp only []
  generalize now - date = diffMs
  split_ifs with hy hmo hw hd hh hm
  · exact Or.inr ⟨_, _, rfl, by omega, by simp⟩
  · exact Or.inr ⟨_, _, rfl, by omega, Or.inr (Or.inr (Or.inr (Or.inr (Or.inl ⟨rfl, by omega⟩))))⟩
  · exact Or.inr ⟨_, _, rfl, by omega, Or.inr (Or.inr (Or.inr (Or.inl ⟨rfl, by omega⟩)))⟩
  · exact Or.inr ⟨_, _, rfl, by omega, Or.inr (Or.inr (Or.inl ⟨rfl, by omega⟩))⟩
  · exact Or.inr ⟨_, _, rfl, by omega, Or.inr (Or.inl ⟨rfl, by omega⟩)⟩
  · exact Or.inr ⟨_, _, rfl, by omega, Or.inl ⟨rfl, by omega⟩⟩
  · exact Or.inl rfl

/-- A result of `formatTimeAgo` that reads as a number and a unit letter has the bound of that
unit. -/
theorem formatTimeAgo_read (parse : JSString → Option Int) (dateStr : DateArg)
    (now date : Int) (h : toTimeValue parse dateStr = some date) (N : Nat) (unit : JSString)
    (hunit : ∀ c ∈ unit, ¬ (48 ≤ c ∧ c ≤ 57))
    (hres : formatTimeAgo parse dateStr now = decimal N ++ unit) :
    1 ≤ N ∧ ((unit = lit "m" ∧ N ≤ 59) ∨ (unit = lit "h" ∧ N ≤ 23) ∨ (unit = lit "d" ∧ N ≤ 6) ∨
      (unit = lit "w" ∧ N ≤ 4) ∨ (unit = lit "mo" ∧ N ≤ 12) ∨ unit = lit "y") := by
  rcases formatTimeAgo_cases parse dateStr now date h with hj | ⟨K, v, hK, h1, hb⟩
  · exfalso
    rw [hj] at hres
    have := digits_append_unique [] (decimal N) (lit "just now") unit (by simp)
      (decimal_digits N) (by decide) hunit (by simpa using hres)
    exact decimal_ne_nil N this.1.symm
  · rw [hK] at hres
    have hv : ∀ c ∈ v, ¬ (48 ≤ c ∧ c ≤ 57) := by
      rcases hb with hb | hb | hb | hb | hb | hb
      · rw [hb.1]; decide
      · rw [hb.1]; decide
      · rw [hb.1]; decide
      · rw [hb.1]; decide
      · rw [hb.1]; decide
      · rw [hb]; decide
    obtain ⟨e1, e2⟩ := digits_append_unique (decimal K) (decimal N) v unit (decimal_digits K)
      (decimal_digits N) hv hunit hres
    have hKN : K = N := decimal_injective K N e1
    subst hKN
    subst e2
    exact ⟨h1, hb⟩

/-- C29. For a valid timestamp and any clock reading, the number before the unit letter in the
result of `formatTimeAgo` is bounded by the next coarser unit: minutes from 1 to 59, hours
from 1 to 23, days from 1 to 6, weeks from 1 to 4, months from 1 to 12, years at least 1. -/
theorem formatTimeAgo_bounds (parse : JSString → Option Int) (dateStr : DateArg)
    (now date : Int) (h : toTimeValue parse dateStr = some date) :
    (∀ N, formatTimeAgo parse dateStr now = decimal N ++ lit "m" → 1 ≤ N ∧ N ≤ 59) ∧
    (∀ N, formatTimeAgo parse dateStr now = decimal N ++ lit "h" → 1 ≤ N ∧ N ≤ 23) ∧
    (∀ N, formatTimeAgo parse dateStr now = decimal N ++ lit "d" → 1 ≤ N ∧ N ≤ 6) ∧
    (∀ N, formatTimeAgo parse dateStr now = decimal N ++ lit "w" → 1 ≤ N ∧ N ≤ 4) ∧
    (∀ N, formatTimeAgo parse dateStr now = decimal N ++ lit "mo" → 1 ≤ N ∧ N ≤ 12) ∧
    (∀ N, formatTimeAgo parse dateStr now = decimal N ++ lit "y" → 1 ≤ N) ∧
    (formatTimeAgo parse dateStr now = lit "just now" ∨
      ∃ N unit, formatTimeAgo parse dateStr now = decimal N ++ unit ∧
        unit ∈ [lit "m", lit "h", lit "d", lit "w", lit "mo", lit "y"]) := by
  have hm : lit "m" = [109] := by decide
  have hh : lit "h" = [104] := by decide
  have hd : lit "d" = [100] := by decide
  have hw : lit "w" = [119] := by decide
  have hmo : lit "mo" = [109, 111] := by decide
  have hy : lit "y" = [121] := by decide
  refine ⟨?_, ?_, ?_, ?_, ?_, ?_, ?_⟩
  · intro N hres
    obtain ⟨h1, hb⟩ := formatTimeAgo_read parse dateStr now date h N _ (by decide) hres
    rw [hm, hh, hd, hw, hmo, hy] at hb
    simp at hb
    exact ⟨h1, hb⟩
  · intro N hres
    obtain ⟨h1, hb⟩ := formatTimeAgo_read parse dateStr now date h N _ (by decide) hres
    rw [hm, hh, hd, hw, hmo, hy] at hb
    simp at hb
    exact ⟨h1, hb⟩
  · intro N hres
    obtain ⟨h1, hb⟩ := formatTimeAgo_read parse dateStr now date h N _ (by decide) hres
    rw [hm, hh, hd, hw, hmo, hy] at hb
    simp at hb
    exact ⟨h1, hb⟩
  · intro N hres
    obtain ⟨h1, hb⟩ := formatTimeAgo_read parse dateStr now date h N _ (by decide) hres
    rw [hm, hh, hd, hw, hmo, hy] at hb
    simp at hb
    exact ⟨h1, hb⟩
  · intro N hres
    obtain ⟨h1, hb⟩ := formatTimeAgo_read parse dateStr now date h N _ (by decide) hres
    rw [hm, hh, hd, hw, hmo, hy] at hb
    simp at hb
    exact ⟨h1, hb⟩
  · intro N hres
    exact (formatTimeAgo_read parse dateStr now date h N _ (by decide) hres).1
  · rcases formatTimeAgo_cases parse dateStr now date h with hj | ⟨K, v, hK, _, hb⟩
    · exact Or.inl hj
    · refine Or.inr ⟨K, v, hK, ?_⟩
      rcases hb with hb | hb | hb | hb | hb | hb
      · rw [hb.1]; simp
      · rw [hb.1]; simp
      · rw [hb.1]; simp
      · rw [hb.1]; simp
      · rw [hb.1]; simp
      · rw [hb]; simp

/-- An instance of C29: 29 days before the clock reading the result is `4w`. -/
theorem formatTimeAgo_bounds_witness :
    toTimeValue parseNothing (.date (some (1700000000000 - 29 * msPerDay))) =
      some (1700000000000 - 29 * msPerDay) ∧
    formatTimeAgo parseNothing (.date (some (1700000000000 - 29 * msPerDay))) 1700000000000 =
      decimal 4 ++ lit "w" ∧
    (1 ≤ 4 ∧ 4 ≤ 4) :=
  ⟨rfl, by decide,
    (formatTimeAgo_bounds parseNothing (.date (some (1700000000000 - 29 * msPerDay)))
      1700000000000 (1700000000000 - 29 * msPerDay) rfl).2.2.2.1 4 (by decide)⟩

/-! ## CSV texts with CRLF line endings -/

/-- A last character that is neither a quote nor a comma ends up at the end of the last field,
and the fields are otherwise those of the line without it. -/
theorem parseCSVLoop_snoc (c : Nat) (h34 : c ≠ 34) (h44 : c ≠ 44) (n : Nat) :
    ∀ (s : JSString), s.length ≤ n → ∀ (result : List JSString) (current : JSString)
      (inQuotes : Bool), ∃ fields last,
        parseCSVLoop s result current inQuotes = fields ++ [last] ∧
        parseCSVLoop (s ++ [c]) result current inQuotes = fields ++ [last ++ [c]] := by
  induction n with
  | zero =>
    intro s hs result current inQuotes
    have : s = [] := List.eq_nil_of_length_eq_zero (by omega)
    subst this
    exact ⟨result, current, rfl, by simp [parseCSVLoop, h34, h44]⟩
  | succ n ih =>
    intro s hs result current inQuotes
    cases s with
    | nil => exact ⟨result, current, rfl, by simp [parseCSVLoop, h34, h44]⟩
    | cons ch rest =>
      have hrest : rest.length ≤ n := by simp only [List.length_cons] at hs; omega
      by_cases hch : ch = 34
      · subst hch
        cases inQuotes with
        | false =>
          rw [List.cons_append, parseCSVLoop_open, parseCSVLoop_open]
          exact ih rest hrest result current true
        | true =>
          cases rest with
          | nil => exact ⟨result, current, by simp [parseCSVLoop], by simp [parseCSVLoop, h34, h44]⟩
          | cons d rest =>
            have hrest2 : rest.length ≤ n := by simp only [List.length_cons] at hrest; omega
            by_cases hd : d = 34
            · subst hd
              rw [List.cons_append, List.cons_append, parseCSVLoop_escaped, parseCSVLoop_escaped]
              exact ih rest hrest2 result (current ++ [34]) true
            · have e1 : parseCSVLoop (34 :: d :: rest) result current true =
                  parseCSVLoop (d :: rest) result current false := by
                simp [parseCSVLoop, hd]
              have e2 : parseCSVLoop (34 :: d :: rest ++ [c]) result current true =
                  parseCSVLoop ((d :: rest) ++ [c]) result current false := by
                simp [parseCSVLoop, hd]
              rw [e1, e2]
              exact ih (d :: rest) hrest result current false
      · rw [List.cons_append, parseCSVLoop_other ch _ _ _ _ hch,
          parseCSVLoop_other ch _ _ _ _ hch]
        by_cases hcomma : (ch = 44 && !inQuotes) = true
        · rw [if_pos hcomma, if_pos hcomma]
          exact ih rest hrest _ _ _
        · rw [if_neg hcomma, if_neg hcomma]
          exact ih rest hrest _ _ _

/-- A code unit that occurs neither in the line nor in the loop variables occurs in no
field. -/
theorem parseCSVLoop_not_mem (a : Nat) (n : Nat) :
    ∀ (s : JSString), s.length ≤ n → ∀ (result : List JSString) (current : JSString)
      (inQuotes : Bool), a ∉ s → a ∉ current → (∀ f ∈ result, a ∉ f) →
      ∀ field ∈ parseCSVLoop s result current inQuotes, a ∉ field := by
  induction n with
  | zero =>
    intro s hs result current inQuotes _ hcur hres field hf
    have : s = [] := List.eq_nil_of_length_eq_zero (by omega)
    subst this
    have hf1 : field ∈ result ++ [current] := hf
    rcases List.mem_append.mp hf1 with h1 | h1
    · exact hres field h1
    · rw [List.mem_singleton.mp h1]; exact hcur
  | succ n ih =>
    intro s hs result current inQuotes hs0 hcur hres field hf
    cases s with
    | nil =>
      have hf1 : field ∈ result ++ [current] := hf
      rcases List.mem_append.mp hf1 with h1 | h1
      · exact hres field h1
      · rw [List.mem_singleton.mp h1]; exact hcur
    | cons ch rest =>
      have hrest : rest.length ≤ n := by simp only [List.length_cons] at hs; omega
      have hach : a ≠ ch := fun e => hs0 (by simp [e])
      have harest : a ∉ rest := fun e => hs0 (List.mem_cons_of_mem _ e)
      have hpush : ∀ f ∈ result ++ [current], a ∉ f := by
        intro f hmem
        rcases List.mem_append.mp hmem with h1 | h1
        · exact hres f h1
        · rw [List.mem_singleton.mp h1]; exact hcur
      have happ : a ∉ current ++ [ch] := by
        simp only [List.mem_append, List.mem_singleton, not_or]
        exact ⟨hcur, hach⟩
      by_cases hch : ch = 34
      · subst hch
        cases inQuotes with
        | false =>
          rw [parseCSVLoop_open] at hf
          exact ih rest hrest result current true harest hcur hres field hf
        | true =>
          cases rest with
          | nil =>
            have hf1 : field ∈ result ++ [current] := by simpa [parseCSVLoop] using hf
            exact hpush field hf1
          | cons d rest =>
            have hrest2 : rest.length ≤ n := by simp only [List.length_cons] at hrest; omega
            by_cases hd : d = 34
            · subst hd
              rw [parseCSVLoop_escaped] at hf
              exact ih rest hrest2 result (current ++ [34]) true
                (fun e => harest (List.mem_cons_of_mem _ e)) happ hres field hf
            · have e1 : parseCSVLoop (34 :: d :: rest) result current true =
                  parseCSVLoop (d :: rest) result current false := by
                simp [parseCSVLoop, hd]
              rw [e1] at hf
              exact ih (d :: rest) hrest result current false harest hcur hres field hf
      · rw [parseCSVLoop_other ch _ _ _ _ hch] at hf
        by_cases hcomma : (ch = 44 && !inQuotes) = true
        · rw [if_pos hcomma] at hf
          exact ih rest hrest _ _ _ harest (by simp) hpush field hf
        · rw [if_neg hcomma] at hf
          exact ih rest hrest _ _ _ harest happ hres field hf

theorem parseCSVLine_not_mem (a : Nat) (line : JSString) (h : a ∉ line) :
    ∀ field ∈ parseCSVLine line, a ∉ field :=
  parseCSVLoop_not_mem a line.length line (Nat.le_refl _) [] [] false h (by simp) (by simp)

theorem dropLast_dropWhile_not_mem (a : Nat) (p : Nat → Bool) (l : JSString)
    (h : a ∉ l.dropLast) : a ∉ (l.dropWhile p).dropLast := by
  induction l with
  | nil => simp
  | cons c rest ih =>
    rw [List.dropWhile_cons]
    split
    · apply ih
      cases rest with
      | nil => simp
      | cons d rest =>
        rw [List.dropLast_cons₂] at h
        exact fun e => h (List.mem_cons_of_mem _ e)
    · exact h

/-- A line whose only carriage return, if any, is its last character has none left after
`trim`. -/
theorem trim_no_return (line : JSString) (h : 13 ∉ line.dropLast) : 13 ∉ trim line := by
  unfold trim
  have h1 := dropLast_dropWhile_not_mem 13 isWhitespace line h
  generalize line.dropWhile isWhitespace = l at h1
  induction l using List.reverseRecOn with
  | nil => simp
  | append_singleton d x _ =>
    rw [List.dropLast_concat] at h1
    rw [List.rdropWhile_concat]
    split
    · intro hm
      exact h1 ((List.rdropWhile_prefix isWhitespace d).subset hm)
    · rename_i hx
      simp only [List.mem_append, List.mem_singleton, not_or]
      refine ⟨h1, ?_⟩
      intro e
      rw [← e] at hx
      exact hx (by decide)

theorem JSObject.mem_of_mem_set (o : JSObject) (key value : JSString) (kv : JSString × JSString)
    (h : kv ∈ o.set key value) : kv ∈ o ∨ kv = (key, value) := by
  unfold JSObject.set at h
  split at h
  · exact Or.inl h
  · split at h
    · obtain ⟨kv0, hkv0, e⟩ := List.mem_map.mp h
      by_cases hk : kv0.1 = key
      · rw [if_pos hk] at e
        exact Or.inr (by rw [← e, hk])
      · rw [if_neg hk] at e
        exact Or.inl (e ▸ hkv0)
    · rcases List.mem_append.mp h with h1 | h1
      · exact Or.inl h1
      · exact Or.inr (List.mem_singleton.mp h1)

/-- Every entry of a row comes from the object the loop started with, or holds a field of the
line or the empty string. -/
theorem fillRow_mem (values : List JSString) (headers : List JSString) (index : Nat)
    (comment : JSObject) (kv : JSString × JSString)
    (h : kv ∈ fillRow values headers index comment) :
    kv ∈ comment ∨ kv.1 ∈ headers ∧ (kv.2 = [] ∨ kv.2 ∈ values) := by
  induction headers generalizing index comment with
  | nil => exact Or.inl h
  | cons header headers ih =>
    rw [fillRow] at h
    rcases ih _ _ h with h1 | h1
    · rcases JSObject.mem_of_mem_set _ _ _ _ h1 with h2 | h2
      · exact Or.inl h2
      · refine Or.inr ⟨by rw [h2]; simp, ?_⟩
        rw [h2]
        cases hv : values[index]? with
        | none => exact Or.inl rfl
        | some v =>
          by_cases hv0 : v = []
          · exact Or.inl (by simp [orEmpty, hv0])
          · exact Or.inr (by
              simp only [orEmpty, if_neg hv0]
              exact List.getElem?_mem hv)
    · exact Or.inr ⟨List.mem_cons_of_mem _ h1.1, h1.2⟩

theorem fillRow_append (values : List JSString) (headers more : List JSString) (index : Nat)
    (comment : JSObject) :
    fillRow values (headers ++ more) index comment =
      fillRow values more (index + headers.length) (fillRow values headers index comment) := by
  induction headers generalizing index comment with
  | nil => rfl
  | cons header headers ih =>
    rw [List.cons_append, fillRow, ih, fillRow, List.length_cons]
    congr 1
    omega

/-- A last header that differs from the headers before it, and is not `__proto__`, is the
last key of the row. -/
theorem fillRow_last_key (values : List JSString) (headers : List JSString)
    (header : JSString) (hp : header ≠ protoKey) (hnew : header ∉ headers) :
    (fillRow values (headers ++ [header]) 0 []).keys.getLast? = some header := by
  have hfresh : header ∉ (fillRow values headers 0 []).keys := by
    intro hm
    obtain ⟨kv, hkv, e⟩ := List.mem_map.mp hm
    rcases fillRow_mem _ _ _ _ _ hkv with h1 | h1
    · cases h1
    · exact hnew (e ▸ h1.1)
  rw [fillRow_append, fillRow, fillRow, JSObject.set_fresh _ _ _ hp hfresh]
  simp [JSObject.keys]

theorem not_mem_protoKey : 13 ∉ protoKey := by decide

/-- C30, as stated, fails: under the header line `a,b` with CRLF line endings, the data line
`x\r,y` gives the row with `a` mapped to `x\r`, a field value that ends with a carriage
return. -/
theorem parseCSV_crlf_counterexample :
    ((splitOn 10 (lit "a,b\r\nx\r,y\r\n")).headD []).getLast? = some 13 ∧
    parseCSV (lit "a,b\r\nx\r,y\r\n") = [[(lit "a", lit "x\r"), (lit "b\r", lit "y")]] ∧
    ∃ row ∈ parseCSV (lit "a,b\r\nx\r,y\r\n"), ∃ kv ∈ row, kv.2.getLast? = some 13 := by
  decide

/-- C30, amended. For a CSV text whose header line ends with a carriage return and in which
no line has a carriage return before its last character, the last header ends with the
carriage return and is the last key of every parsed row, while no field value of a row has a
carriage return in it, at its end or elsewhere: each data line is trimmed, the header line is
not. -/
theorem parseCSV_crlf (csvText : JSString)
    (hhead : ((splitOn 10 csvText).headD []).getLast? = some 13)
    (hlines : ∀ line ∈ splitOn 10 csvText, 13 ∉ line.dropLast) :
    ∃ lastHeader,
      (parseCSVLine ((splitOn 10 csvText).headD [])).getLast? = some lastHeader ∧
      lastHeader.getLast? = some 13 ∧
      ∀ row ∈ parseCSV csvText,
        row.keys.getLast? = some lastHeader ∧
        ∀ kv ∈ row, 13 ∉ kv.2 ∧ kv.2.getLast? ≠ some 13 := by
  obtain ⟨headerLine, rest, hsplit⟩ := List.exists_cons_of_ne_nil (splitOn_ne_nil 10 csvText)
  rw [hsplit] at hhead hlines
  simp only [List.headD_cons] at hhead
  have hbody : headerLine.dropLast ++ [13] = headerLine :=
    List.dropLast_append_getLast? 13 (by simpa using hhead)
  have hbody13 : 13 ∉ headerLine.dropLast := hlines headerLine (List.mem_cons_self _ _)
  obtain ⟨fields, last, hf1, hf2⟩ := parseCSVLoop_snoc 13 (by decide) (by decide)
    headerLine.dropLast.length headerLine.dropLast (Nat.le_refl _) [] [] false
  rw [hbody] at hf2
  have hno : ∀ f ∈ fields ++ [last], 13 ∉ f := by
    intro f hf
    rw [← hf1] at hf
    exact parseCSVLine_not_mem 13 _ hbody13 f hf
  have hheaders : parseCSVLine headerLine = fields ++ [last ++ [13]] := hf2
  have hp : last ++ [13] ≠ protoKey := by
    intro e
    exact not_mem_protoKey (e ▸ (by simp))
  have hnew : last ++ [13] ∉ fields := by
    intro hm
    exact hno _ (List.mem_append_left _ hm) (by simp)
  have hrows : parseCSV csvText = rest.filterMap (rowOfLine (fields ++ [last ++ [13]])) := by
    unfold parseCSV
    simp only [hsplit, List.headD_cons, List.drop_one, List.tail_cons, hheaders,
      foldl_parseCSVStep, List.nil_append]
  refine ⟨last ++ [13], ?_, by simp, ?_⟩
  · simp only [hsplit, List.headD_cons, hheaders]
    simp
  · intro row hrow
    rw [hrows] at hrow
    obtain ⟨rawLine, hraw, hsome⟩ := List.mem_filterMap.mp hrow
    have hraw13 : 13 ∉ trim rawLine :=
      trim_no_return rawLine (hlines rawLine (List.mem_cons_of_mem _ hraw))
    unfold rowOfLine at hsome
    split at hsome
    · cases hsome
    · split at hsome
      · simp only [Option.some.injEq] at hsome
        subst hsome
        refine ⟨fillRow_last_key _ fields _ hp hnew, ?_⟩
        intro kv hkv
        have h13 : 13 ∉ kv.2 := by
          rcases fillRow_mem _ _ _ _ _ hkv with h1 | ⟨_, h1 | h1⟩
          · cases h1
          · rw [h1]; simp
          · exact parseCSVLine_not_mem 13 _ hraw13 _ h1
        exact ⟨h13, fun e => h13 (List.mem_of_getLast?_eq_some e)⟩
      · cases hsome

/-- An instance of C30: a header line and one data line with CRLF endings. -/
theorem parseCSV_crlf_witness :
    ((splitOn 10 (lit "a,b\r\nx,y\r\n")).headD []).getLast? = some 13 ∧
    parseCSV (lit "a,b\r\nx,y\r\n") = [[(lit "a", lit "x"), (lit "b\r", lit "y")]] ∧
    ∃ lastHeader,
      (parseCSVLine ((splitOn 10 (lit "a,b\r\nx,y\r\n")).headD [])).getLast? =
        some lastHeader ∧
      lastHeader.getLast? = some 13 ∧
      ∀ row ∈ parseCSV (lit "a,b\r\nx,y\r\n"),
        row.keys.getLast? = some lastHeader ∧
        ∀ kv ∈ row, 13 ∉ kv.2 ∧ kv.2.getLast? ≠ some 13 :=
  ⟨by decide, by decide, parseCSV_crlf (lit "a,b\r\nx,y\r\n") (by decide) (by decide)⟩

/-! ## Greedy word wrap -/

theorem splitOn_joinWords (words : List JSString) (hne : words ≠ [])
    (h : ∀ w ∈ words, 32 ∉ w) : splitOn 32 (joinWords words) = words := by
  induction words with
  | nil => exact absurd rfl hne
  | cons w ws ih =>
    cases ws with
    | nil => simpa [joinWords] using splitOn_no_sep 32 w (h w (by simp))
    | cons w' ws' =>
      simp only [joinWords]
      rw [splitOn_append_sep 32 w _ (h w (by simp)), ih (by simp)]
      intro x hx
      exact h x (List.mem_cons_of_mem _ hx)

theorem joinWords_append (a b : List JSString) (ha : a ≠ []) (hb : b ≠ []) :
    joinWords (a ++ b) = joinWords a ++ 32 :: joinWords b := by
  induction a with
  | nil => exact absurd rfl ha
  | cons w ws ih =>
    cases ws with
    | nil =>
      cases b with
      | nil => exact absurd rfl hb
      | cons v vs => simp [joinWords]
    | cons w' ws' =>
      have := ih (by simp)
      simp only [List.cons_append] at this ⊢
      simp only [joinWords, this, List.append_assoc, List.cons_append]

theorem joinWords_concat (line : List JSString) (word : JSString) :
    joinWords (line ++ [word]) =
      joinWords line ++ (if joinWords line ≠ [] then lit " " else []) ++ word ∨
    (line ≠ [] ∧ joinWords line = []) := by
  cases line with
  | nil => left; simp [joinWords]
  | cons w ws =>
    by_cases hj : joinWords (w :: ws) = []
    · exact Or.inr ⟨by simp, hj⟩
    · left
      rw [joinWords_append _ _ (by simp) (by simp), if_pos hj]
      simp [joinWords, lit]

theorem joinWords_eq_nil (line : List JSString) (h : ∀ w ∈ line, w ≠ []) :
    joinWords line = [] ↔ line = [] := by
  cases line with
  | nil => simp [joinWords]
  | cons w ws =>
    have hw : w ≠ [] := h w (by simp)
    cases ws with
    | nil => simp [joinWords, hw]
    | cons w' ws' => simp [joinWords, hw]

theorem joinWords_flatten (groups : List (List JSString)) (h : ∀ g ∈ groups, g ≠ []) :
    joinWords (groups.map joinWords) = joinWords groups.flatten := by
  induction groups with
  | nil => rfl
  | cons g gs ih =>
    have hg : g ≠ [] := h g (by simp)
    have ih1 := ih (fun x hx => h x (List.mem_cons_of_mem _ hx))
    cases gs with
    | nil => simp [joinWords]
    | cons g' gs' =>
      have hne : (g' :: gs').flatten ≠ [] := by
        have hg' : g' ≠ [] := h g' (by simp)
        simp [hg']
      rw [List.flatten_cons, joinWords_append _ _ hg hne, ← ih1]
      simp [joinWords]

theorem wrapStep_groups {β : Type} [LinearOrder β] (measure : JSString → β) (maxWidth : β)
    (groups : List (List JSString)) (current : List JSString) (word : JSString)
    (hcur : ∀ w ∈ current, w ≠ []) (hword : word ≠ [])
    (hinv : WrapInvariant measure maxWidth groups current) :
    ∃ groups1 current1,
      wrapStep measure maxWidth (groups.map joinWords, joinWords current) word =
        (groups1.map joinWords, joinWords current1) ∧
      groups1.flatten ++ current1 = groups.flatten ++ current ++ [word] ∧
      WrapInvariant measure maxWidth groups1 current1 ∧
      (∀ w ∈ current1, w ≠ []) ∧ current1 ≠ [] := by
  obtain ⟨hne, hlast, hfit, hchain⟩ := hinv
  have hjn := joinWords_eq_nil current hcur
  have htest : joinWords current ++ (if joinWords current ≠ [] then lit " " else []) ++ word =
      joinWords (current ++ [word]) := by
    rcases joinWords_concat current word with h | ⟨h1, h2⟩
    · exact h.symm
    · exact absurd (hjn.mp h2) h1
  unfold wrapStep
  simp only []
  rw [htest]
  by_cases hc : maxWidth < measure (joinWords (current ++ [word])) ∧ joinWords current ≠ []
  · rw [if_pos hc]
    have hcne : current ≠ [] := fun e => hc.2 (hjn.mpr e)
    refine ⟨groups ++ [current], [word], by simp [joinWords], by simp, ⟨?_, ?_, ?_, ?_⟩, ?_, ?_⟩
    · intro g hg
      rcases List.mem_append.mp hg with h1 | h1
      · exact hne g h1
      · rw [List.mem_singleton.mp h1]; exact hcne
    · intro _; simp
    · intro g hg hlen
      rcases List.mem_append.mp hg with h1 | h1
      · exact hfit g h1 hlen
      · rw [List.mem_singleton.mp h1] at hlen
        simp at hlen
    · rw [List.chain'_append]
      refine ⟨hchain, List.chain'_singleton _, ?_⟩
      intro x hx y hy
      have hx1 : some current = some x := by
        have hl : (groups ++ [current]).getLast? = some current := List.getLast?_concat groups
        rw [← hl]
        exact hx
      simp only [Option.some.injEq] at hx1
      simp only [List.head?_cons, Option.mem_def, Option.some.injEq] at hy
      subst hx1
      subst hy
      refine ⟨word, [], rfl, ?_⟩
      have : joinWords current ++ lit " " ++ word = joinWords (current ++ [word]) := by
        rw [← htest, if_pos hc.2]
      rw [this]
      exact hc.1
    · intro w hw
      rw [List.mem_singleton.mp hw]; exact hword
    · simp
  · rw [if_neg hc]
    refine ⟨groups, current ++ [word], rfl, by simp, ⟨hne, ?_, ?_, ?_⟩, ?_, ?_⟩
    · intro _; simp
    · intro g hg hlen
      rcases List.mem_append.mp hg with h1 | h1
      · exact hfit g (List.mem_append_left _ h1) hlen
      · rw [List.mem_singleton.mp h1] at hlen ⊢
        have hcne : current ≠ [] := by
          intro e
          rw [e] at hlen
          simp at hlen
        have hjne : joinWords current ≠ [] := fun e => hcne (hjn.mp e)
        exact not_lt.mp (fun hlt => hc ⟨hlt, hjne⟩)
    · rw [List.chain'_append] at hchain ⊢
      refine ⟨hchain.1, List.chain'_singleton _, ?_⟩
      intro x hx y hy
      simp only [List.head?_cons, Option.mem_def, Option.some.injEq] at hy
      subst hy
      obtain ⟨w0, rest, e, hlt⟩ := hchain.2.2 x hx current (by simp)
      exact ⟨w0, rest ++ [word], by rw [e]; rfl, hlt⟩
    · intro w hw
      rcases List.mem_append.mp hw with h1 | h1
      · exact hcur w h1
      · rw [List.mem_singleton.mp h1]; exact hword
    · simp

theorem foldl_wrapStep_groups {β : Type} [LinearOrder β] (measure : JSString → β)
    (maxWidth : β) (words : List JSString) (hwords : ∀ w ∈ words, w ≠ []) :
    ∀ (groups : List (List JSString)) (current : List JSString),
      (∀ w ∈ current, w ≠ []) → WrapInvariant measure maxWidth groups current →
      ∃ groups1 current1,
        words.foldl (wrapStep measure maxWidth) (groups.map joinWords, joinWords current) =
          (groups1.map joinWords, joinWords current1) ∧
        groups1.flatten ++ current1 = groups.flatten ++ current ++ words ∧
        WrapInvariant measure maxWidth groups1 current1 ∧
        (∀ w ∈ current1, w ≠ []) ∧ (words ≠ [] → current1 ≠ []) := by
  induction words with
  | nil =>
    intro groups current hcur hinv
    exact ⟨groups, current, rfl, by simp, hinv, hcur, fun h => absurd rfl h⟩
  | cons word words ih =>
    intro groups current hcur hinv
    obtain ⟨g1, c1, e1, f1, i1, n1, ne1⟩ := wrapStep_groups measure maxWidth groups current word
      hcur (hwords word (List.mem_cons_self _ _)) hinv
    obtain ⟨g2, c2, e2, f2, i2, n2, ne2⟩ :=
      ih (fun w hw => hwords w (List.mem_cons_of_mem _ hw)) g1 c1 n1 i1
    refine ⟨g2, c2, ?_, ?_, i2, n2, ?_⟩
    · rw [List.foldl_cons, e1, e2]
    · rw [f2, f1]; simp
    · intro _
      by_cases hw : words = []
      · subst hw
        simp only [List.foldl_nil, Prod.mk.injEq] at e2
        intro e
        have hc1 : joinWords c1 = [] := by rw [e2.2, e]; rfl
        exact ne1 ((joinWords_eq_nil c1 n1).mp hc1)
      · exact ne2 hw

/-- C26. For every width measure and every `maxWidth`, on a text of non-empty words separated
by single spaces `wrapText` is greedy word wrap: the lines are consecutive non-empty groups
of the words in order, each joined by single spaces, so that joining the lines by single
spaces gives the text back; a line of more than one word measures at most `maxWidth`; and every
line but the last, extended by a space and the first word of the next line, measures more
than `maxWidth`. -/
theorem wrapText_greedy {β : Type} [LinearOrder β] (measure : JSString → β) (maxWidth : β)
    (words : List JSString) (hwords : ∀ w ∈ words, w ≠ [] ∧ 32 ∉ w) :
    ∃ groups : List (List JSString),
      wrapText measure (joinWords words) maxWidth = groups.map joinWords ∧
      groups.flatten = words ∧ (∀ g ∈ groups, g ≠ []) ∧
      joinWords (wrapText measure (joinWords words) maxWidth) = joinWords words ∧
      (∀ g ∈ groups, 1 < g.length → measure (joinWords g) ≤ maxWidth) ∧
      List.Chain' (Overflows measure maxWidth) groups := by
  by_cases hw : words = []
  · subst hw
    refine ⟨[], ?_, rfl, by simp, ?_, by simp, List.chain'_nil⟩
    · simp [wrapText, joinWords, splitOn, wrapStep]
    · simp [wrapText, joinWords, splitOn, wrapStep]
  · have hstart : WrapInvariant measure maxWidth [] [] :=
      ⟨by simp, by simp, by simp, by simp⟩
    obtain ⟨g1, c1, e1, f1, ⟨hne, _, hfit, hchain⟩, n1, ne1⟩ :=
      foldl_wrapStep_groups measure maxWidth words (fun w h => (hwords w h).1) [] []
        (by simp) hstart
    have hc1 : c1 ≠ [] := ne1 hw
    have hj1 : joinWords c1 ≠ [] := fun e => hc1 ((joinWords_eq_nil c1 n1).mp e)
    have hall : ∀ g ∈ g1 ++ [c1], g ≠ [] := by
      intro g hg
      rcases List.mem_append.mp hg with h1 | h1
      · exact hne g h1
      · rw [List.mem_singleton.mp h1]; exact hc1
    have hres : wrapText measure (joinWords words) maxWidth = (g1 ++ [c1]).map joinWords := by
      unfold wrapText
      simp only []
      rw [splitOn_joinWords words hw (fun w h => (hwords w h).2)]
      have e0 : (([] : List JSString), ([] : JSString)) =
          (([] : List (List JSString)).map joinWords, joinWords []) := rfl
      rw [e0, e1]
      simp only []
      rw [if_pos hj1]
      simp
    have hflat : (g1 ++ [c1]).flatten = words := by
      simpa using f1
    refine ⟨g1 ++ [c1], hres, hflat, hall, ?_, hfit, hchain⟩
    rw [hres, joinWords_flatten _ hall, hflat]

/-- An instance of C26: three words of two letters, widths counted in code units, at most 5
to a line. -/
theorem wrapText_greedy_witness :
    (∀ w ∈ [lit "aa", lit "bb", lit "cc"], w ≠ [] ∧ 32 ∉ w) ∧
    wrapText measureLength (lit "aa bb cc") 5 = [lit "aa bb", lit "cc"] ∧
    ∃ groups : List (List JSString),
      wrapText measureLength (joinWords [lit "aa", lit "bb", lit "cc"]) 5 =
        groups.map joinWords ∧
      groups.flatten = [lit "aa", lit "bb", lit "cc"] ∧ (∀ g ∈ groups, g ≠ []) ∧
      joinWords (wrapText measureLength (joinWords [lit "aa", lit "bb", lit "cc"]) 5) =
        joinWords [lit "aa", lit "bb", lit "cc"] ∧
      (∀ g ∈ groups, 1 < g.length → measureLength (joinWords g) ≤ 5) ∧
      List.Chain' (Overflows measureLength 5) groups :=
  ⟨by decide, by decide,
    wrapText_greedy measureLength 5 [lit "aa", lit "bb", lit "cc"] (by decide)⟩

/-! ## Rounding to a double -/

theorem roundTiesEven_intCast (n : Int) : roundTiesEven (n : ℚ) = n := by
  unfold roundTiesEven
  simp

theorem roundTiesEven_le (x : ℚ) (n : Int) (h : x ≤ n) : roundTiesEven x ≤ n := by
  have hf1 : ((⌊x⌋ : Int) : ℚ) ≤ x := Int.floor_le x
  have hle : ⌊x⌋ ≤ n := by
    have : ((⌊x⌋ : Int) : ℚ) ≤ n := le_trans hf1 h
    exact_mod_cast this
  have hstep : (1 : ℚ) / 2 ≤ x - ⌊x⌋ → ⌊x⌋ + 1 ≤ n := by
    intro hr
    have : ((⌊x⌋ : Int) : ℚ) < n := by linarith
    have : ⌊x⌋ < n := by exact_mod_cast this
    omega
  unfold roundTiesEven
  simp only []
  split_ifs with h1 h2 h3
  · exact hle
  · exact hstep (le_of_lt h2)
  · exact hle
  · exact hstep (not_lt.mp h1)

theorem le_roundTiesEven (x : ℚ) (n : Int) (h : (n : ℚ) ≤ x) : n ≤ roundTiesEven x := by
  have hle : n ≤ ⌊x⌋ := Int.le_floor.mpr h
  unfold roundTiesEven
  simp only []
  split_ifs <;> omega

theorem abs_roundTiesEven_sub (x : ℚ) : |(roundTiesEven x : ℚ) - x| ≤ 1 / 2 := by
  have hf1 : ((⌊x⌋ : Int) : ℚ) ≤ x := Int.floor_le x
  have hf2 : x < ⌊x⌋ + 1 := Int.lt_floor_add_one x
  unfold roundTiesEven
  simp only []
  rw [abs_le]
  split_ifs with h1 h2 h3
  · constructor <;> linarith
  · push_cast
    constructor <;> linarith
  · have := not_lt.mp h1
    have := not_lt.mp h2
    constructor <;> linarith
  · have := not_lt.mp h1
    have := not_lt.mp h2
    push_cast
    constructor <;> linarith

/-- An integer within less than a half of `x` is the rounded value. -/
theorem roundTiesEven_eq (x : ℚ) (m : Int) (h : |x - m| < 1 / 2) : roundTiesEven x = m := by
  rw [abs_lt] at h
  have h1 : m - 1 < roundTiesEven x := by
    have hb := (abs_le.mp (abs_roundTiesEven_sub x)).1
    have : ((m - 1 : Int) : ℚ) < (roundTiesEven x : ℚ) := by
      push_cast
      linarith [h.1, h.2]
    exact_mod_cast this
  have h2 : roundTiesEven x < m + 1 := by
    have hb := (abs_le.mp (abs_roundTiesEven_sub x)).2
    have : ((roundTiesEven x : Int) : ℚ) < ((m + 1 : Int) : ℚ) := by
      push_cast
      linarith [h.1, h.2]
    exact_mod_cast this
  omega

/-- The binade of a positive number, and the rounded value in terms of it. -/
theorem roundDouble_pos (q : ℚ) (hq : 0 < q) :
    ∃ e : Int, (2 : ℚ) ^ e ≤ q ∧ q < 2 ^ (e + 1) ∧
      roundDouble q = (roundTiesEven (q * 2 ^ (52 - e)) : ℚ) * 2 ^ (e - 52) := by
  refine ⟨Int.log 2 q, ?_, ?_, ?_⟩
  · simpa using Int.zpow_log_le_self (b := 2) (by decide) hq
  · simpa using Int.lt_zpow_succ_log_self (b := 2) (by decide) q
  · unfold roundDouble
    rw [if_neg (ne_of_gt hq), abs_of_pos hq]

/-- The value of the rounding once the binade and the nearest multiple are known. -/
theorem roundDouble_eq (q : ℚ) (e m : Int) (h1 : (2 : ℚ) ^ e ≤ q) (h2 : q < 2 ^ (e + 1))
    (h3 : |q * 2 ^ (52 - e) - m| < 1 / 2) : roundDouble q = (m : ℚ) * 2 ^ (e - 52) := by
  have hq : 0 < q := lt_of_lt_of_le (zpow_pos (by norm_num) e) h1
  obtain ⟨e0, g1, g2, g3⟩ := roundDouble_pos q hq
  have he : e0 = e := by
    have a1 : (2 : ℚ) ^ e0 < 2 ^ (e + 1) := lt_of_le_of_lt g1 h2
    have a2 : (2 : ℚ) ^ e < 2 ^ (e0 + 1) := lt_of_le_of_lt h1 g2
    rw [zpow_lt_zpow_iff_right₀ (by norm_num)] at a1 a2
    omega
  subst he
  rw [g3, roundTiesEven_eq _ m h3]

theorem binade_scale (e : Int) (k : Nat) (h : e + k ≤ 52) :
    ∃ D : Nat, (2 : ℚ) ^ (52 - e) = 2 ^ D * 2 ^ k ∧ (2 : ℚ) ^ (e - 52) = 1 / (2 ^ D * 2 ^ k) := by
  refine ⟨(52 - e - k).toNat, ?_, ?_⟩
  · have hD : 52 - e = ((52 - e - k).toNat : Int) + (k : Int) := by
      rw [Int.toNat_of_nonneg (by omega)]
      omega
    rw [hD, zpow_add₀ (by norm_num), zpow_natCast, zpow_natCast]
    simp
  · have hD : e - 52 = -(((52 - e - k).toNat : Int) + (k : Int)) := by
      rw [Int.toNat_of_nonneg (by omega)]
      omega
    rw [hD, zpow_neg, zpow_add₀ (by norm_num), zpow_natCast, zpow_natCast]
    simp

theorem binade_le (q : ℚ) (e : Int) (k : Nat) (h1 : (2 : ℚ) ^ e ≤ q)
    (h2 : q < 2 ^ ((53 : Int) - k)) : e + k ≤ 52 := by
  have := lt_of_le_of_lt h1 h2
  rw [zpow_lt_zpow_iff_right₀ (by norm_num)] at this
  omega

/-- Rounding does not pass a double that lies above the number. -/
theorem roundDouble_le (q : ℚ) (n k : Nat) (hq : 0 < q) (h : q ≤ (n : ℚ) / 2 ^ k)
    (hb : q < 2 ^ ((53 : Int) - k)) : roundDouble q ≤ (n : ℚ) / 2 ^ k := by
  obtain ⟨e, g1, g2, g3⟩ := roundDouble_pos q hq
  obtain ⟨D, p1, p2⟩ := binade_scale e k (binade_le q e k g1 hb)
  have hk : (0 : ℚ) < 2 ^ k := by positivity
  have hD : (0 : ℚ) < 2 ^ D := by positivity
  have hx : q * 2 ^ (52 - e) ≤ ((n * 2 ^ D : Nat) : Int) := by
    rw [p1]
    push_cast
    have : q * (2 ^ D * 2 ^ k) ≤ (n : ℚ) / 2 ^ k * (2 ^ D * 2 ^ k) :=
      mul_le_mul_of_nonneg_right h (by positivity)
    calc q * (2 ^ D * 2 ^ k) ≤ (n : ℚ) / 2 ^ k * (2 ^ D * 2 ^ k) := this
      _ = (n : ℚ) * 2 ^ D := by (field_simp; ring)
  have hr : (roundTiesEven (q * 2 ^ (52 - e)) : ℚ) ≤ (n : ℚ) * 2 ^ D := by
    have := roundTiesEven_le _ _ hx
    have h2 : ((roundTiesEven (q * 2 ^ (52 - e)) : Int) : ℚ) ≤ (((n * 2 ^ D : Nat) : Int) : ℚ) := by
      exact_mod_cast this
    simpa using h2
  rw [g3, p2]
  calc (roundTiesEven (q * 2 ^ (52 - e)) : ℚ) * (1 / (2 ^ D * 2 ^ k))
      ≤ (n : ℚ) * 2 ^ D * (1 / (2 ^ D * 2 ^ k)) :=
        mul_le_mul_of_nonneg_right hr (by positivity)
    _ = (n : ℚ) / 2 ^ k := by (field_simp; ring)

/-- Rounding does not pass a double that lies below the number. -/
theorem le_roundDouble (q : ℚ) (n k : Nat) (hq : 0 < q) (h : (n : ℚ) / 2 ^ k ≤ q)
    (hb : q < 2 ^ ((53 : Int) - k)) : (n : ℚ) / 2 ^ k ≤ roundDouble q := by
  obtain ⟨e, g1, g2, g3⟩ := roundDouble_pos q hq
  obtain ⟨D, p1, p2⟩ := binade_scale e k (binade_le q e k g1 hb)
  have hk : (0 : ℚ) < 2 ^ k := by positivity
  have hD : (0 : ℚ) < 2 ^ D := by positivity
  have hx : ((((n * 2 ^ D : Nat) : Int)) : ℚ) ≤ q * 2 ^ (52 - e) := by
    rw [p1]
    push_cast
    have : (n : ℚ) / 2 ^ k * (2 ^ D * 2 ^ k) ≤ q * (2 ^ D * 2 ^ k) :=
      mul_le_mul_of_nonneg_right h (by positivity)
    calc (n : ℚ) * 2 ^ D = (n : ℚ) / 2 ^ k * (2 ^ D * 2 ^ k) := by (field_simp; ring)
      _ ≤ q * (2 ^ D * 2 ^ k) := this
  have hr : (n : ℚ) * 2 ^ D ≤ (roundTiesEven (q * 2 ^ (52 - e)) : ℚ) := by
    have := le_roundTiesEven _ _ hx
    have h2 : ((((n * 2 ^ D : Nat) : Int)) : ℚ) ≤
        ((roundTiesEven (q * 2 ^ (52 - e)) : Int) : ℚ) := by
      exact_mod_cast this
    simpa using h2
  rw [g3, p2]
  calc (n : ℚ) / 2 ^ k = (n : ℚ) * 2 ^ D * (1 / (2 ^ D * 2 ^ k)) := by (field_simp; ring)
    _ ≤ (roundTiesEven (q * 2 ^ (52 - e)) : ℚ) * (1 / (2 ^ D * 2 ^ k)) :=
        mul_le_mul_of_nonneg_right hr (by positivity)

/-- An integer below 2^53 over a power of two is a double: rounding leaves it as it is. -/
theorem roundDouble_dyadic (n k : Nat) (hn : n < 2 ^ 53) :
    roundDouble ((n : ℚ) / 2 ^ k) = (n : ℚ) / 2 ^ k := by
  by_cases h0 : n = 0
  · subst h0
    simp [roundDouble]
  · have hk : (0 : ℚ) < 2 ^ k := by positivity
    have hq : (0 : ℚ) < (n : ℚ) / 2 ^ k := by
      have : (0 : ℚ) < n := by exact_mod_cast Nat.pos_of_ne_zero h0
      positivity
    have hb : (n : ℚ) / 2 ^ k < 2 ^ ((53 : Int) - k) := by
      rw [zpow_sub₀ (by norm_num), zpow_natCast]
      have : (n : ℚ) < 2 ^ 53 := by exact_mod_cast hn
      have e53 : (2 : ℚ) ^ (53 : Int) = 2 ^ 53 := by norm_cast
      rw [e53]
      exact div_lt_div_of_pos_right this hk
    exact le_antisymm (roundDouble_le _ n k hq (le_refl _) hb)
      (le_roundDouble _ n k hq (le_refl _) hb)

theorem roundDouble_natCast (n : Nat) (hn : n < 2 ^ 53) : roundDouble (n : ℚ) = n := by
  have := roundDouble_dyadic n 0 hn
  simpa using this

/-- The rounding moves a positive number by at most the fraction 2^-53 of it. -/
theorem abs_roundDouble_sub (q : ℚ) (hq : 0 < q) : |roundDouble q - q| ≤ q / 2 ^ 53 := by
  obtain ⟨e, g1, g2, g3⟩ := roundDouble_pos q hq
  have hE : (0 : ℚ) < 2 ^ e := zpow_pos (by norm_num) e
  have p1 : (2 : ℚ) ^ (52 - e) = 2 ^ 52 / 2 ^ e := by
    rw [zpow_sub₀ (by norm_num)]
    norm_cast
  have p2 : (2 : ℚ) ^ (e - 52) = 2 ^ e / 2 ^ 52 := by
    rw [zpow_sub₀ (by norm_num)]
    norm_cast
  have hr := abs_roundTiesEven_sub (q * 2 ^ (52 - e))
  rw [g3]
  generalize roundTiesEven (q * 2 ^ (52 - e)) = m at hr ⊢
  rw [p1] at hr
  rw [p2]
  generalize (2 : ℚ) ^ e = E at *
  have hq2 : (m : ℚ) * (E / 2 ^ 52) - q = ((m : ℚ) - q * (2 ^ 52 / E)) * (E / 2 ^ 52) := by
    field_simp
    ring
  rw [hq2, abs_mul, abs_of_pos (show (0 : ℚ) < E / 2 ^ 52 by positivity)]
  calc |(m : ℚ) - q * (2 ^ 52 / E)| * (E / 2 ^ 52) ≤ 1 / 2 * (E / 2 ^ 52) :=
        mul_le_mul_of_nonneg_right hr (by positivity)
    _ = E / 2 ^ 53 := by ring
    _ ≤ q / 2 ^ 53 := div_le_div_of_nonneg_right g1 (by positivity)

/-! ## The crop of the thumbnail -/

theorem contentHeight_eq : mathRound (divideNumbers (multiplyNumbers 1179 16) 9) = 2096 := by
  have e1 : (1179 : ℚ) * 16 = ((18864 : ℕ) : ℚ) := by norm_num
  have e2 : (((18864 : ℕ) : ℚ)) / 9 = ((2096 : ℕ) : ℚ) := by norm_num
  unfold divideNumbers multiplyNumbers
  rw [e1, roundDouble_natCast _ (by norm_num), e2, roundDouble_natCast _ (by norm_num)]
  unfold mathRound
  have hfloor : ⌊(((2096 : ℕ) : ℚ) + 1 / 2)⌋ = 2096 := by
    rw [Int.floor_eq_iff]
    constructor <;> norm_num
  rw [hfloor]
  norm_num

theorem targetAspect_eq : divideNumbers 1179 2096 = 9 / 16 := by
  have e1 : (1179 : ℚ) / 2096 = ((9 : ℕ) : ℚ) / 2 ^ 4 := by norm_num
  unfold divideNumbers
  rw [e1, roundDouble_dyadic 9 4 (by norm_num)]
  norm_num

/-- The geometry with the constants of the destination worked out. -/
theorem cropGeometry_eq (thumbnailWidth thumbnailHeight : ℚ) :
    cropGeometry thumbnailWidth thumbnailHeight =
      if 9 / 16 < divideNumbers thumbnailWidth thumbnailHeight then
        { sourceX := divideNumbers (subtractNumbers thumbnailWidth
            (multiplyNumbers thumbnailHeight (9 / 16))) 2
          sourceY := 0
          sourceWidth := multiplyNumbers thumbnailHeight (9 / 16)
          sourceHeight := thumbnailHeight
          contentX := 0, contentY := 306, contentWidth := 1179, contentHeight := 2096 }
      else
        { sourceX := 0, sourceY := 0, sourceWidth := thumbnailWidth
          sourceHeight := divideNumbers thumbnailWidth (9 / 16)
          contentX := 0, contentY := 306, contentWidth := 1179, contentHeight := 2096 } := by
  simp only [cropGeometry, contentHeight_eq, targetAspect_eq, gt_iff_lt]

/-- The test `sourceAspect > targetAspect` on doubles decides whether the thumbnail is wider
than 9:16. -/
theorem sourceAspect_gt_iff (w h : Nat) (hw : 0 < w) (hh : 0 < h)
    (hwb : w < 2 ^ 49) (hhb : h < 2 ^ 49) :
    (9 : ℚ) / 16 < divideNumbers w h ↔ 9 * h < 16 * w := by
  have hwb1 : w < 562949953421312 := by norm_num at hwb; exact hwb
  have hhb1 : h < 562949953421312 := by norm_num at hhb; exact hhb
  have hhq : (0 : ℚ) < h := by exact_mod_cast hh
  have hwq : (0 : ℚ) < w := by exact_mod_cast hw
  have hq : (0 : ℚ) < (w : ℚ) / h := by positivity
  have hqb : (w : ℚ) / h < 562949953421312 := by
    rw [div_lt_iff₀ hhq]
    have : w < 562949953421312 * h := by nlinarith
    exact_mod_cast this
  unfold divideNumbers
  constructor
  · intro hlt
    by_contra hc
    have hle : 16 * w ≤ 9 * h := not_lt.mp hc
    have hq916 : (w : ℚ) / h ≤ ((9 : ℕ) : ℚ) / 2 ^ 4 := by
      rw [div_le_div_iff₀ hhq (by norm_num)]
      have : w * 2 ^ 4 ≤ 9 * h := by omega
      exact_mod_cast this
    have hb : (w : ℚ) / h < 2 ^ ((53 : Int) - (4 : ℕ)) := by
      have : (2 : ℚ) ^ ((53 : Int) - (4 : ℕ)) = 562949953421312 := by norm_num
      rw [this]
      exact hqb
    have := roundDouble_le _ 9 4 hq hq916 hb
    norm_num at this
    linarith
  · intro hwide
    by_cases h1 : (w : ℚ) / h < 1
    · have hle : ((9 * 2 ^ 49 + 1 : ℕ) : ℚ) / 2 ^ 53 ≤ (w : ℚ) / h := by
        rw [div_le_div_iff₀ (by norm_num) hhq]
        have : (9 * 2 ^ 49 + 1) * h ≤ w * 2 ^ 53 := by
          norm_num
          omega
        exact_mod_cast this
      have hb : (w : ℚ) / h < 2 ^ ((53 : Int) - (53 : ℕ)) := by
        have : (2 : ℚ) ^ ((53 : Int) - (53 : ℕ)) = 1 := by norm_num
        rw [this]
        exact h1
      have := le_roundDouble _ (9 * 2 ^ 49 + 1) 53 hq hle hb
      have hgt : (9 : ℚ) / 16 < ((9 * 2 ^ 49 + 1 : ℕ) : ℚ) / 2 ^ 53 := by norm_num
      linarith
    · have hle : ((1 : ℕ) : ℚ) / 2 ^ 0 ≤ (w : ℚ) / h := by
        have := not_lt.mp h1
        simpa using this
      have hb : (w : ℚ) / h < 2 ^ ((53 : Int) - (0 : ℕ)) := by
        have : (2 : ℚ) ^ ((53 : Int) - (0 : ℕ)) = 9007199254740992 := by norm_num
        rw [this]
        linarith
      have := le_roundDouble _ 1 0 hq hle hb
      norm_num at this
      linarith

theorem cropGeometry_wide (w h : Nat) (hw : 0 < w) (hh : 0 < h)
    (hwb : w < 2 ^ 49) (hhb : h < 2 ^ 49) (hwide : 9 * h < 16 * w) :
    cropGeometry w h =
      { sourceX := ((w : ℚ) - h * (9 / 16)) / 2, sourceY := 0, sourceWidth := h * (9 / 16),
        sourceHeight := h, contentX := 0, contentY := 306, contentWidth := 1179,
        contentHeight := 2096 } := by
  have hwb1 : w < 562949953421312 := by norm_num at hwb; exact hwb
  have hhb1 : h < 562949953421312 := by norm_num at hhb; exact hhb
  rw [cropGeometry_eq, if_pos ((sourceAspect_gt_iff w h hw hh hwb hhb).mpr hwide)]
  have m1 : multiplyNumbers (h : ℚ) (9 / 16) = h * (9 / 16) := by
    have e : (h : ℚ) * (9 / 16) = ((9 * h : ℕ) : ℚ) / 2 ^ 4 := by
      push_cast
      ring
    unfold multiplyNumbers
    rw [e, roundDouble_dyadic _ 4 (by norm_num; omega)]
  have m2 : subtractNumbers (w : ℚ) (h * (9 / 16)) = (w : ℚ) - h * (9 / 16) := by
    have e : (w : ℚ) - h * (9 / 16) = ((16 * w - 9 * h : ℕ) : ℚ) / 2 ^ 4 := by
      rw [Nat.cast_sub (le_of_lt hwide)]
      push_cast
      ring
    unfold subtractNumbers
    rw [e, roundDouble_dyadic _ 4 (by norm_num; omega)]
  have m3 : divideNumbers ((w : ℚ) - h * (9 / 16)) 2 = ((w : ℚ) - h * (9 / 16)) / 2 := by
    have e : ((w : ℚ) - h * (9 / 16)) / 2 = ((16 * w - 9 * h : ℕ) : ℚ) / 2 ^ 5 := by
      rw [Nat.cast_sub (le_of_lt hwide)]
      push_cast
      ring
    unfold divideNumbers
    rw [e, roundDouble_dyadic _ 5 (by norm_num; omega)]
  rw [m1, m2, m3]

theorem cropGeometry_tall (w h : Nat) (hw : 0 < w) (hh : 0 < h)
    (hwb : w < 2 ^ 49) (hhb : h < 2 ^ 49) (htall : 16 * w ≤ 9 * h) :
    cropGeometry w h =
      { sourceX := 0, sourceY := 0, sourceWidth := w,
        sourceHeight := roundDouble (16 * (w : ℚ) / 9),
        contentX := 0, contentY := 306, contentWidth := 1179, contentHeight := 2096 } := by
  have hno : ¬ (9 : ℚ) / 16 < divideNumbers w h := fun hlt =>
    absurd ((sourceAspect_gt_iff w h hw hh hwb hhb).mp hlt) (not_lt.mpr htall)
  rw [cropGeometry_eq, if_neg hno]
  have e : (w : ℚ) / (9 / 16) = 16 * (w : ℚ) / 9 := by
    field_simp
    ring
  unfold divideNumbers
  rw [e]

/-- The height that the tall case passes: the double nearest to `16 w / 9`, at most `h`. -/
theorem tallHeight_bounds (w h : Nat) (hw : 0 < w) (hwb : w < 2 ^ 49)
    (htall : 16 * w ≤ 9 * h) :
    1 ≤ roundDouble (16 * (w : ℚ) / 9) ∧ roundDouble (16 * (w : ℚ) / 9) ≤ h ∧
    |roundDouble (16 * (w : ℚ) / 9) * 9 - (w : ℚ) * 16| ≤ (w : ℚ) * 16 / 2 ^ 53 := by
  have hwb1 : w < 562949953421312 := by norm_num at hwb; exact hwb
  have hwq : (0 : ℚ) < w := by exact_mod_cast hw
  have hw1 : (1 : ℚ) ≤ w := by exact_mod_cast hw
  have hq : (0 : ℚ) < 16 * (w : ℚ) / 9 := by positivity
  have hb : 16 * (w : ℚ) / 9 < 2 ^ ((53 : Int) - (0 : ℕ)) := by
    have e : (2 : ℚ) ^ ((53 : Int) - (0 : ℕ)) = 9007199254740992 := by norm_num
    have : (w : ℚ) < 562949953421312 := by exact_mod_cast hwb1
    rw [e]
    linarith
  have hle : 16 * (w : ℚ) / 9 ≤ ((h : ℕ) : ℚ) / 2 ^ 0 := by
    have : ((16 * w : ℕ) : ℚ) ≤ ((9 * h : ℕ) : ℚ) := by exact_mod_cast htall
    push_cast at this
    simp only [pow_zero, div_one]
    linarith
  have hge : ((1 : ℕ) : ℚ) / 2 ^ 0 ≤ 16 * (w : ℚ) / 9 := by
    simp only [Nat.cast_one, pow_zero, div_one]
    linarith
  have h1 := le_roundDouble _ 1 0 hq hge hb
  have h2 := roundDouble_le _ h 0 hq hle hb
  have h3 := abs_roundDouble_sub _ hq
  simp only [Nat.cast_one, pow_zero, div_one] at h1 h2
  refine ⟨h1, h2, ?_⟩
  have e : roundDouble (16 * (w : ℚ) / 9) * 9 - (w : ℚ) * 16 =
      (roundDouble (16 * (w : ℚ) / 9) - 16 * (w : ℚ) / 9) * 9 := by ring
  rw [e, abs_mul, abs_of_pos (show (0 : ℚ) < 9 by norm_num)]
  calc |roundDouble (16 * (w : ℚ) / 9) - 16 * (w : ℚ) / 9| * 9
      ≤ 16 * (w : ℚ) / 9 / 2 ^ 53 * 9 := mul_le_mul_of_nonneg_right h3 (by norm_num)
    _ = (w : ℚ) * 16 / 2 ^ 53 := by ring

theorem roundDouble_sample :
    roundDouble (16 * 1000 / 9) = 3909374676536889 / 2199023255552 := by
  have h := roundDouble_eq (16 * 1000 / 9) 10 7818749353073778 (by norm_num) (by norm_num)
    (by
      rw [abs_lt]
      constructor <;> norm_num)
  rw [h]
  norm_num

/-- C27, as stated, fails: a thumbnail of 1000 by 2000 is cropped at its full width 1000 and
the height `1000 / 0.5625`, which is the double 1777.7777777777778 and not 16000/9, so that
the source rectangle is not exactly in the ratio 9:16. -/
theorem cropGeometry_ratio_counterexample :
    (cropGeometry 1000 2000).sourceWidth = 1000 ∧
    (cropGeometry 1000 2000).sourceHeight = 3909374676536889 / 2199023255552 ∧
    (cropGeometry 1000 2000).sourceWidth * 16 ≠ (cropGeometry 1000 2000).sourceHeight * 9 ∧
    (cropGeometry 1000 2000).sourceWidth * 2096 ≠
      (cropGeometry 1000 2000).sourceHeight * 1179 := by
  have e := cropGeometry_tall 1000 2000 (by norm_num) (by norm_num) (by norm_num)
    (by norm_num) (by norm_num)
  simp only [Nat.cast_ofNat] at e
  rw [e, roundDouble_sample]
  refine ⟨rfl, rfl, ?_, ?_⟩ <;> norm_num

/-- C27, amended. For a thumbnail of positive integer width `w` and height `h` (below 2^49),
the source rectangle that `generateiPhoneComposite` crops lies inside the thumbnail; when the
thumbnail is wider than 9:16 it is centred horizontally at full height and is exactly in the
ratio 1179:2096, which is 9:16; otherwise it is anchored at the top left at full width, and
its height is the double nearest to `16 w / 9`, so that the ratio is 9:16 up to the relative
error 2^-53 of one rounding, and exactly when 9 divides `w`; and the destination rectangle,
at (0, 306) with size 1179 by 2096, lies inside the canvas of 1179 by 2556. -/
theorem cropGeometry_spec (w h : Nat) (hw : 0 < w) (hh : 0 < h)
    (hwb : w < 2 ^ 49) (hhb : h < 2 ^ 49) :
    (0 ≤ (cropGeometry w h).sourceX ∧
      (cropGeometry w h).sourceX + (cropGeometry w h).sourceWidth ≤ w ∧
      (cropGeometry w h).sourceY = 0 ∧ (cropGeometry w h).sourceHeight ≤ h ∧
      0 < (cropGeometry w h).sourceWidth ∧ 0 < (cropGeometry w h).sourceHeight) ∧
    ((9 : ℚ) / 16 < (w : ℚ) / h →
      (cropGeometry w h).sourceX = w - ((cropGeometry w h).sourceX +
        (cropGeometry w h).sourceWidth) ∧
      (cropGeometry w h).sourceHeight = h ∧
      (cropGeometry w h).sourceWidth * 16 = (cropGeometry w h).sourceHeight * 9 ∧
      (cropGeometry w h).sourceWidth * 2096 = (cropGeometry w h).sourceHeight * 1179) ∧
    ((w : ℚ) / h ≤ 9 / 16 →
      (cropGeometry w h).sourceX = 0 ∧ (cropGeometry w h).sourceY = 0 ∧
      (cropGeometry w h).sourceWidth = w ∧
      (cropGeometry w h).sourceHeight = roundDouble (16 * (w : ℚ) / 9) ∧
      |(cropGeometry w h).sourceHeight * 9 - (cropGeometry w h).sourceWidth * 16| ≤
        (cropGeometry w h).sourceWidth * 16 / 2 ^ 53 ∧
      (9 ∣ w →
        (cropGeometry w h).sourceWidth * 16 = (cropGeometry w h).sourceHeight * 9)) ∧
    ((cropGeometry w h).contentX = 0 ∧ (cropGeometry w h).contentY = 306 ∧
      (cropGeometry w h).contentWidth = 1179 ∧ (cropGeometry w h).contentHeight = 2096 ∧
      0 ≤ (cropGeometry w h).contentX ∧ 0 ≤ (cropGeometry w h).contentY ∧
      (cropGeometry w h).contentX + (cropGeometry w h).contentWidth ≤ canvasWidth ∧
      (cropGeometry w h).contentY + (cropGeometry w h).contentHeight ≤ canvasHeight) := by
  have hhq : (0 : ℚ) < h := by exact_mod_cast hh
  have hwq : (0 : ℚ) < w := by exact_mod_cast hw
  have hratio : (9 : ℚ) / 16 < (w : ℚ) / h ↔ 9 * h < 16 * w := by
    rw [lt_div_iff₀ hhq]
    constructor
    · intro h1
      have : ((9 * h : ℕ) : ℚ) < ((16 * w : ℕ) : ℚ) := by
        push_cast
        linarith
      exact_mod_cast this
    · intro h1
      have : ((9 * h : ℕ) : ℚ) < ((16 * w : ℕ) : ℚ) := by exact_mod_cast h1
      push_cast at this
      linarith
  by_cases hwide : 9 * h < 16 * w
  · have hwideq : 9 * (h : ℚ) < 16 * w := by
      have : ((9 * h : ℕ) : ℚ) < ((16 * w : ℕ) : ℚ) := by exact_mod_cast hwide
      push_cast at this
      exact this
    rw [cropGeometry_wide w h hw hh hwb hhb hwide]
    dsimp only [canvasWidth, canvasHeight]
    refine ⟨⟨?_, ?_, rfl, le_refl _, ?_, hhq⟩, ?_, ?_, ⟨rfl, rfl, rfl, rfl, ?_, ?_, ?_, ?_⟩⟩
    · linarith
    · linarith
    · linarith
    · intro _
      exact ⟨by ring, rfl, by ring, by ring⟩
    · intro hle
      exact absurd (hratio.mpr hwide) (not_lt.mpr hle)
    · norm_num
    · norm_num
    · norm_num
    · norm_num
  · have htall : 16 * w ≤ 9 * h := not_lt.mp hwide
    obtain ⟨b1, b2, b3⟩ := tallHeight_bounds w h hw hwb htall
    have hwh : (w : ℚ) ≤ h := by
      have : w ≤ h := by omega
      exact_mod_cast this
    rw [cropGeometry_tall w h hw hh hwb hhb htall]
    dsimp only [canvasWidth, canvasHeight]
    refine ⟨⟨le_refl _, ?_, rfl, b2, hwq, ?_⟩, ?_, ?_, ⟨rfl, rfl, rfl, rfl, ?_, ?_, ?_, ?_⟩⟩
    · linarith
    · linarith
    · intro hlt
      exact absurd (hratio.mp hlt) hwide
    · intro _
      refine ⟨rfl, rfl, rfl, rfl, b3, ?_⟩
      rintro ⟨c, rfl⟩
      have hc : 16 * c < 2 ^ 53 := by
        norm_num at hwb ⊢
        omega
      have e : 16 * (((9 * c : ℕ)) : ℚ) / 9 = ((16 * c : ℕ) : ℚ) := by
        push_cast
        ring
      rw [e, roundDouble_natCast _ hc]
      push_cast
      ring
    · norm_num
    · norm_num
    · norm_num
    · norm_num

/-- An instance of C27: a square thumbnail of 1080 by 1080 is wider than 9:16, and its crop,
the middle strip of width 607.5, is exactly in the ratio 9:16. -/
theorem cropGeometry_spec_witness :
    (0 < 1080 ∧ 1080 < 2 ^ 49) ∧
    (9 : ℚ) / 16 < ((1080 : ℕ) : ℚ) / ((1080 : ℕ) : ℚ) ∧
    (cropGeometry ((1080 : ℕ) : ℚ) ((1080 : ℕ) : ℚ)).sourceWidth * 16 =
      (cropGeometry ((1080 : ℕ) : ℚ) ((1080 : ℕ) : ℚ)).sourceHeight * 9 :=
  ⟨⟨by norm_num, by norm_num⟩, by norm_num,
    ((cropGeometry_spec 1080 1080 (by norm_num) (by norm_num) (by norm_num)
      (by norm_num)).2.1 (by norm_num)).2.2.1⟩

end SPIE
